import Mathlib

/-!
Verification development for the minikin optimal line breaker core.

This file gives a shallow embedding, in Lean 4, of the code in
`src/libs/minikin/FontLanguage.cpp` and `src/libs/minikin/OptimalLineBreaker.cpp`,
together with theorems settling the frozen claims about that code.

Modelling conventions:
* C++ `float`/`double` arithmetic is modelled with `ℚ` (exact arithmetic); the claims
  under study are structural, not about rounding.
* C++ strings are `List Char`; machine integers are `Nat`/`Int`, with an explicit
  `% 2 ^ 32` where 32-bit wraparound matters.
* External collaborators that are not part of `src/` (the word-boundary iterator, the
  hyphenation pattern engine, hyphen-piece measurement, the locale cache) are modelled
  as function parameters, following the spec's description of their interfaces.
* Fallible code (the TAB assertion in `CharProcessor::feedChar`) returns `Option`.
-/

namespace minikin

/-! ## Part 1: FontLanguage (the locale tag), from src/libs/minikin/FontLanguage.cpp -/

/-- FIVE_BITS mask from FontLanguage.cpp. -/
def FIVE_BITS : Nat := 0x1f

/-- Variant field. Values from the spec's data model (FontLanguage.h is not in src/):
variant is one of none, German-1901, German-1996. -/
inductive Variant where
  | NO_VARIANT
  | GERMAN_1901_ORTHOGRAPHY
  | GERMAN_1996_ORTHOGRAPHY
deriving DecidableEq, Repr

/-- Emoji style values, as used in FontLanguage.cpp (EMSTYLE_*). -/
inductive EmojiStyle where
  | EMSTYLE_EMPTY
  | EMSTYLE_EMOJI
  | EMSTYLE_TEXT
  | EMSTYLE_DEFAULT
deriving DecidableEq, Repr

/-- Subscript bit flags. Modelled from the spec: subScriptBits is a bitset over
Bopomofo, Hangul, Han, SimplifiedChinese, TraditionalChinese, Hiragana, Katakana
(the concrete values live in FontLanguage.h, which is not in src/; only distinctness
of the bits matters). -/
def kBopomofoFlag : Nat := 1

def kHangulFlag : Nat := 2

def kHanFlag : Nat := 4

def kSimplifiedChineseFlag : Nat := 8

def kTraditionalChineseFlag : Nat := 16

def kHiraganaFlag : Nat := 32

def kKatakanaFlag : Nat := 64

/-- Pack a two- or three-letter code into 15 bits (packLanguageOrRegion in the source).
A two-letter code stores the full-bit sentinel 0x1f in the high five bits. -/
def packLanguageOrRegion (inp : List Char) (twoLetterBase threeLetterBase : Nat) : Nat :=
  if inp.length = 2 then
    (0x7c00 ||| (((inp.getD 0 'a').toNat - twoLetterBase) <<< 5)) |||
      ((inp.getD 1 'a').toNat - twoLetterBase)
  else
    ((((inp.getD 0 'a').toNat - threeLetterBase) <<< 10) |||
        (((inp.getD 1 'a').toNat - threeLetterBase) <<< 5)) |||
      ((inp.getD 2 'a').toNat - threeLetterBase)

/-- unpackLanguageOrRegion from the source: recover the two- or three-letter code. -/
def unpackLanguageOrRegion (x : Nat) (twoLetterBase threeLetterBase : Nat) : List Char :=
  let first := (x >>> 10) &&& FIVE_BITS
  let second := (x >>> 5) &&& FIVE_BITS
  let third := x &&& FIVE_BITS
  if first = 0x1f then
    [Char.ofNat (second + twoLetterBase), Char.ofNat (third + twoLetterBase)]
  else
    [Char.ofNat (first + threeLetterBase), Char.ofNat (second + threeLetterBase),
      Char.ofNat (third + threeLetterBase)]

def packLanguage (inp : List Char) : Nat :=
  packLanguageOrRegion inp 'a'.toNat 'a'.toNat

def unpackLanguage (x : Nat) : List Char :=
  unpackLanguageOrRegion x 'a'.toNat 'a'.toNat

def packRegion (inp : List Char) : Nat :=
  packLanguageOrRegion inp 'A'.toNat '0'.toNat

def unpackRegion (x : Nat) : List Char :=
  unpackLanguageOrRegion x 'A'.toNat '0'.toNat

/-- packScript over four characters (first letter base 'A', rest base 'a'). -/
def packScript4 (c1 c2 c3 c4 : Char) : Nat :=
  ((((c1.toNat - 'A'.toNat) <<< 15) ||| ((c2.toNat - 'a'.toNat) <<< 10)) |||
      ((c3.toNat - 'a'.toNat) <<< 5)) |||
    (c4.toNat - 'a'.toNat)

/-- unpackScript from the source: rebuild the four-byte script tag. -/
def unpackScript (packedScript : Nat) : Nat :=
  let first := (packedScript >>> 15) + 'A'.toNat
  let second := ((packedScript >>> 10) &&& FIVE_BITS) + 'a'.toNat
  let third := ((packedScript >>> 5) &&& FIVE_BITS) + 'a'.toNat
  let fourth := (packedScript &&& FIVE_BITS) + 'a'.toNat
  (((first <<< 24) ||| (second <<< 16)) ||| (third <<< 8)) ||| fourth

/-- isLowercase from the source ('a' <= c && c <= 'z', character codes compared). -/
def isLowercase (c : Char) : Bool :=
  'a'.toNat ≤ c.toNat && c.toNat ≤ 'z'.toNat

def isUppercase (c : Char) : Bool :=
  'A'.toNat ≤ c.toNat && c.toNat ≤ 'Z'.toNat

def isDigit (c : Char) : Bool :=
  '0'.toNat ≤ c.toNat && c.toNat ≤ '9'.toNat

/-- isValidLanguageCode from the source. -/
def isValidLanguageCode (buffer : List Char) : Bool :=
  if buffer.length ≠ 2 ∧ buffer.length ≠ 3 then false
  else if ¬ isLowercase (buffer.getD 0 'A') then false
  else if ¬ isLowercase (buffer.getD 1 'A') then false
  else if buffer.length = 3 ∧ ¬ isLowercase (buffer.getD 2 'A') then false
  else true

/-- isValidScriptCode from the source: four letters, first upper, rest lower. -/
def isValidScriptCode (buffer : List Char) : Bool :=
  buffer.length = 4 && isUppercase (buffer.getD 0 'a') && isLowercase (buffer.getD 1 'A') &&
    isLowercase (buffer.getD 2 'A') && isLowercase (buffer.getD 3 'A')

/-- isValidRegionCode from the source: two uppercase letters or three digits. -/
def isValidRegionCode (buffer : List Char) : Bool :=
  (buffer.length = 2 && isUppercase (buffer.getD 0 'a') && isUppercase (buffer.getD 1 'a')) ||
    (buffer.length = 3 && isDigit (buffer.getD 0 'a') && isDigit (buffer.getD 1 'a') &&
      isDigit (buffer.getD 2 'a'))

/-- The FontLanguage value. Absent language/script/region are `none` (the packed-integer
sentinels NO_LANGUAGE/NO_SCRIPT/NO_REGION live in FontLanguage.h, not in src/; the spec
describes these fields as simply absent). -/
structure FontLanguage where
  mLanguage : Option Nat := none
  mScript : Option Nat := none
  mRegion : Option Nat := none
  mSubScriptBits : Nat := 0
  mVariant : Variant := Variant.NO_VARIANT
  mEmojiStyle : EmojiStyle := EmojiStyle.EMSTYLE_EMPTY
deriving DecidableEq, Repr

instance : Inhabited FontLanguage := ⟨{}⟩

/-- scriptToSubScriptBits from the source. -/
def scriptToSubScriptBits (script : Nat) : Nat :=
  if script = packScript4 'B' 'o' 'p' 'o' then kBopomofoFlag
  else if script = packScript4 'H' 'a' 'n' 'g' then kHangulFlag
  else if script = packScript4 'H' 'a' 'n' 'b' then kHanFlag ||| kBopomofoFlag
  else if script = packScript4 'H' 'a' 'n' 'i' then kHanFlag
  else if script = packScript4 'H' 'a' 'n' 's' then kHanFlag ||| kSimplifiedChineseFlag
  else if script = packScript4 'H' 'a' 'n' 't' then kHanFlag ||| kTraditionalChineseFlag
  else if script = packScript4 'H' 'i' 'r' 'a' then kHiraganaFlag
  else if script = packScript4 'H' 'r' 'k' 't' then kKatakanaFlag ||| kHiraganaFlag
  else if script = packScript4 'J' 'p' 'a' 'n' then kHanFlag ||| kKatakanaFlag ||| kHiraganaFlag
  else if script = packScript4 'K' 'a' 'n' 'a' then kKatakanaFlag
  else if script = packScript4 'K' 'o' 'r' 'e' then kHanFlag ||| kHangulFlag
  else 0

/-- scriptToEmojiStyle from the source, on the optional packed script. -/
def scriptToEmojiStyle : Option Nat → EmojiStyle
  | some sc =>
    if sc = packScript4 'Z' 's' 'y' 'e' then EmojiStyle.EMSTYLE_EMOJI
    else if sc = packScript4 'Z' 's' 'y' 'm' then EmojiStyle.EMSTYLE_TEXT
    else EmojiStyle.EMSTYLE_EMPTY
  | none => EmojiStyle.EMSTYLE_EMPTY

/-- isEmojiSubtag from the source: subtag must be a head of buf and be terminated by
end-of-buffer, NUL, '-' or '_'. -/
def isEmojiSubtag (buf subtag : List Char) : Bool :=
  if buf.length < subtag.length then false
  else if ¬ subtag.isPrefixOf buf then false
  else
    buf.length = subtag.length || buf.getD subtag.length '?' = Char.ofNat 0 ||
      buf.getD subtag.length '?' = '-' || buf.getD subtag.length '?' = '_'

/-- Model of std::search composed with the advance past the pattern: the suffix of `s`
following the first occurrence of `pat`, or `none` when `pat` does not occur. -/
def findAfterPattern (pat : List Char) : List Char → Option (List Char)
  | [] => if pat.isPrefixOf ([] : List Char) then some [] else none
  | c :: rest =>
    if pat.isPrefixOf (c :: rest) then some ((c :: rest).drop pat.length)
    else findAfterPattern pat rest

/-- resolveEmojiStyle from the source: look for a literal "-u-em-" subtag. -/
def resolveEmojiStyle (buf : List Char) : EmojiStyle :=
  if 10 ≤ buf.length then
    match findAfterPattern ['-', 'u', '-', 'e', 'm', '-'] buf with
    | some pos =>
      if isEmojiSubtag pos ['e', 'm', 'o', 'j', 'i'] then EmojiStyle.EMSTYLE_EMOJI
      else if isEmojiSubtag pos ['t', 'e', 'x', 't'] then EmojiStyle.EMSTYLE_TEXT
      else if isEmojiSubtag pos ['d', 'e', 'f', 'a', 'u', 'l', 't'] then
        EmojiStyle.EMSTYLE_DEFAULT
      else EmojiStyle.EMSTYLE_EMPTY
    | none => EmojiStyle.EMSTYLE_EMPTY
  else EmojiStyle.EMSTYLE_EMPTY

/-- Token separators. Modelled from the spec: tokens of the BCP-47 subset string are
delimited by '-' or '_' (SplitIterator lives in StringPiece.h, not in src/). -/
def isTokenSep (c : Char) : Bool := c = '-' || c = '_'

/-- Modelled from the spec: SplitIterator turns the input into the list of tokens
between separators. -/
def splitTokens : List Char → List (List Char)
  | [] => [[]]
  | c :: rest =>
    if isTokenSep c then [] :: splitTokens rest
    else
      match splitTokens rest with
      | [] => [[c]]
      | t :: ts => (c :: t) :: ts

/-- The finalize label of the FontLanguage constructor: fill the emoji style from the
script when no explicit subtag was seen. -/
def finalizeTag (f : FontLanguage) : FontLanguage :=
  if f.mEmojiStyle = EmojiStyle.EMSTYLE_EMPTY then
    { f with mEmojiStyle := scriptToEmojiStyle f.mScript }
  else f

/-- The `mEmojiStyle = resolveEmojiStyle(...)` line of the constructor followed by
finalize. -/
def emojiStage (input : List Char) (f : FontLanguage) : FontLanguage :=
  finalizeTag { f with mEmojiStyle := resolveEmojiStyle input }

/-- The German-variant stage of the constructor. -/
def variantStage (input language : List Char) (f : FontLanguage) (token : List Char)
    (ts : List (List Char)) : FontLanguage :=
  if language = ['d', 'e'] then
    let f' :=
      if token = ['1', '9', '0', '1'] then
        { f with mVariant := Variant.GERMAN_1901_ORTHOGRAPHY }
      else if token = ['1', '9', '9', '6'] then
        { f with mVariant := Variant.GERMAN_1996_ORTHOGRAPHY }
      else f
    if f'.mVariant ≠ Variant.NO_VARIANT then
      match ts with
      | [] => finalizeTag f'
      | _ :: _ => emojiStage input f'
    else emojiStage input f'
  else emojiStage input f

/-- The region stage of the constructor. -/
def regionStage (input language : List Char) (f : FontLanguage) (token : List Char)
    (ts : List (List Char)) : FontLanguage :=
  if isValidRegionCode token then
    let f' := { f with mRegion := some (packRegion token) }
    match ts with
    | [] => finalizeTag f'
    | t :: ts1 => variantStage input language f' t ts1
  else variantStage input language f token ts

/-- The script stage of the constructor. -/
def scriptStage (input language : List Char) (f : FontLanguage) (token : List Char)
    (ts : List (List Char)) : FontLanguage :=
  if isValidScriptCode token then
    let sc := packScript4 (token.getD 0 'A') (token.getD 1 'a') (token.getD 2 'a')
      (token.getD 3 'a')
    let f' := { f with mScript := some sc, mSubScriptBits := scriptToSubScriptBits sc }
    match ts with
    | [] => finalizeTag f'
    | t :: ts1 => regionStage input language f' t ts1
  else regionStage input language f token ts

/-- The FontLanguage constructor from a BCP-47 subset string (FontLanguage::FontLanguage
in the source). An invalid language token (and the early language-only return) skips the
finalize label, exactly as the `return` statements do in the source. -/
def parseTag (input : List Char) : FontLanguage :=
  match splitTokens input with
  | [] => {}
  | language :: ts =>
    if ¬ isValidLanguageCode language then {}
    else
      let f : FontLanguage := { mLanguage := some (packLanguage language) }
      match ts with
      | [] => f
      | token :: ts1 => scriptStage input language f token ts1

/-- FontLanguage::getString from the source, building the canonical string. -/
def FontLanguage.getString (f : FontLanguage) : List Char :=
  (match f.mLanguage with
    | none => ['u', 'n', 'd']
    | some l => unpackLanguage l) ++
  (match f.mScript with
    | none => []
    | some sc =>
      let raw := unpackScript sc
      ['-', Char.ofNat ((raw >>> 24) &&& 0xFF), Char.ofNat ((raw >>> 16) &&& 0xFF),
        Char.ofNat ((raw >>> 8) &&& 0xFF), Char.ofNat (raw &&& 0xFF)]) ++
  (match f.mRegion with
    | none => []
    | some r => '-' :: unpackRegion r) ++
  (match f.mVariant with
    | Variant.NO_VARIANT => []
    | Variant.GERMAN_1901_ORTHOGRAPHY => ['-', '1', '9', '0', '1']
    | Variant.GERMAN_1996_ORTHOGRAPHY => ['-', '1', '9', '9', '6'])

/-- FontLanguage::isEqualScript from the source. -/
def FontLanguage.isEqualScript (self other : FontLanguage) : Bool :=
  other.mScript = self.mScript

/-- FontLanguage::supportsScript from the source. -/
def supportsScript (providedBits requestedBits : Nat) : Bool :=
  requestedBits ≠ 0 && (providedBits &&& requestedBits) = requestedBits

/-- A FontLanguages list (the members computed by its constructor are derived below). -/
structure FontLanguages where
  mLanguages : List FontLanguage
deriving DecidableEq, Repr

/-- The union of subscript bits computed by the FontLanguages constructor
(0 when the list is empty). -/
def FontLanguages.getUnionOfSubScriptBits (fls : FontLanguages) : Nat :=
  fls.mLanguages.foldl (fun acc l => acc ||| l.mSubScriptBits) 0

/-- mIsAllTheSameLanguage as computed by the FontLanguages constructor
(false for an empty list, its default member value). -/
def FontLanguages.isAllTheSameLanguage (fls : FontLanguages) : Bool :=
  match fls.mLanguages with
  | [] => false
  | l :: rest => rest.all fun x => x.mLanguage = l.mLanguage

/-- The loop of FontLanguage::calcScoreFor. `none` models the early `return 4`;
`some` carries (languageScriptMatch, subtagMatch, scriptMatch) out of the loop. -/
def calcLoop (self : FontLanguage) :
    List FontLanguage → Bool → Bool → Bool → Option (Bool × Bool × Bool)
  | [], languageScriptMatch, subtagMatch, scriptMatch =>
    some (languageScriptMatch, subtagMatch, scriptMatch)
  | s :: rest, languageScriptMatch, subtagMatch, scriptMatch =>
    let emojiHit := self.mEmojiStyle ≠ EmojiStyle.EMSTYLE_EMPTY &&
      self.mEmojiStyle = s.mEmojiStyle
    let subtagMatch2 := subtagMatch || emojiHit
    if emojiHit && self.mLanguage = s.mLanguage then none
    else
      let scriptHit := self.isEqualScript s ||
        supportsScript s.mSubScriptBits self.mSubScriptBits
      calcLoop self rest (languageScriptMatch || (scriptHit && self.mLanguage = s.mLanguage))
        subtagMatch2 (scriptMatch || scriptHit)

/-- FontLanguage::calcScoreFor from the source. -/
def FontLanguage.calcScoreFor (self : FontLanguage) (supported : FontLanguages) : Int :=
  match calcLoop self supported.mLanguages false false false with
  | none => 4
  | some (languageScriptMatch, subtagMatch, scriptMatch) =>
    let unionHit := supportsScript supported.getUnionOfSubScriptBits self.mSubScriptBits
    let scriptMatch2 := scriptMatch || unionHit
    if unionHit &&
        (self.mLanguage = (supported.mLanguages.headD {}).mLanguage &&
          supported.isAllTheSameLanguage) then 3
    else if languageScriptMatch then 3
    else if subtagMatch then 2
    else if scriptMatch2 then 1
    else 0

/-! ## Part 2: spec-side definitions for the LocaleTag round-trip claim -/

/-- Modelled from the spec: an optional subtag rendered with its leading '-'. -/
def optPart : Option (List Char) → List Char
  | none => []
  | some t => '-' :: t

/-- Modelled from the spec: an optional subtag as a token list. -/
def optTokens : Option (List Char) → List (List Char)
  | none => []
  | some t => [t]

/-- Modelled from the spec: the canonical string of the claim grammar
lang [-script] [-region] [-variant] [-u-em-subtag]. -/
def buildTag (lang : List Char) (script region variant emoji : Option (List Char)) :
    List Char :=
  lang ++ optPart script ++ optPart region ++ optPart variant ++
    (match emoji with
      | none => []
      | some e => ['-', 'u', '-', 'e', 'm', '-'] ++ e)

/-- Modelled from the spec: validity of the components of a BCP-47 subset string
(lang: 2-3 lowercase letters; script: 4 letters, first upper; region: 2 uppercase or
3 digits; variant: 1901 or 1996, recognized only for lang "de"; emoji subtag:
emoji, text or default). -/
def validComponents (lang : List Char) (script region variant emoji : Option (List Char)) :
    Prop :=
  isValidLanguageCode lang = true ∧
  (∀ t ∈ script, isValidScriptCode t = true) ∧
  (∀ t ∈ region, isValidRegionCode t = true) ∧
  (∀ t ∈ variant, (t = ['1', '9', '0', '1'] ∨ t = ['1', '9', '9', '6']) ∧
    lang = ['d', 'e']) ∧
  (∀ t ∈ emoji, t = ['e', 'm', 'o', 'j', 'i'] ∨ t = ['t', 'e', 'x', 't'] ∨
    t = ['d', 'e', 'f', 'a', 'u', 'l', 't'])

/-! ## Part 3: the optimal line breaker, from src/libs/minikin/OptimalLineBreaker.cpp

C++ `float`/`double` values are modelled as ℚ. The external collaborators that are not
part of src/ (WordBreaker, Hyphenator, hyphen-piece measurement, the locale cache, the
isWordSpace/isLineEndSpace tables of LayoutUtils) enter as function-valued parameters,
bundled in `LineBreakExternals` below, following the interfaces the spec describes. -/

/-- SCORE_INFTY: std::numeric_limits of float max, (2 - 2^-23) * 2^127 exactly. -/
def SCORE_INFTY : ℚ := 2 ^ 128 - 2 ^ 104

/-- SCORE_OVERFULL from the source. -/
def SCORE_OVERFULL : ℚ := 10 ^ 12

/-- SCORE_DESPERATE from the source. -/
def SCORE_DESPERATE : ℚ := 10 ^ 10

/-- LAST_LINE_PENALTY_MULTIPLIER from the source. -/
def LAST_LINE_PENALTY_MULTIPLIER : ℚ := 4

/-- LINE_PENALTY_MULTIPLIER from the source. -/
def LINE_PENALTY_MULTIPLIER : ℚ := 2

/-- SHRINK_PENALTY_MULTIPLIER from the source. -/
def SHRINK_PENALTY_MULTIPLIER : ℚ := 4

/-- SHRINKABILITY from the source. -/
def SHRINKABILITY : ℚ := 1 / 3

/-- CHAR_TAB (minikin/Characters.h is not in src/; the spec says the rejected code unit
is TAB, U+0009). -/
def CHAR_TAB : Nat := 0x0009

/-- A half-open range of code units (minikin/Range.h is not in src/; the spec describes
half-open character ranges [start, end)). -/
structure Range where
  start : Nat
  stop : Nat
deriving DecidableEq, Repr

/-- Range::contains for ranges: nested inclusion. -/
def Range.containsRange (r other : Range) : Prop :=
  r.start ≤ other.start ∧ other.stop ≤ r.stop

instance (r other : Range) : Decidable (r.containsRange other) := by
  unfold Range.containsRange; infer_instance

/-- Range::split at an offset. -/
def Range.split (r : Range) (pos : Nat) : Range × Range :=
  (⟨r.start, pos⟩, ⟨pos, r.stop⟩)

/-- Range::toRangeOffset. -/
def Range.toRangeOffset (r : Range) (pos : Nat) : Nat := pos - r.start

/-- HyphenationType (minikin/Hyphenator.h is not in src/; the spec describes don't-break,
break-without-hyphen, and a family of break-with-hyphen-edit variants, of which one
representative is kept). -/
inductive HyphenationType where
  | DONT_BREAK
  | BREAK_AND_INSERT_HYPHEN
  | BREAK_AND_DONT_INSERT_HYPHEN
deriving DecidableEq, Repr

/-- Start-of-line hyphen edits (minikin/Hyphenator.h is not in src/; the spec only needs
a no-edit value and an insertion family). -/
inductive StartHyphenEdit where
  | NO_EDIT
  | INSERT_HYPHEN
deriving DecidableEq, Repr

/-- End-of-line hyphen edits. -/
inductive EndHyphenEdit where
  | NO_EDIT
  | INSERT_HYPHEN
deriving DecidableEq, Repr

/-- Modelled from the spec: the hyphen edit applied to the end of the line broken at a
hyphenation point of the given type. -/
def editForThisLine : HyphenationType → EndHyphenEdit
  | HyphenationType.BREAK_AND_INSERT_HYPHEN => EndHyphenEdit.INSERT_HYPHEN
  | _ => EndHyphenEdit.NO_EDIT

/-- Modelled from the spec: the hyphen edit applied to the start of the following line. -/
def editForNextLine : HyphenationType → StartHyphenEdit
  | _ => StartHyphenEdit.NO_EDIT

/-- BreakStrategy (minikin/LineBreaker.h is not in src/; the spec lists greedy, balanced
and high-quality). -/
inductive BreakStrategy where
  | Greedy
  | Balanced
  | HighQuality
deriving DecidableEq, Repr

/-- HyphenationFrequency. -/
inductive HyphenationFrequency where
  | None
  | Normal
  | Full
deriving DecidableEq, Repr

/-- A bidi/style run, read-only to the core (minikin/Layout.h style Run is not in src/;
fields follow the spec's Run description). The hyphen-piece measurement service is a
function-valued field. -/
structure Run where
  range : Range
  isRtl : Bool
  localeListId : Nat
  canHyphenate : Bool
  paintSize : ℚ
  paintScaleX : ℚ
  measureHyphenPiece : Range → StartHyphenEdit → EndHyphenEdit → ℚ

/-- Vertical metrics (MinikinExtent; the spec says extendBy is the component-wise max). -/
structure MinikinExtent where
  ascent : ℚ
  descent : ℚ
  lineGap : ℚ
deriving DecidableEq, Repr

/-- Modelled from the spec: MinikinExtent::extendBy is the component-wise max. -/
def MinikinExtent.extendBy (e other : MinikinExtent) : MinikinExtent :=
  ⟨max e.ascent other.ascent, max e.descent other.descent, max e.lineGap other.lineGap⟩

/-- The measured paragraph: per-character widths and extents plus its runs
(MeasuredText is not in src/; fields follow the spec). -/
structure MeasuredText where
  widths : Nat → ℚ
  extents : Nat → MinikinExtent
  runs : List Run

/-- The per-line width callback (LineWidth is not in src/; the spec describes a function
from line number to usable width plus a minimum). -/
structure LineWidth where
  getAt : Nat → ℚ
  getMin : ℚ

/-- External collaborators of the candidate builder, modelled as functions:
the text buffer, the word-boundary iterator (ICU-like, locale keyed), the word-space /
line-end-space classification of LayoutUtils, the locale cache, the hyphenation engine
and the word-break badness. All of these live outside src/. -/
structure LineBreakExternals where
  text : Nat → Nat
  nextBoundary : Nat → Nat → Nat
  followingBoundary : Nat → Nat → Nat
  wordRangeFn : Nat → Nat → Range
  breakBadness : Nat → Nat → Int
  effectiveLocale : Nat → Nat
  hyphenateFn : Nat → Range → List HyphenationType
  isWordSpaceFn : Nat → Bool
  isLineEndSpaceFn : Nat → Bool

/-- A single candidate break (struct Candidate in the source). -/
structure Candidate where
  offset : Nat
  preBreak : ℚ
  postBreak : ℚ
  penalty : ℚ
  preSpaceCount : Nat
  postSpaceCount : Nat
  hyphenType : HyphenationType
  isRtl : Bool
deriving DecidableEq, Repr

/-- The optimization context (struct OptimizeContext in the source). -/
structure OptimizeContext where
  candidates : List Candidate
  linePenalty : ℚ
  spaceWidth : ℚ
deriving DecidableEq, Repr

/-- OptimizeContext::pushDesperate from the source. -/
def OptimizeContext.pushDesperate (ctx : OptimizeContext) (offset : Nat)
    (sumOfCharWidths : ℚ) (spaceCount : Nat) (isRtl : Bool) : OptimizeContext :=
  { ctx with candidates := ctx.candidates ++
      [⟨offset, sumOfCharWidths, sumOfCharWidths, SCORE_DESPERATE, spaceCount, spaceCount,
        HyphenationType.BREAK_AND_DONT_INSERT_HYPHEN, isRtl⟩] }

/-- OptimizeContext::pushHyphenation from the source. -/
def OptimizeContext.pushHyphenation (ctx : OptimizeContext) (offset : Nat)
    (preBreak postBreak penalty : ℚ) (spaceCount : Nat) (type : HyphenationType)
    (isRtl : Bool) : OptimizeContext :=
  { ctx with candidates := ctx.candidates ++
      [⟨offset, preBreak, postBreak, penalty, spaceCount, spaceCount, type, isRtl⟩] }

/-- OptimizeContext::pushWordBreak from the source. -/
def OptimizeContext.pushWordBreak (ctx : OptimizeContext) (offset : Nat)
    (preBreak postBreak penalty : ℚ) (preSpaceCount postSpaceCount : Nat)
    (isRtl : Bool) : OptimizeContext :=
  { ctx with candidates := ctx.candidates ++
      [⟨offset, preBreak, postBreak, penalty, preSpaceCount, postSpaceCount,
        HyphenationType.DONT_BREAK, isRtl⟩] }

/-- The OptimizeContext constructor: the sentinel candidate at offset 0. -/
def OptimizeContext.init : OptimizeContext :=
  ⟨[⟨0, 0, 0, 0, 0, 0, HyphenationType.DONT_BREAK, false⟩], 0, 0⟩

/-- computePenalties from the source: (hyphenPenalty, linePenalty) for a run. -/
def computePenalties (run : Run) (lineWidth : LineWidth)
    (frequency : HyphenationFrequency) (justified : Bool) : ℚ × ℚ :=
  let hyphenPenalty0 : ℚ := (1 / 2) * run.paintSize * run.paintScaleX * lineWidth.getAt 0
  let hyphenPenalty1 :=
    if frequency = HyphenationFrequency.Normal then hyphenPenalty0 * 4 else hyphenPenalty0
  if justified then (hyphenPenalty1 * (1 / 4), 0)
  else (hyphenPenalty1, hyphenPenalty1 * LINE_PENALTY_MULTIPLIER)

/-- The streaming character processor (struct CharProcessor in the source). The word
breaker's state is its current locale plus the prev/next boundary offsets. -/
structure CharProcessor where
  rawSpaceCount : Nat
  effectiveSpaceCount : Nat
  sumOfCharWidths : ℚ
  effectiveWidth : ℚ
  sumOfCharWidthsAtPrevWordBreak : ℚ
  nextWordBreak : Nat
  prevWordBreak : Nat
  spaceWidth : ℚ
  hyphenator : Nat
  localeListId : Option Nat
  curLocale : Nat
deriving DecidableEq, Repr

/-- The CharProcessor constructor state (locale list id starts out invalid). -/
def CharProcessor.init : CharProcessor :=
  ⟨0, 0, 0, 0, 0, 0, 0, 0, 0, none, 0⟩

/-- CharProcessor word/context ranges. -/
def CharProcessor.contextRange (proc : CharProcessor) : Range :=
  ⟨proc.prevWordBreak, proc.nextWordBreak⟩

def CharProcessor.wordRange (ext : LineBreakExternals) (proc : CharProcessor) : Range :=
  ext.wordRangeFn proc.prevWordBreak proc.nextWordBreak

def CharProcessor.widthFromLastWordBreak (proc : CharProcessor) : ℚ :=
  proc.effectiveWidth - proc.sumOfCharWidthsAtPrevWordBreak

/-- CharProcessor::updateLocaleIfNecessary from the source: on a locale-list change,
advance the breaker to the first boundary at-or-after the run start and refresh the
hyphenator. -/
def CharProcessor.updateLocaleIfNecessary (ext : LineBreakExternals) (run : Run)
    (proc : CharProcessor) : CharProcessor :=
  let newLocaleListId := run.localeListId
  if proc.localeListId ≠ some newLocaleListId then
    let locale := ext.effectiveLocale newLocaleListId
    { proc with
        nextWordBreak := ext.followingBoundary locale run.range.start
        hyphenator := locale
        localeListId := some newLocaleListId
        curLocale := locale }
  else proc

/-- CharProcessor::feedChar from the source. `none` models the MINIKIN_ASSERT failure
on a TAB code unit (per the spec, TAB is fatal for the paragraph). -/
def CharProcessor.feedChar (ext : LineBreakExternals) (proc : CharProcessor)
    (idx : Nat) (c : Nat) (w : ℚ) : Option CharProcessor :=
  if c = CHAR_TAB then none
  else
    let proc :=
      if idx = proc.nextWordBreak then
        { proc with
            prevWordBreak := proc.nextWordBreak
            nextWordBreak := ext.nextBoundary proc.curLocale proc.nextWordBreak
            sumOfCharWidthsAtPrevWordBreak := proc.sumOfCharWidths }
      else proc
    let proc :=
      if ext.isWordSpaceFn c then
        { proc with rawSpaceCount := proc.rawSpaceCount + 1, spaceWidth := w }
      else proc
    let proc := { proc with sumOfCharWidths := proc.sumOfCharWidths + w }
    some (if ext.isLineEndSpaceFn c then proc
      else { proc with
          effectiveSpaceCount := proc.rawSpaceCount
          effectiveWidth := proc.sumOfCharWidths })

/-- A hyphenation break point (struct HyphenBreak in the source). -/
structure HyphenBreak where
  offset : Nat
  type : HyphenationType
  first : ℚ
  second : ℚ
deriving DecidableEq, Repr

/-- populateHyphenationPoints from the source. The range guard drops the word's
hyphenation candidates wholesale when the measured sub-ranges would leave the run or
the context. -/
def populateHyphenationPoints (ext : LineBreakExternals) (run : Run) (hyphenator : Nat)
    (contextRange wordRange : Range) : List HyphenBreak :=
  if ¬ (run.range.containsRange contextRange ∧ contextRange.containsRange wordRange) then
    []
  else
    let hyphenResult := ext.hyphenateFn hyphenator wordRange
    (List.range' wordRange.start (wordRange.stop - wordRange.start)).filterMap fun i =>
      let hyph := hyphenResult.getD (wordRange.toRangeOffset i) HyphenationType.DONT_BREAK
      if hyph = HyphenationType.DONT_BREAK then none
      else
        let hyphenPart := contextRange.split i
        let first := run.measureHyphenPiece hyphenPart.1 StartHyphenEdit.NO_EDIT
          (editForThisLine hyph)
        let second := run.measureHyphenPiece hyphenPart.2 (editForNextLine hyph)
          EndHyphenEdit.NO_EDIT
        some ⟨i, hyph, first, second⟩

/-- A desperate break point (struct DesperateBreak in the source). -/
structure DesperateBreak where
  offset : Nat
  sumOfChars : ℚ
deriving DecidableEq, Repr

/-- The loop body of populateDesperatePoints: positions with zero width are skipped. -/
def desperateLoop (widths : Nat → ℚ) : List Nat → ℚ → List DesperateBreak
  | [], _ => []
  | i :: rest, width =>
    let w := widths i
    if w = 0 then desperateLoop widths rest width
    else ⟨i, width⟩ :: desperateLoop widths rest (width + w)

/-- populateDesperatePoints from the source. -/
def populateDesperatePoints (measured : MeasuredText) (range : Range) :
    List DesperateBreak :=
  desperateLoop measured.widths (List.range' (range.start + 1) (range.stop - (range.start + 1)))
    (measured.widths range.start)

/-- The merged candidate block built by appendWithMerging: a desperate break rendered
as a candidate. -/
def despCandidate (proc : CharProcessor) (isRtl : Bool) (d : DesperateBreak) : Candidate :=
  ⟨d.offset, proc.sumOfCharWidthsAtPrevWordBreak + d.sumOfChars,
    proc.sumOfCharWidthsAtPrevWordBreak + d.sumOfChars, SCORE_DESPERATE,
    proc.effectiveSpaceCount, proc.effectiveSpaceCount,
    HyphenationType.BREAK_AND_DONT_INSERT_HYPHEN, isRtl⟩

/-- A hyphenation break rendered as a candidate by appendWithMerging. -/
def hyphCandidate (proc : CharProcessor) (hyphenPenalty : ℚ) (isRtl : Bool)
    (h : HyphenBreak) : Candidate :=
  ⟨h.offset, proc.sumOfCharWidths - h.second,
    proc.sumOfCharWidthsAtPrevWordBreak + h.first, hyphenPenalty,
    proc.effectiveSpaceCount, proc.effectiveSpaceCount, h.type, isRtl⟩

/-- The merge loop of appendWithMerging (the while loop of the source): if hyphenation
and desperate break points share an offset, the desperate break goes first
(`d->offset <= h->offset` in the source). -/
def appendMergeLoop (proc : CharProcessor) (hyphenPenalty : ℚ) (isRtl : Bool) :
    List HyphenBreak → List DesperateBreak → OptimizeContext → OptimizeContext
  | [], [], out => out
  | h :: hs, [], out =>
    appendMergeLoop proc hyphenPenalty isRtl hs []
      (out.pushHyphenation h.offset (proc.sumOfCharWidths - h.second)
        (proc.sumOfCharWidthsAtPrevWordBreak + h.first) hyphenPenalty
        proc.effectiveSpaceCount h.type isRtl)
  | [], d :: ds, out =>
    appendMergeLoop proc hyphenPenalty isRtl [] ds
      (out.pushDesperate d.offset (proc.sumOfCharWidthsAtPrevWordBreak + d.sumOfChars)
        proc.effectiveSpaceCount isRtl)
  | h :: hs, d :: ds, out =>
    if d.offset ≤ h.offset then
      appendMergeLoop proc hyphenPenalty isRtl (h :: hs) ds
        (out.pushDesperate d.offset (proc.sumOfCharWidthsAtPrevWordBreak + d.sumOfChars)
          proc.effectiveSpaceCount isRtl)
    else
      appendMergeLoop proc hyphenPenalty isRtl hs (d :: ds)
        (out.pushHyphenation h.offset (proc.sumOfCharWidths - h.second)
          (proc.sumOfCharWidthsAtPrevWordBreak + h.first) hyphenPenalty
          proc.effectiveSpaceCount h.type isRtl)
termination_by hs ds => hs.length + ds.length

/-- appendWithMerging from the source. -/
def appendWithMerging (hyphens : List HyphenBreak) (desperates : List DesperateBreak)
    (proc : CharProcessor) (hyphenPenalty : ℚ) (isRtl : Bool) (out : OptimizeContext) :
    OptimizeContext :=
  appendMergeLoop proc hyphenPenalty isRtl hyphens desperates out

/-- The list of candidates produced by one appendWithMerging call, used to reason about
the merge loop. -/
def mergedBlock (proc : CharProcessor) (hyphenPenalty : ℚ) (isRtl : Bool) :
    List HyphenBreak → List DesperateBreak → List Candidate
  | [], [] => []
  | h :: hs, [] =>
    hyphCandidate proc hyphenPenalty isRtl h :: mergedBlock proc hyphenPenalty isRtl hs []
  | [], d :: ds => despCandidate proc isRtl d :: mergedBlock proc hyphenPenalty isRtl [] ds
  | h :: hs, d :: ds =>
    if d.offset ≤ h.offset then
      despCandidate proc isRtl d :: mergedBlock proc hyphenPenalty isRtl (h :: hs) ds
    else
      hyphCandidate proc hyphenPenalty isRtl h :: mergedBlock proc hyphenPenalty isRtl hs (d :: ds)
termination_by hs ds => hs.length + ds.length

/-- One iteration of the character loop of populateCandidates (the body of the inner
`for` over a run's characters). -/
def runCharStep (ext : LineBreakExternals) (measured : MeasuredText) (minLineWidth : ℚ)
    (frequency : HyphenationFrequency) (run : Run) (hyphenPenalty : ℚ)
    (st : CharProcessor × OptimizeContext) (i : Nat) :
    Option (CharProcessor × OptimizeContext) := do
  let proc ← st.1.feedChar ext i (ext.text i) (measured.widths i)
  let result := st.2
  let nextCharOffset := i + 1
  if nextCharOffset ≠ proc.nextWordBreak then
    return (proc, result)
  else
    let contextRange := proc.contextRange
    let hyphenedBreaks :=
      if run.canHyphenate ∧ frequency ≠ HyphenationFrequency.None then
        populateHyphenationPoints ext run proc.hyphenator contextRange
          (CharProcessor.wordRange ext proc)
      else []
    let desperateBreaks :=
      if proc.widthFromLastWordBreak > minLineWidth then
        populateDesperatePoints measured contextRange
      else []
    let result := appendWithMerging hyphenedBreaks desperateBreaks proc hyphenPenalty
      run.isRtl result
    let result :=
      if nextCharOffset = run.range.stop ∨ measured.widths nextCharOffset > 0 then
        result.pushWordBreak nextCharOffset proc.sumOfCharWidths proc.effectiveWidth
          (hyphenPenalty * (ext.breakBadness proc.prevWordBreak proc.nextWordBreak : ℚ))
          proc.rawSpaceCount proc.effectiveSpaceCount run.isRtl
      else result
    return (proc, result)

/-- One run of the outer loop of populateCandidates. -/
def processRun (ext : LineBreakExternals) (measured : MeasuredText)
    (lineWidth : LineWidth) (frequency : HyphenationFrequency) (isJustified : Bool)
    (minLineWidth : ℚ) (st : CharProcessor × OptimizeContext) (run : Run) :
    Option (CharProcessor × OptimizeContext) :=
  let penalties := computePenalties run lineWidth frequency isJustified
  let hyphenPenalty := if run.canHyphenate then penalties.1 else 0
  let result :=
    if run.canHyphenate then { st.2 with linePenalty := max penalties.2 st.2.linePenalty }
    else st.2
  let proc := st.1.updateLocaleIfNecessary ext run
  (List.range' run.range.start (run.range.stop - run.range.start)).foldlM
    (runCharStep ext measured minLineWidth frequency run hyphenPenalty) (proc, result)

/-- populateCandidates from the source. `none` models the TAB assertion firing. -/
def populateCandidates (ext : LineBreakExternals) (measured : MeasuredText)
    (lineWidth : LineWidth) (frequency : HyphenationFrequency) (isJustified : Bool) :
    Option OptimizeContext := do
  let minLineWidth := lineWidth.getMin
  let st ← measured.runs.foldlM
    (processRun ext measured lineWidth frequency isJustified minLineWidth)
    (CharProcessor.init, OptimizeContext.init)
  return { st.2 with spaceWidth := st.1.spaceWidth }

instance : Inhabited Candidate :=
  ⟨⟨0, 0, 0, 0, 0, 0, HyphenationType.DONT_BREAK, false⟩⟩

/-- Per-candidate data of the optimizer (struct OptimalBreaksData in the source). -/
structure OptimalBreaksData where
  score : ℚ
  prev : Nat
  lineNumber : Nat
deriving DecidableEq, Repr

instance : Inhabited OptimalBreaksData := ⟨⟨0, 0, 0⟩⟩

/-- The mutable locals of the inner loop of LineBreakOptimizer::computeBreaks. -/
structure InnerState where
  active : Nat
  lineNumberLast : Nat
  width : ℚ
  leftEdge : ℚ
  bestHope : ℚ
  best : ℚ
  bestPrev : Nat
deriving DecidableEq, Repr

/-- The `lineNumber != lineNumberLast` refresh block at the head of the inner loop of
computeBreaks (source lines 495-504), exactly as written: when the new line width
differs, `leftEdge` is assigned `candidates[i].postBreak - width` with `width` still
holding its previous value, and only then is `width` set to the new value. -/
def refreshedState (candidates : List Candidate) (lineWidth : LineWidth)
    (breaksData : List OptimalBreaksData) (i : Nat) (s : InnerState) (j : Nat) :
    InnerState :=
  let lineNumber := (breaksData.getD j default).lineNumber
  if lineNumber ≠ s.lineNumberLast then
    let widthNew := lineWidth.getAt lineNumber
    if widthNew ≠ s.width then
      { s with
          leftEdge := (candidates.getD i default).postBreak - s.width
          bestHope := 0
          width := widthNew
          lineNumberLast := lineNumber }
    else { s with lineNumberLast := lineNumber }
  else s

/-- The widthScore/additionalPenalty computation of the inner loop of computeBreaks
(source lines 514-531). The space-count difference is 32-bit unsigned arithmetic. -/
def computeWidthScore (atEnd justified : Bool) (strategy : BreakStrategy)
    (maxShrink delta penaltyJ : ℚ) (postSpaceI preSpaceJ : Nat) : ℚ × ℚ :=
  if (atEnd || !justified) = true ∧ delta < 0 then (SCORE_OVERFULL, 0)
  else if atEnd = true ∧ strategy ≠ BreakStrategy.Balanced then
    (0, LAST_LINE_PENALTY_MULTIPLIER * penaltyJ)
  else
    let widthScore := delta * delta
    if delta < 0 then
      if -delta < maxShrink * (((postSpaceI + 2 ^ 32 - preSpaceJ) % 2 ^ 32 : Nat) : ℚ) then
        (widthScore * SHRINK_PENALTY_MULTIPLIER, 0)
      else (SCORE_OVERFULL, 0)
    else (widthScore, 0)

/-- One iteration of the inner loop of computeBreaks (one value of `j`). -/
def innerStep (candidates : List Candidate) (lineWidth : LineWidth)
    (breaksData : List OptimalBreaksData) (maxShrink : ℚ) (justified : Bool)
    (strategy : BreakStrategy) (atEnd : Bool) (i : Nat) (s : InnerState) (j : Nat) :
    InnerState :=
  let s := refreshedState candidates lineWidth breaksData i s j
  let jScore := (breaksData.getD j default).score
  if jScore + s.bestHope ≥ s.best then s
  else
    let delta := (candidates.getD j default).preBreak - s.leftEdge
    let ws := computeWidthScore atEnd justified strategy maxShrink delta
      (candidates.getD j default).penalty (candidates.getD i default).postSpaceCount
      (candidates.getD j default).preSpaceCount
    let s := if delta < 0 then { s with active := j + 1 } else { s with bestHope := ws.1 }
    let score := jScore + ws.1 + ws.2
    if score ≤ s.best then { s with best := score, bestPrev := j } else s

/-- The inner loop of computeBreaks over `j` from the active frontier up to `i - 1`,
with the initialization of the per-`i` locals. -/
def innerLoop (candidates : List Candidate) (lineWidth : LineWidth)
    (breaksData : List OptimalBreaksData) (maxShrink : ℚ) (justified : Bool)
    (strategy : BreakStrategy) (atEnd : Bool) (i active0 : Nat) : InnerState :=
  let lineNumberLast := (breaksData.getD active0 default).lineNumber
  let width := lineWidth.getAt lineNumberLast
  let init : InnerState :=
    ⟨active0, lineNumberLast, width, (candidates.getD i default).postBreak - width, 0,
      SCORE_INFTY, 0⟩
  (List.range' active0 (i - active0)).foldl
    (innerStep candidates lineWidth breaksData maxShrink justified strategy atEnd i) init

/-- One iteration of the outer loop of computeBreaks (one end-of-line candidate `i`). -/
def outerStep (candidates : List Candidate) (lineWidth : LineWidth) (maxShrink : ℚ)
    (justified : Bool) (strategy : BreakStrategy) (linePenalty : ℚ) (nCand : Nat)
    (st : List OptimalBreaksData × Nat) (i : Nat) : List OptimalBreaksData × Nat :=
  let breaksData := st.1
  let atEnd := i = nCand - 1
  let s := innerLoop candidates lineWidth breaksData maxShrink justified strategy
    (decide atEnd) i st.2
  (breaksData ++
    [⟨s.best + (candidates.getD i default).penalty + linePenalty, s.bestPrev,
      (breaksData.getD s.bestPrev default).lineNumber + 1⟩],
   s.active)

/-- The dynamic program of LineBreakOptimizer::computeBreaks, producing the breaksData
vector. -/
def computeBreaksData (context : OptimizeContext) (lineWidth : LineWidth)
    (strategy : BreakStrategy) (justified : Bool) : List OptimalBreaksData :=
  let candidates := context.candidates
  let nCand := candidates.length
  let maxShrink := if justified then SHRINKABILITY * context.spaceWidth else 0
  ((List.range' 1 (nCand - 1)).foldl
    (outerStep candidates lineWidth maxShrink justified strategy context.linePenalty nCand)
    ([⟨0, 0, 0⟩], 0)).1

/-- The hyphen-edit packing of the result flags; the spec fixes (start << N) | end with
N = 8 chosen here, and NO_EDIT/INSERT encoded as 0/1. -/
def encodeStartHyphenEdit : StartHyphenEdit → Nat
  | StartHyphenEdit.NO_EDIT => 0
  | StartHyphenEdit.INSERT_HYPHEN => 1

def encodeEndHyphenEdit : EndHyphenEdit → Nat
  | EndHyphenEdit.NO_EDIT => 0
  | EndHyphenEdit.INSERT_HYPHEN => 1

def packHyphenEdit (s : StartHyphenEdit) (e : EndHyphenEdit) : Nat :=
  (encodeStartHyphenEdit s <<< 8) ||| encodeEndHyphenEdit e

/-- The result arrays (LineBreakResult). -/
structure LineBreakResult where
  breakPoints : List Nat
  widths : List ℚ
  ascents : List ℚ
  descents : List ℚ
  flags : List Nat
deriving DecidableEq, Repr

def LineBreakResult.empty : LineBreakResult := ⟨[], [], [], [], []⟩

/-- LineBreakOptimizer::computeMaxExtent from the source. -/
def computeMaxExtent (measured : MeasuredText) (start stop : Nat) : MinikinExtent :=
  (List.range' start (stop - start)).foldl
    (fun res j => res.extendBy (measured.extents j)) ⟨0, 0, 0⟩

/-- LineBreakOptimizer::finishBreaksOptimal from the source: follow the `prev` links
from the last candidate back to the sentinel (fuelled by the candidate count; the
source relies on the links decreasing). -/
def finishLoop (measured : MeasuredText) (breaksData : List OptimalBreaksData)
    (candidates : List Candidate) : Nat → Nat → LineBreakResult → LineBreakResult
  | 0, _, acc => acc
  | _ + 1, 0, acc => acc
  | fuel + 1, i, acc =>
    let prevIndex := (breaksData.getD i default).prev
    let cand := candidates.getD i default
    let prev := candidates.getD prevIndex default
    let extent := computeMaxExtent measured prev.offset cand.offset
    finishLoop measured breaksData candidates fuel prevIndex
      ⟨acc.breakPoints ++ [cand.offset], acc.widths ++ [cand.postBreak - prev.preBreak],
        acc.ascents ++ [extent.ascent], acc.descents ++ [extent.descent],
        acc.flags ++ [packHyphenEdit (editForNextLine prev.hyphenType)
          (editForThisLine cand.hyphenType)]⟩

/-- The reverse step at the end of finishBreaksOptimal. -/
def LineBreakResult.reverse (r : LineBreakResult) : LineBreakResult :=
  ⟨r.breakPoints.reverse, r.widths.reverse, r.ascents.reverse, r.descents.reverse,
    r.flags.reverse⟩

def finishBreaksOptimal (measured : MeasuredText) (breaksData : List OptimalBreaksData)
    (candidates : List Candidate) : LineBreakResult :=
  (finishLoop measured breaksData candidates candidates.length (candidates.length - 1)
    LineBreakResult.empty).reverse

/-- LineBreakOptimizer::computeBreaks from the source. -/
def computeBreaks (context : OptimizeContext) (measured : MeasuredText)
    (lineWidth : LineWidth) (strategy : BreakStrategy) (justified : Bool) :
    LineBreakResult :=
  finishBreaksOptimal measured (computeBreaksData context lineWidth strategy justified)
    context.candidates

/-- breakLineOptimal from the source (`n` is the text buffer size; `none` models the TAB
assertion). -/
def breakLineOptimal (ext : LineBreakExternals) (n : Nat) (measured : MeasuredText)
    (lineWidth : LineWidth) (strategy : BreakStrategy)
    (frequency : HyphenationFrequency) (justified : Bool) : Option LineBreakResult :=
  if n = 0 then some LineBreakResult.empty
  else do
    let context ← populateCandidates ext measured lineWidth frequency justified
    return computeBreaks context measured lineWidth strategy justified

/-! ## Part 4: derived notions used to state and prove the claims -/

/-- The cumulative width of the paragraph prefix [0, n). -/
def prefixWidth (widths : Nat → ℚ) (n : Nat) : ℚ :=
  ∑ k ∈ Finset.range n, widths k

/-- The effective prefix end: the position just after the last character of [0, n) that
is not a line-end space (`effectiveWidth` in the processor equals the prefix width up to
this position). -/
def effEnd (ext : LineBreakExternals) : Nat → Nat
  | 0 => 0
  | k + 1 => if ext.isLineEndSpaceFn (ext.text k) then effEnd ext k else k + 1

/-- The runs tile the paragraph contiguously from `s` to `n` (the spec requires runs to
be non-overlapping and contiguous over the paragraph). -/
def runsTile : List Run → Nat → Nat → Prop
  | [], s, n => s = n
  | r :: rest, s, n => r.range.start = s ∧ s ≤ r.range.stop ∧ runsTile rest r.range.stop n

/-- The character positions fed to the candidate builder, in order. -/
def fedPositions : List Run → List Nat
  | [] => []
  | r :: rest => List.range' r.range.start (r.range.stop - r.range.start) ++ fedPositions rest


/-- A five-character paragraph "aa␣␣a" with two adjacent spaces (code unit 32), one
word boundary after the trailing spaces and one at the end, used to refute the raw
pair-width claim. -/
def doubleSpaceExt : LineBreakExternals where
  text := fun i => if i = 2 ∨ i = 3 then 32 else 97
  nextBoundary := fun _ p => if p < 4 then 4 else 5
  followingBoundary := fun _ s => s
  wordRangeFn := fun p n => ⟨p, n⟩
  breakBadness := fun _ _ => 0
  effectiveLocale := fun _ => 1
  hyphenateFn := fun _ r => List.replicate (r.stop - r.start) HyphenationType.DONT_BREAK
  isWordSpaceFn := fun c => c = 32
  isLineEndSpaceFn := fun c => c = 32

/-- Measurement for the double-space paragraph: letters are 10 units wide, the spaces
5 units, in a single non-hyphenatable run covering [0, 5). -/
def doubleSpaceMeasured : MeasuredText where
  widths := fun i => if i ≥ 5 then 0 else if i = 2 ∨ i = 3 then 5 else 10
  extents := fun _ => ⟨0, 0, 0⟩
  runs := [⟨⟨0, 5⟩, false, 0, false, 1, 1, fun _ _ _ => 0⟩]

/-- A three-letter single-word paragraph with unit character widths, a boundary at
every position, and a hyphen-piece measure equal to the piece's summed advances. -/
def oneWordExt : LineBreakExternals where
  text := fun _ => 97
  nextBoundary := fun _ p => p + 1
  followingBoundary := fun _ s => s
  wordRangeFn := fun p n => ⟨p, n⟩
  breakBadness := fun _ _ => 0
  effectiveLocale := fun _ => 1
  hyphenateFn := fun _ r => List.replicate (r.stop - r.start) HyphenationType.DONT_BREAK
  isWordSpaceFn := fun _ => false
  isLineEndSpaceFn := fun _ => false

/-- Measurement for the one-word paragraph: unit widths, one run on [0, 3) with locale
list 7. -/
def oneWordMeasured : MeasuredText where
  widths := fun _ => 1
  extents := fun _ => ⟨0, 0, 0⟩
  runs := [⟨⟨0, 3⟩, false, 7, false, 1, 1, fun r _ _ => ((r.stop - r.start : ℕ) : ℚ)⟩]

/-- The candidate-builder invariant carried through populateCandidates: with `pos`
characters fed, the processor's accumulators are the paragraph prefix widths, the word
boundaries bracket `pos`, and the candidate list is offset-sorted with non-negative
pairwise line widths (`a.preBreak ≤ b.postBreak` for `a` before `b`). `Lid` is the
common locale list id of the runs. -/
structure BuilderInv (ext : LineBreakExternals) (measured : MeasuredText) (Lid : Nat)
    (pos : Nat) (proc : CharProcessor) (out : OptimizeContext) : Prop where
  sumEq : proc.sumOfCharWidths = prefixWidth measured.widths pos
  effEq : proc.effectiveWidth = prefixWidth measured.widths (effEnd ext pos)
  sumPrevEq : proc.sumOfCharWidthsAtPrevWordBreak =
    prefixWidth measured.widths proc.prevWordBreak
  prevLe : proc.prevWordBreak ≤ pos
  posLe : pos ≤ proc.nextWordBreak
  locOk : proc.localeListId = some Lid ∨
    ∀ c ∈ out.candidates, c.offset ≤ proc.prevWordBreak
  candOff : ∀ c ∈ out.candidates, c.offset ≤ proc.prevWordBreak ∨
    (pos = proc.nextWordBreak ∧ c.offset ≤ proc.nextWordBreak)
  preLe : ∀ c ∈ out.candidates, c.preBreak ≤ prefixWidth measured.widths c.offset
  pairs : List.Pairwise (fun a b => a.preBreak ≤ b.postBreak) out.candidates
  chain : List.Pairwise (fun a b : Candidate => a.offset ≤ b.offset) out.candidates

/-- A two-run paragraph with different locale lists used to refute the unconditional
offset-monotonicity claim: the locale reset advances nextWordBreak to the new locale's
boundary but leaves prevWordBreak behind, so the second word's context reaches back
over the first word break. -/
def mixedLocaleExt : LineBreakExternals where
  text := fun _ => 97
  nextBoundary := fun _ p => if p < 2 then 2 else 4
  followingBoundary := fun loc s => if loc = 0 then s else 4
  wordRangeFn := fun p n => ⟨p, n⟩
  breakBadness := fun _ _ => 0
  effectiveLocale := fun l => l
  hyphenateFn := fun _ r => List.replicate (r.stop - r.start) HyphenationType.DONT_BREAK
  isWordSpaceFn := fun _ => false
  isLineEndSpaceFn := fun _ => false

/-- Measurement for the mixed-locale paragraph: unit widths, runs [0, 2) with locale
list 0 and [2, 4) with locale list 1. -/
def mixedLocaleMeasured : MeasuredText where
  widths := fun _ => 1
  extents := fun _ => ⟨0, 0, 0⟩
  runs := [⟨⟨0, 2⟩, false, 0, false, 1, 1, fun _ _ _ => 0⟩,
    ⟨⟨2, 4⟩, false, 1, false, 1, 1, fun _ _ _ => 0⟩]

/-- The offset-only builder invariant: the word boundaries bracket `pos` and the
candidate list is offset-sorted. Unlike `BuilderInv` it makes no assumption about
character widths or hyphen-piece measures. -/
structure OffsetInv (ext : LineBreakExternals) (Lid : Nat) (pos : Nat)
    (proc : CharProcessor) (out : OptimizeContext) : Prop where
  prevLe : proc.prevWordBreak ≤ pos
  posLe : pos ≤ proc.nextWordBreak
  locOk : proc.localeListId = some Lid ∨
    ∀ c ∈ out.candidates, c.offset ≤ proc.prevWordBreak
  candOff : ∀ c ∈ out.candidates, c.offset ≤ proc.prevWordBreak ∨
    (pos = proc.nextWordBreak ∧ c.offset ≤ proc.nextWordBreak)
  chain : List.Pairwise (fun a b : Candidate => a.offset ≤ b.offset) out.candidates

/-! ## Part 5: supporting lemmas -/

theorem lor_low (a b k : Nat) (hd : 2 ^ k ∣ a) (hb : b < 2 ^ k) : a ||| b = a + b := by
  obtain ⟨c, rfl⟩ := hd
  rw [← Nat.mul_add_lt_is_or hb c]

theorem shl_eq (x k : Nat) : x <<< k = x * 2 ^ k := Nat.shiftLeft_eq x k

theorem shr_eq (x k : Nat) : x >>> k = x / 2 ^ k := Nat.shiftRight_eq_div_pow x k

theorem and31 (x : Nat) : x &&& 31 = x % 32 := by
  have := Nat.and_pow_two_sub_one_eq_mod x 5
  norm_num at this
  exact this

theorem pack3_arith (x y z : Nat) (hy : y < 32) (hz : z < 32) :
    (((x <<< 10) ||| (y <<< 5)) ||| z) = x * 1024 + y * 32 + z := by
  rw [shl_eq, shl_eq]
  rw [lor_low (x * 2 ^ 10) (y * 2 ^ 5) 10 ⟨x, by ring⟩ (by norm_num; omega)]
  rw [lor_low _ z 5 ⟨32 * x + y, by ring⟩ (by norm_num; omega)]
  ring

theorem pack4_arith (x y z w : Nat) (hy : y < 32) (hz : z < 32) (hw : w < 32) :
    ((((x <<< 15) ||| (y <<< 10)) ||| (z <<< 5)) ||| w) =
      x * 32768 + y * 1024 + z * 32 + w := by
  rw [shl_eq, shl_eq, shl_eq]
  rw [lor_low (x * 2 ^ 15) (y * 2 ^ 10) 15 ⟨x, by ring⟩ (by norm_num; omega)]
  rw [lor_low _ (z * 2 ^ 5) 10 ⟨32 * x + y, by ring⟩ (by norm_num; omega)]
  rw [lor_low _ w 5 ⟨1024 * x + 32 * y + z, by ring⟩ (by norm_num; omega)]
  ring

theorem unpackLanguageOrRegion_pack2 (tb ob : Nat) (a b : Char)
    (ha1 : tb ≤ a.toNat) (ha2 : a.toNat < tb + 26)
    (hb1 : tb ≤ b.toNat) (hb2 : b.toNat < tb + 26) :
    unpackLanguageOrRegion (packLanguageOrRegion [a, b] tb ob) tb ob = [a, b] := by
  unfold packLanguageOrRegion unpackLanguageOrRegion
  simp only [List.length_cons, List.length_nil, List.getD, FIVE_BITS]
  norm_num
  have h1 : ((0x7c00 ||| ((a.toNat - tb) <<< 5)) ||| (b.toNat - tb)) =
      31 * 1024 + (a.toNat - tb) * 32 + (b.toNat - tb) := by
    have := pack3_arith 31 (a.toNat - tb) (b.toNat - tb) (by omega) (by omega)
    rw [← this]
    norm_num [shl_eq]
  rw [h1]
  have e1 : ((31 * 1024 + (a.toNat - tb) * 32 + (b.toNat - tb)) >>> 10) &&& 31 = 31 := by
    rw [shr_eq, and31]; norm_num; omega
  have e2 : ((31 * 1024 + (a.toNat - tb) * 32 + (b.toNat - tb)) >>> 5) &&& 31 = a.toNat - tb := by
    rw [shr_eq, and31]; norm_num; omega
  have e3 : (31 * 1024 + (a.toNat - tb) * 32 + (b.toNat - tb)) &&& 31 = b.toNat - tb := by
    rw [and31]; omega
  rw [e1, e2, e3]
  norm_num
  constructor
  · have : a.toNat - tb + tb = a.toNat := by omega
    rw [this, Char.ofNat_toNat]
  · have : b.toNat - tb + tb = b.toNat := by omega
    rw [this, Char.ofNat_toNat]

theorem unpackLanguageOrRegion_pack3 (tb ob : Nat) (a b c : Char)
    (ha1 : ob ≤ a.toNat) (ha2 : a.toNat < ob + 26)
    (hb1 : ob ≤ b.toNat) (hb2 : b.toNat < ob + 26)
    (hc1 : ob ≤ c.toNat) (hc2 : c.toNat < ob + 26) :
    unpackLanguageOrRegion (packLanguageOrRegion [a, b, c] tb ob) tb ob = [a, b, c] := by
  unfold packLanguageOrRegion unpackLanguageOrRegion
  simp only [List.length_cons, List.length_nil, List.getD, FIVE_BITS]
  norm_num
  rw [pack3_arith (a.toNat - ob) (b.toNat - ob) (c.toNat - ob) (by omega) (by omega)]
  have e1 : (((a.toNat - ob) * 1024 + (b.toNat - ob) * 32 + (c.toNat - ob)) >>> 10) &&& 31 =
      a.toNat - ob := by
    rw [shr_eq, and31]; norm_num; omega
  have e2 : (((a.toNat - ob) * 1024 + (b.toNat - ob) * 32 + (c.toNat - ob)) >>> 5) &&& 31 =
      b.toNat - ob := by
    rw [shr_eq, and31]; norm_num; omega
  have e3 : ((a.toNat - ob) * 1024 + (b.toNat - ob) * 32 + (c.toNat - ob)) &&& 31 =
      c.toNat - ob := by
    rw [and31]; omega
  rw [e1, e2, e3]
  have hne : ¬ (a.toNat - ob = 31) := by omega
  simp only [hne, if_false]
  have r1 : a.toNat - ob + ob = a.toNat := by omega
  have r2 : b.toNat - ob + ob = b.toNat := by omega
  have r3 : c.toNat - ob + ob = c.toNat := by omega
  rw [r1, r2, r3, Char.ofNat_toNat, Char.ofNat_toNat, Char.ofNat_toNat]

theorem unpackScript_packScript4 (c1 c2 c3 c4 : Char)
    (h1a : 65 ≤ c1.toNat) (h1b : c1.toNat ≤ 90)
    (h2a : 97 ≤ c2.toNat) (h2b : c2.toNat ≤ 122)
    (h3a : 97 ≤ c3.toNat) (h3b : c3.toNat ≤ 122)
    (h4a : 97 ≤ c4.toNat) (h4b : c4.toNat ≤ 122) :
    unpackScript (packScript4 c1 c2 c3 c4) =
      c1.toNat * 16777216 + c2.toNat * 65536 + c3.toNat * 256 + c4.toNat := by
  unfold packScript4 unpackScript
  simp only [show 'A'.toNat = 65 from rfl, show 'a'.toNat = 97 from rfl]
  rw [pack4_arith (c1.toNat - 65) (c2.toNat - 97) (c3.toNat - 97) (c4.toNat - 97)
    (by omega) (by omega) (by omega)]
  simp only [FIVE_BITS]
  have e0 : (((c1.toNat - 65) * 32768 + (c2.toNat - 97) * 1024 + (c3.toNat - 97) * 32 +
      (c4.toNat - 97)) >>> 15) = c1.toNat - 65 := by
    rw [shr_eq]; norm_num; omega
  have e1 : (((c1.toNat - 65) * 32768 + (c2.toNat - 97) * 1024 + (c3.toNat - 97) * 32 +
      (c4.toNat - 97)) >>> 10) &&& 31 = c2.toNat - 97 := by
    rw [shr_eq, and31]; norm_num; omega
  have e2 : (((c1.toNat - 65) * 32768 + (c2.toNat - 97) * 1024 + (c3.toNat - 97) * 32 +
      (c4.toNat - 97)) >>> 5) &&& 31 = c3.toNat - 97 := by
    rw [shr_eq, and31]; norm_num; omega
  have e3 : ((c1.toNat - 65) * 32768 + (c2.toNat - 97) * 1024 + (c3.toNat - 97) * 32 +
      (c4.toNat - 97)) &&& 31 = c4.toNat - 97 := by
    rw [and31]; omega
  rw [e0, e1, e2, e3]
  have r1 : c1.toNat - 65 + 65 = c1.toNat := by omega
  have r2 : c2.toNat - 97 + 97 = c2.toNat := by omega
  have r3 : c3.toNat - 97 + 97 = c3.toNat := by omega
  have r4 : c4.toNat - 97 + 97 = c4.toNat := by omega
  rw [r1, r2, r3, r4]
  rw [shl_eq, shl_eq, shl_eq]
  rw [lor_low (c1.toNat * 2 ^ 24) (c2.toNat * 2 ^ 16) 24 ⟨c1.toNat, by ring⟩
    (by norm_num; omega)]
  rw [lor_low _ (c3.toNat * 2 ^ 8) 16 ⟨256 * c1.toNat + c2.toNat, by ring⟩
    (by norm_num; omega)]
  rw [lor_low _ c4.toNat 8 ⟨65536 * c1.toNat + 256 * c2.toNat + c3.toNat, by ring⟩
    (by norm_num; omega)]
  ring

theorem and255 (x : Nat) : x &&& 255 = x % 256 := by
  have := Nat.and_pow_two_sub_one_eq_mod x 8
  norm_num at this
  exact this

theorem isLowercase_bounds {c : Char} (h : isLowercase c = true) :
    97 ≤ c.toNat ∧ c.toNat ≤ 122 := by
  unfold isLowercase at h
  simp only [show 'a'.toNat = 97 from rfl, show 'z'.toNat = 122 from rfl,
    Bool.and_eq_true, decide_eq_true_eq] at h
  exact h

theorem isUppercase_bounds {c : Char} (h : isUppercase c = true) :
    65 ≤ c.toNat ∧ c.toNat ≤ 90 := by
  unfold isUppercase at h
  simp only [show 'A'.toNat = 65 from rfl, show 'Z'.toNat = 90 from rfl,
    Bool.and_eq_true, decide_eq_true_eq] at h
  exact h

theorem isDigit_bounds {c : Char} (h : isDigit c = true) :
    48 ≤ c.toNat ∧ c.toNat ≤ 57 := by
  unfold isDigit at h
  simp only [show '0'.toNat = 48 from rfl, show '9'.toNat = 57 from rfl,
    Bool.and_eq_true, decide_eq_true_eq] at h
  exact h

theorem notSep_of_toNat {c : Char} (h : 46 ≤ c.toNat) (h2 : c.toNat ≠ 95) :
    isTokenSep c = false := by
  unfold isTokenSep
  simp only [Bool.or_eq_false_iff, decide_eq_false_iff_not]
  constructor
  · rintro rfl; simp at h
  · rintro rfl; simp at h2

theorem splitTokens_sepFree (t : List Char) (h : ∀ c ∈ t, isTokenSep c = false) :
    splitTokens t = [t] := by
  induction t with
  | nil => rfl
  | cons c rest ih =>
    unfold splitTokens
    rw [h c (by simp)]
    simp only [Bool.false_eq_true, if_false]
    rw [ih fun x hx => h x (by simp [hx])]

theorem splitTokens_append (t rest : List Char) (h : ∀ c ∈ t, isTokenSep c = false) :
    splitTokens (t ++ '-' :: rest) = t :: splitTokens rest := by
  induction t with
  | nil =>
    simp only [List.nil_append]
    conv_lhs => unfold splitTokens
    norm_num [isTokenSep]
  | cons c tt ih =>
    simp only [List.cons_append]
    conv_lhs => unfold splitTokens
    rw [h c (by simp)]
    simp only [Bool.false_eq_true, if_false]
    rw [ih fun x hx => h x (by simp [hx])]

theorem lang_shape {l : List Char} (h : isValidLanguageCode l = true) :
    (∃ a b, l = [a, b] ∧ isLowercase a = true ∧ isLowercase b = true) ∨
    (∃ a b c, l = [a, b, c] ∧ isLowercase a = true ∧ isLowercase b = true ∧
      isLowercase c = true) := by
  rcases l with _ | ⟨a, _ | ⟨b, _ | ⟨c, _ | ⟨d, t⟩⟩⟩⟩
  · simp [isValidLanguageCode] at h
  · simp [isValidLanguageCode] at h
  · simp only [isValidLanguageCode] at h
    norm_num at h
    exact Or.inl ⟨a, b, rfl, h.1, h.2⟩
  · simp only [isValidLanguageCode] at h
    norm_num at h
    exact Or.inr ⟨a, b, c, rfl, h.1, h.2.1, h.2.2⟩
  · simp [isValidLanguageCode] at h

theorem unpackLanguage_packLanguage {l : List Char} (h : isValidLanguageCode l = true) :
    unpackLanguage (packLanguage l) = l := by
  unfold unpackLanguage packLanguage
  have e97 : ('a'.toNat) = 97 := rfl
  rcases lang_shape h with ⟨a, b, rfl, ha, hb⟩ | ⟨a, b, c, rfl, ha, hb, hc⟩
  · obtain ⟨ha1, ha2⟩ := isLowercase_bounds ha
    obtain ⟨hb1, hb2⟩ := isLowercase_bounds hb
    exact unpackLanguageOrRegion_pack2 _ _ a b (by rw [e97]; omega) (by rw [e97]; omega)
      (by rw [e97]; omega) (by rw [e97]; omega)
  · obtain ⟨ha1, ha2⟩ := isLowercase_bounds ha
    obtain ⟨hb1, hb2⟩ := isLowercase_bounds hb
    obtain ⟨hc1, hc2⟩ := isLowercase_bounds hc
    exact unpackLanguageOrRegion_pack3 _ _ a b c (by rw [e97]; omega) (by rw [e97]; omega)
      (by rw [e97]; omega) (by rw [e97]; omega) (by rw [e97]; omega) (by rw [e97]; omega)

theorem region_shape {l : List Char} (h : isValidRegionCode l = true) :
    (∃ a b, l = [a, b] ∧ isUppercase a = true ∧ isUppercase b = true) ∨
    (∃ a b c, l = [a, b, c] ∧ isDigit a = true ∧ isDigit b = true ∧ isDigit c = true) := by
  rcases l with _ | ⟨a, _ | ⟨b, _ | ⟨c, _ | ⟨d, t⟩⟩⟩⟩
  · simp [isValidRegionCode] at h
  · simp [isValidRegionCode] at h
  · simp only [isValidRegionCode] at h
    norm_num at h
    exact Or.inl ⟨a, b, rfl, h.1, h.2⟩
  · simp only [isValidRegionCode] at h
    norm_num at h
    exact Or.inr ⟨a, b, c, rfl, h.1.1, h.1.2, h.2⟩
  · simp [isValidRegionCode] at h

theorem unpackRegion_packRegion {l : List Char} (h : isValidRegionCode l = true) :
    unpackRegion (packRegion l) = l := by
  unfold unpackRegion packRegion
  have e65 : ('A'.toNat) = 65 := rfl
  have e48 : ('0'.toNat) = 48 := rfl
  rcases region_shape h with ⟨a, b, rfl, ha, hb⟩ | ⟨a, b, c, rfl, ha, hb, hc⟩
  · obtain ⟨ha1, ha2⟩ := isUppercase_bounds ha
    obtain ⟨hb1, hb2⟩ := isUppercase_bounds hb
    exact unpackLanguageOrRegion_pack2 _ _ a b (by rw [e65]; omega) (by rw [e65]; omega)
      (by rw [e65]; omega) (by rw [e65]; omega)
  · obtain ⟨ha1, ha2⟩ := isDigit_bounds ha
    obtain ⟨hb1, hb2⟩ := isDigit_bounds hb
    obtain ⟨hc1, hc2⟩ := isDigit_bounds hc
    exact unpackLanguageOrRegion_pack3 _ _ a b c (by rw [e48]; omega) (by rw [e48]; omega)
      (by rw [e48]; omega) (by rw [e48]; omega) (by rw [e48]; omega) (by rw [e48]; omega)

theorem script_shape {l : List Char} (h : isValidScriptCode l = true) :
    ∃ a b c d, l = [a, b, c, d] ∧ isUppercase a = true ∧ isLowercase b = true ∧
      isLowercase c = true ∧ isLowercase d = true := by
  rcases l with _ | ⟨a, _ | ⟨b, _ | ⟨c, _ | ⟨d, _ | ⟨e, t⟩⟩⟩⟩⟩
  · simp [isValidScriptCode] at h
  · simp [isValidScriptCode] at h
  · simp [isValidScriptCode] at h
  · simp [isValidScriptCode] at h
  · simp only [isValidScriptCode] at h
    norm_num at h
    exact ⟨a, b, c, d, rfl, h.1.1.1, h.1.1.2, h.1.2, h.2⟩
  · simp [isValidScriptCode] at h

theorem scriptChars_roundTrip {tok : List Char} (h : isValidScriptCode tok = true) :
    (let raw := unpackScript (packScript4 (tok.getD 0 'A') (tok.getD 1 'a') (tok.getD 2 'a')
      (tok.getD 3 'a'))
    ['-', Char.ofNat ((raw >>> 24) &&& 0xFF), Char.ofNat ((raw >>> 16) &&& 0xFF),
      Char.ofNat ((raw >>> 8) &&& 0xFF), Char.ofNat (raw &&& 0xFF)]) = '-' :: tok := by
  obtain ⟨a, b, c, d, rfl, ha, hb, hc, hd⟩ := script_shape h
  obtain ⟨ha1, ha2⟩ := isUppercase_bounds ha
  obtain ⟨hb1, hb2⟩ := isLowercase_bounds hb
  obtain ⟨hc1, hc2⟩ := isLowercase_bounds hc
  obtain ⟨hd1, hd2⟩ := isLowercase_bounds hd
  show ['-', Char.ofNat ((unpackScript (packScript4 a b c d) >>> 24) &&& 0xFF),
    Char.ofNat ((unpackScript (packScript4 a b c d) >>> 16) &&& 0xFF),
    Char.ofNat ((unpackScript (packScript4 a b c d) >>> 8) &&& 0xFF),
    Char.ofNat (unpackScript (packScript4 a b c d) &&& 0xFF)] = '-' :: [a, b, c, d]
  rw [unpackScript_packScript4 a b c d ha1 (by omega) hb1 (by omega) hc1 (by omega) hd1
    (by omega)]
  have g1 : ((a.toNat * 16777216 + b.toNat * 65536 + c.toNat * 256 + d.toNat) >>> 24) &&&
      0xFF = a.toNat := by
    rw [shr_eq, and255]; norm_num; omega
  have g2 : ((a.toNat * 16777216 + b.toNat * 65536 + c.toNat * 256 + d.toNat) >>> 16) &&&
      0xFF = b.toNat := by
    rw [shr_eq, and255]; norm_num; omega
  have g3 : ((a.toNat * 16777216 + b.toNat * 65536 + c.toNat * 256 + d.toNat) >>> 8) &&&
      0xFF = c.toNat := by
    rw [shr_eq, and255]; norm_num; omega
  have g4 : (a.toNat * 16777216 + b.toNat * 65536 + c.toNat * 256 + d.toNat) &&&
      0xFF = d.toNat := by
    rw [and255]; omega
  rw [g1, g2, g3, g4, Char.ofNat_toNat, Char.ofNat_toNat, Char.ofNat_toNat, Char.ofNat_toNat]

theorem notSep_of_letterOrDigit {c : Char} (h : 48 ≤ c.toNat) (h2 : c.toNat ≤ 122)
    (h3 : c.toNat ≠ 95) : isTokenSep c = false := by
  unfold isTokenSep
  simp only [Bool.or_eq_false_iff, decide_eq_false_iff_not]
  constructor
  · rintro rfl; simp at h
  · rintro rfl; simp at h3

theorem sepFree_lang {l : List Char} (h : isValidLanguageCode l = true) :
    ∀ c ∈ l, isTokenSep c = false := by
  rcases lang_shape h with ⟨a, b, rfl, ha, hb⟩ | ⟨a, b, c, rfl, ha, hb, hc⟩ <;>
    intro x hx <;> simp only [List.mem_cons, List.not_mem_nil, or_false] at hx
  · obtain ⟨h1, h2⟩ := isLowercase_bounds ha
    obtain ⟨h3, h4⟩ := isLowercase_bounds hb
    rcases hx with rfl | rfl <;> exact notSep_of_letterOrDigit (by omega) (by omega) (by omega)
  · obtain ⟨h1, h2⟩ := isLowercase_bounds ha
    obtain ⟨h3, h4⟩ := isLowercase_bounds hb
    obtain ⟨h5, h6⟩ := isLowercase_bounds hc
    rcases hx with rfl | rfl | rfl <;>
      exact notSep_of_letterOrDigit (by omega) (by omega) (by omega)

theorem sepFree_script {l : List Char} (h : isValidScriptCode l = true) :
    ∀ c ∈ l, isTokenSep c = false := by
  obtain ⟨a, b, c, d, rfl, ha, hb, hc, hd⟩ := script_shape h
  obtain ⟨h1, h2⟩ := isUppercase_bounds ha
  obtain ⟨h3, h4⟩ := isLowercase_bounds hb
  obtain ⟨h5, h6⟩ := isLowercase_bounds hc
  obtain ⟨h7, h8⟩ := isLowercase_bounds hd
  intro x hx
  simp only [List.mem_cons, List.not_mem_nil, or_false] at hx
  rcases hx with rfl | rfl | rfl | rfl <;>
    exact notSep_of_letterOrDigit (by omega) (by omega) (by omega)

theorem sepFree_region {l : List Char} (h : isValidRegionCode l = true) :
    ∀ c ∈ l, isTokenSep c = false := by
  rcases region_shape h with ⟨a, b, rfl, ha, hb⟩ | ⟨a, b, c, rfl, ha, hb, hc⟩ <;>
    intro x hx <;> simp only [List.mem_cons, List.not_mem_nil, or_false] at hx
  · obtain ⟨h1, h2⟩ := isUppercase_bounds ha
    obtain ⟨h3, h4⟩ := isUppercase_bounds hb
    rcases hx with rfl | rfl <;> exact notSep_of_letterOrDigit (by omega) (by omega) (by omega)
  · obtain ⟨h1, h2⟩ := isDigit_bounds ha
    obtain ⟨h3, h4⟩ := isDigit_bounds hb
    obtain ⟨h5, h6⟩ := isDigit_bounds hc
    rcases hx with rfl | rfl | rfl <;>
      exact notSep_of_letterOrDigit (by omega) (by omega) (by omega)

theorem scriptCode_not_region {l : List Char} (h : isValidScriptCode l = true) :
    isValidRegionCode l = false := by
  obtain ⟨a, b, c, d, rfl, _, _, _, _⟩ := script_shape h
  simp [isValidRegionCode]

theorem regionCode_not_script {l : List Char} (h : isValidRegionCode l = true) :
    isValidScriptCode l = false := by
  rcases region_shape h with ⟨a, b, rfl, _, _⟩ | ⟨a, b, c, rfl, _, _, _⟩ <;>
    simp [isValidScriptCode]

theorem getString_finalizeTag (f : FontLanguage) :
    (finalizeTag f).getString = f.getString := by
  unfold finalizeTag
  split
  · simp [FontLanguage.getString]
  · rfl

theorem getString_emojiStage (input : List Char) (f : FontLanguage) :
    (emojiStage input f).getString = f.getString := by
  unfold emojiStage
  rw [getString_finalizeTag]
  simp [FontLanguage.getString]

theorem getString_f0 {lang : List Char} (hl : isValidLanguageCode lang = true) :
    ({ mLanguage := some (packLanguage lang) } : FontLanguage).getString = lang := by
  simp [FontLanguage.getString, unpackLanguage_packLanguage hl]

theorem getString_setScript (f : FontLanguage) (h1 : f.mScript = none)
    (h2 : f.mRegion = none) (h3 : f.mVariant = Variant.NO_VARIANT) {tok : List Char}
    (ht : isValidScriptCode tok = true) (bits : Nat) :
    ({ f with
        mScript := some (packScript4 (tok.getD 0 'A') (tok.getD 1 'a') (tok.getD 2 'a')
          (tok.getD 3 'a')),
        mSubScriptBits := bits } : FontLanguage).getString = f.getString ++ '-' :: tok := by
  unfold FontLanguage.getString
  simp only [h1, h2, h3]
  rw [scriptChars_roundTrip ht]
  simp

theorem getString_setRegion (f : FontLanguage) (h2 : f.mRegion = none)
    (h3 : f.mVariant = Variant.NO_VARIANT) {tok : List Char}
    (ht : isValidRegionCode tok = true) :
    ({ f with mRegion := some (packRegion tok) } : FontLanguage).getString =
      f.getString ++ '-' :: tok := by
  unfold FontLanguage.getString
  simp only [h2, h3]
  rw [unpackRegion_packRegion ht]
  simp

theorem getString_setVariant1901 (f : FontLanguage)
    (h3 : f.mVariant = Variant.NO_VARIANT) :
    ({ f with mVariant := Variant.GERMAN_1901_ORTHOGRAPHY } : FontLanguage).getString =
      f.getString ++ ['-', '1', '9', '0', '1'] := by
  unfold FontLanguage.getString
  simp only [h3]
  simp

theorem getString_setVariant1996 (f : FontLanguage)
    (h3 : f.mVariant = Variant.NO_VARIANT) :
    ({ f with mVariant := Variant.GERMAN_1996_ORTHOGRAPHY } : FontLanguage).getString =
      f.getString ++ ['-', '1', '9', '9', '6'] := by
  unfold FontLanguage.getString
  simp only [h3]
  simp

theorem afterRegion (input lang : List Char) (f : FontLanguage)
    (variant : Option (List Char))
    (hva : ∀ t ∈ variant, (t = ['1', '9', '0', '1'] ∨ t = ['1', '9', '9', '6']) ∧
      lang = ['d', 'e'])
    (hf : f.mVariant = Variant.NO_VARIANT) :
    (match optTokens variant with
      | [] => finalizeTag f
      | t :: ts1 => variantStage input lang f t ts1).getString =
      f.getString ++ optPart variant := by
  rcases variant with _ | v
  · simp [optTokens, optPart, getString_finalizeTag]
  · obtain ⟨hv, hlang⟩ := hva v rfl
    simp only [optTokens, optPart]
    unfold variantStage
    rw [if_pos hlang]
    rcases hv with rfl | rfl
    · simp only [reduceIte, ne_eq, reduceCtorEq, not_false_eq_true, if_true, if_false]
      rw [getString_finalizeTag, getString_setVariant1901 f hf]
    · simp only [reduceIte, ne_eq, reduceCtorEq, not_false_eq_true, if_true, if_false,
        List.cons.injEq, Char.reduceEq, false_and, and_false]
      rw [getString_finalizeTag, getString_setVariant1996 f hf]

theorem variant_not_region {v : List Char}
    (hv : v = ['1', '9', '0', '1'] ∨ v = ['1', '9', '9', '6']) :
    isValidRegionCode v = false := by
  rcases hv with rfl | rfl <;> decide

theorem variant_not_script {v : List Char}
    (hv : v = ['1', '9', '0', '1'] ∨ v = ['1', '9', '9', '6']) :
    isValidScriptCode v = false := by
  rcases hv with rfl | rfl <;> decide

theorem sepFree_variant {v : List Char}
    (hv : v = ['1', '9', '0', '1'] ∨ v = ['1', '9', '9', '6']) :
    ∀ c ∈ v, isTokenSep c = false := by
  rcases hv with rfl | rfl <;> decide

theorem afterScript (input lang : List Char) (f : FontLanguage)
    (region variant : Option (List Char))
    (hr : ∀ t ∈ region, isValidRegionCode t = true)
    (hva : ∀ t ∈ variant, (t = ['1', '9', '0', '1'] ∨ t = ['1', '9', '9', '6']) ∧
      lang = ['d', 'e'])
    (hfr : f.mRegion = none) (hfv : f.mVariant = Variant.NO_VARIANT) :
    (match optTokens region ++ optTokens variant with
      | [] => finalizeTag f
      | t :: ts1 => regionStage input lang f t ts1).getString =
      f.getString ++ optPart region ++ optPart variant := by
  rcases region with _ | r
  · rcases variant with _ | v
    · simp [optTokens, optPart, getString_finalizeTag]
    · simp only [optTokens, optPart, List.nil_append]
      obtain ⟨hv, hlang⟩ := hva v rfl
      unfold regionStage
      rw [variant_not_region hv]
      simp only [Bool.false_eq_true, if_false]
      have h := afterRegion input lang f (some v) hva hfv
      simp only [optTokens, optPart] at h
      rw [h]
      simp
  · simp only [optTokens, optPart, List.cons_append, List.nil_append]
    unfold regionStage
    rw [hr r rfl]
    simp only [if_true]
    have h := afterRegion input lang
      ({ f with mRegion := some (packRegion r) } : FontLanguage) variant hva (by simp [hfv])
    simp only [optTokens, optPart, List.nil_append] at h
    rw [h, getString_setRegion f hfr hfv (hr r rfl)]

theorem afterLang (input lang : List Char) (f : FontLanguage)
    (script region variant : Option (List Char))
    (hs : ∀ t ∈ script, isValidScriptCode t = true)
    (hr : ∀ t ∈ region, isValidRegionCode t = true)
    (hva : ∀ t ∈ variant, (t = ['1', '9', '0', '1'] ∨ t = ['1', '9', '9', '6']) ∧
      lang = ['d', 'e'])
    (hfs : f.mScript = none) (hfr : f.mRegion = none)
    (hfv : f.mVariant = Variant.NO_VARIANT) :
    (match optTokens script ++ optTokens region ++ optTokens variant with
      | [] => f
      | t :: ts1 => scriptStage input lang f t ts1).getString =
      f.getString ++ optPart script ++ optPart region ++ optPart variant := by
  rcases script with _ | s
  · rcases region with _ | r
    · rcases variant with _ | v
      · simp [optTokens, optPart]
      · simp only [optTokens, optPart, List.nil_append]
        obtain ⟨hv, hlang⟩ := hva v rfl
        unfold scriptStage
        rw [variant_not_script hv]
        simp only [Bool.false_eq_true, if_false]
        have h := afterScript input lang f none (some v) hr hva hfr hfv
        simp only [optTokens, optPart, List.nil_append] at h
        rw [h]
        simp
    · simp only [optTokens, optPart, List.cons_append, List.nil_append]
      unfold scriptStage
      rw [regionCode_not_script (hr r rfl)]
      simp only [Bool.false_eq_true, if_false]
      have h := afterScript input lang f (some r) variant hr hva hfr hfv
      simp only [optTokens, optPart, List.cons_append, List.nil_append] at h
      rw [h]
      simp
  · simp only [optTokens, optPart, List.cons_append, List.nil_append]
    unfold scriptStage
    rw [hs s rfl]
    simp only [if_true]
    have h := afterScript input lang
      ({ f with
          mScript := some (packScript4 (s.getD 0 'A') (s.getD 1 'a') (s.getD 2 'a')
            (s.getD 3 'a')),
          mSubScriptBits := scriptToSubScriptBits (packScript4 (s.getD 0 'A') (s.getD 1 'a')
            (s.getD 2 'a') (s.getD 3 'a')) } : FontLanguage) region variant hr hva
      (by simp [hfr]) (by simp [hfv])
    simp only [optTokens, optPart, List.nil_append] at h
    rw [h, getString_setScript f hfs hfr hfv (hs s rfl)]

theorem split_buildTag (lang : List Char) (script region variant : Option (List Char))
    (hl : isValidLanguageCode lang = true)
    (hs : ∀ t ∈ script, isValidScriptCode t = true)
    (hr : ∀ t ∈ region, isValidRegionCode t = true)
    (hva : ∀ t ∈ variant, (t = ['1', '9', '0', '1'] ∨ t = ['1', '9', '9', '6']) ∧
      lang = ['d', 'e']) :
    splitTokens (buildTag lang script region variant none) =
      lang :: (optTokens script ++ optTokens region ++ optTokens variant) := by
  rcases script with _ | s <;> rcases region with _ | r <;> rcases variant with _ | v <;>
    simp only [buildTag, optPart, optTokens, List.append_nil, List.nil_append,
      List.append_assoc, List.cons_append]
  · rw [splitTokens_sepFree lang (sepFree_lang hl)]
  · rw [splitTokens_append lang _ (sepFree_lang hl),
      splitTokens_sepFree v (sepFree_variant (hva v rfl).1)]
  · rw [splitTokens_append lang _ (sepFree_lang hl),
      splitTokens_sepFree r (sepFree_region (hr r rfl))]
  · rw [splitTokens_append lang _ (sepFree_lang hl),
      splitTokens_append r _ (sepFree_region (hr r rfl)),
      splitTokens_sepFree v (sepFree_variant (hva v rfl).1)]
  · rw [splitTokens_append lang _ (sepFree_lang hl),
      splitTokens_sepFree s (sepFree_script (hs s rfl))]
  · rw [splitTokens_append lang _ (sepFree_lang hl),
      splitTokens_append s _ (sepFree_script (hs s rfl)),
      splitTokens_sepFree v (sepFree_variant (hva v rfl).1)]
  · rw [splitTokens_append lang _ (sepFree_lang hl),
      splitTokens_append s _ (sepFree_script (hs s rfl)),
      splitTokens_sepFree r (sepFree_region (hr r rfl))]
  · rw [splitTokens_append lang _ (sepFree_lang hl),
      splitTokens_append s _ (sepFree_script (hs s rfl)),
      splitTokens_append r _ (sepFree_region (hr r rfl)),
      splitTokens_sepFree v (sepFree_variant (hva v rfl).1)]

theorem parse_buildTag (lang : List Char) (script region variant : Option (List Char))
    (hv : validComponents lang script region variant none) :
    (parseTag (buildTag lang script region variant none)).getString =
      buildTag lang script region variant none := by
  obtain ⟨hl, hs, hr, hva, -⟩ := hv
  unfold parseTag
  rw [split_buildTag lang script region variant hl hs hr hva]
  simp only [hl, not_true, Bool.not_true, reduceIte, not_false_eq_true, if_false, if_true]
  have h := afterLang (buildTag lang script region variant none) lang
    ({ mLanguage := some (packLanguage lang) } : FontLanguage) script region variant
    hs hr hva rfl rfl rfl
  rw [h, getString_f0 hl]
  simp [buildTag, optPart, List.append_assoc]

theorem calcLoop_none_iff (self : FontLanguage) (l : List FontLanguage) (a b c : Bool) :
    calcLoop self l a b c = none ↔ ∃ s ∈ l,
      ((self.mEmojiStyle ≠ EmojiStyle.EMSTYLE_EMPTY ∧ self.mEmojiStyle = s.mEmojiStyle) ∧
        self.mLanguage = s.mLanguage) := by
  induction l generalizing a b c with
  | nil => simp [calcLoop]
  | cons s rest ih =>
    unfold calcLoop
    simp only []
    split
    · rename_i hcond
      simp only [Bool.and_eq_true, decide_eq_true_eq, ne_eq] at hcond
      simp only [true_iff]
      exact ⟨s, by simp, ⟨by simpa using hcond.1.1, hcond.1.2⟩, hcond.2⟩
    · rename_i hcond
      rw [ih]
      constructor
      · rintro ⟨x, hx, p⟩
        exact ⟨x, by simp [hx], p⟩
      · rintro ⟨x, hx, p⟩
        rcases List.mem_cons.mp hx with rfl | hx'
        · exact absurd (by
            simp only [Bool.and_eq_true, decide_eq_true_eq, ne_eq]
            exact ⟨⟨by simpa using p.1.1, p.1.2⟩, p.2⟩) hcond
        · exact ⟨x, hx', p⟩

theorem calcScoreFor_eq_four_iff (self : FontLanguage) (supported : FontLanguages) :
    self.calcScoreFor supported = 4 ↔
      calcLoop self supported.mLanguages false false false = none := by
  unfold FontLanguage.calcScoreFor
  rcases h : calcLoop self supported.mLanguages false false false with _ | ⟨lsm, stm, scm⟩
  · simp
  · simp only [h]
    constructor
    · intro h4
      simp only [] at h4
      split_ifs at h4 <;> omega
    · intro hc
      simp at hc

theorem calcScoreFor_range (self : FontLanguage) (supported : FontLanguages) :
    0 ≤ self.calcScoreFor supported ∧ self.calcScoreFor supported ≤ 4 := by
  unfold FontLanguage.calcScoreFor
  rcases h : calcLoop self supported.mLanguages false false false with _ | ⟨lsm, stm, scm⟩
  · simp only [h]
    omega
  · simp only [h]
    constructor <;> split_ifs <;> omega


theorem ite_some_ne_none {α : Type} (c : Prop) [Decidable c] (x y : α) :
    (if c then some x else some y) ≠ none := by
  split <;> simp

theorem feedChar_none_iff (ext : LineBreakExternals) (proc : CharProcessor)
    (idx c : Nat) (w : ℚ) :
    proc.feedChar ext idx c w = none ↔ c = CHAR_TAB := by
  unfold CharProcessor.feedChar
  split
  · simp_all
  · simp_all

theorem runCharStep_none_iff (ext : LineBreakExternals) (measured : MeasuredText)
    (minLineWidth : ℚ) (frequency : HyphenationFrequency) (run : Run)
    (hyphenPenalty : ℚ) (st : CharProcessor × OptimizeContext) (i : Nat) :
    runCharStep ext measured minLineWidth frequency run hyphenPenalty st i = none ↔
      ext.text i = CHAR_TAB := by
  unfold runCharStep
  rcases h : st.1.feedChar ext i (ext.text i) (measured.widths i) with _ | proc
  · simpa using (feedChar_none_iff ext st.1 i (ext.text i) (measured.widths i)).mp h
  · have : ext.text i ≠ CHAR_TAB := by
      intro hc
      rw [(feedChar_none_iff ext st.1 i (ext.text i) (measured.widths i)).mpr hc] at h
      exact Option.noConfusion h
    simp only [Option.bind_eq_bind, Option.bind_some, this, iff_false]
    exact ite_some_ne_none _ _ _

theorem charFold_none_iff (ext : LineBreakExternals) (measured : MeasuredText)
    (minLineWidth : ℚ) (frequency : HyphenationFrequency) (run : Run)
    (hyphenPenalty : ℚ) (l : List Nat) (st : CharProcessor × OptimizeContext) :
    l.foldlM (runCharStep ext measured minLineWidth frequency run hyphenPenalty) st =
        none ↔
      ∃ p ∈ l, ext.text p = CHAR_TAB := by
  induction l generalizing st with
  | nil => simp
  | cons p rest ih =>
    rw [List.foldlM_cons]
    rcases h : runCharStep ext measured minLineWidth frequency run hyphenPenalty st p with
      _ | st'
    · simp only [Option.bind_eq_bind, Option.none_bind, true_iff]
      exact ⟨p, by simp, (runCharStep_none_iff ext measured minLineWidth frequency run
        hyphenPenalty st p).mp h⟩
    · have hp : ext.text p ≠ CHAR_TAB := by
        intro hc
        rw [(runCharStep_none_iff ext measured minLineWidth frequency run hyphenPenalty
          st p).mpr hc] at h
        exact Option.noConfusion h
      simp only [Option.bind_eq_bind, Option.some_bind]
      rw [ih st']
      constructor
      · rintro ⟨q, hq, hqt⟩
        exact ⟨q, by simp [hq], hqt⟩
      · rintro ⟨q, hq, hqt⟩
        rcases List.mem_cons.mp hq with rfl | hq'
        · exact absurd hqt hp
        · exact ⟨q, hq', hqt⟩

theorem processRun_none_iff (ext : LineBreakExternals) (measured : MeasuredText)
    (lineWidth : LineWidth) (frequency : HyphenationFrequency) (isJustified : Bool)
    (minLineWidth : ℚ) (st : CharProcessor × OptimizeContext) (run : Run) :
    processRun ext measured lineWidth frequency isJustified minLineWidth st run = none ↔
      ∃ p ∈ List.range' run.range.start (run.range.stop - run.range.start),
        ext.text p = CHAR_TAB := by
  unfold processRun
  exact charFold_none_iff ext measured minLineWidth frequency run _ _ _

theorem runsFold_none_iff (ext : LineBreakExternals) (measured : MeasuredText)
    (lineWidth : LineWidth) (frequency : HyphenationFrequency) (isJustified : Bool)
    (minLineWidth : ℚ) (runs : List Run) (st : CharProcessor × OptimizeContext) :
    runs.foldlM (processRun ext measured lineWidth frequency isJustified minLineWidth)
        st = none ↔
      ∃ p ∈ fedPositions runs, ext.text p = CHAR_TAB := by
  induction runs generalizing st with
  | nil => simp [fedPositions]
  | cons run rest ih =>
    rw [List.foldlM_cons]
    rcases h : processRun ext measured lineWidth frequency isJustified minLineWidth st
      run with _ | st'
    · simp only [Option.bind_eq_bind, Option.none_bind, true_iff]
      obtain ⟨p, hp, hpt⟩ := (processRun_none_iff ext measured lineWidth frequency
        isJustified minLineWidth st run).mp h
      exact ⟨p, by simp [fedPositions, hp], hpt⟩
    · have hnone : ¬ ∃ p ∈ List.range' run.range.start (run.range.stop - run.range.start),
          ext.text p = CHAR_TAB := by
        intro hc
        rw [(processRun_none_iff ext measured lineWidth frequency isJustified minLineWidth
          st run).mpr hc] at h
        exact Option.noConfusion h
      simp only [Option.bind_eq_bind, Option.some_bind]
      rw [ih st']
      constructor
      · rintro ⟨q, hq, hqt⟩
        exact ⟨q, by simp [fedPositions, hq], hqt⟩
      · rintro ⟨q, hq, hqt⟩
        simp only [fedPositions, List.mem_append] at hq
        rcases hq with hq' | hq'
        · exact absurd ⟨q, hq', hqt⟩ hnone
        · exact ⟨q, hq', hqt⟩

theorem appendMergeLoop_bounded (proc : CharProcessor) (pen : ℚ) (rtl : Bool) :
    ∀ n (hs : List HyphenBreak) (ds : List DesperateBreak) (out : OptimizeContext),
      hs.length + ds.length ≤ n →
      appendMergeLoop proc pen rtl hs ds out =
        { out with candidates := out.candidates ++ mergedBlock proc pen rtl hs ds } := by
  intro n
  induction n with
  | zero =>
    intro hs ds out hlen
    match hs, ds with
    | [], [] => simp [appendMergeLoop, mergedBlock]
    | h :: hs, _ => simp at hlen
    | [], d :: ds => simp at hlen
  | succ n ih =>
    intro hs ds out hlen
    match hs, ds with
    | [], [] => simp [appendMergeLoop, mergedBlock]
    | h :: hs, [] =>
      rw [appendMergeLoop, mergedBlock]
      rw [ih hs [] _ (by simp at hlen ⊢; omega)]
      simp [OptimizeContext.pushHyphenation, hyphCandidate]
    | [], d :: ds =>
      rw [appendMergeLoop, mergedBlock]
      rw [ih [] ds _ (by simp at hlen ⊢; omega)]
      simp [OptimizeContext.pushDesperate, despCandidate]
    | h :: hs, d :: ds =>
      rw [appendMergeLoop, mergedBlock]
      split
      · rw [ih (h :: hs) ds _ (by simp at hlen ⊢; omega)]
        simp [OptimizeContext.pushDesperate, despCandidate]
      · rw [ih hs (d :: ds) _ (by simp at hlen ⊢; omega)]
        simp [OptimizeContext.pushHyphenation, hyphCandidate]

theorem appendWithMerging_eq (hs : List HyphenBreak) (ds : List DesperateBreak)
    (proc : CharProcessor) (pen : ℚ) (rtl : Bool) (out : OptimizeContext) :
    appendWithMerging hs ds proc pen rtl out =
      { out with candidates := out.candidates ++ mergedBlock proc pen rtl hs ds } :=
  appendMergeLoop_bounded proc pen rtl (hs.length + ds.length) hs ds out le_rfl

theorem despCandidate_mem_mergedBlock (proc : CharProcessor) (pen : ℚ) (rtl : Bool) :
    ∀ n (hs : List HyphenBreak) (ds : List DesperateBreak) (d : DesperateBreak),
      hs.length + ds.length ≤ n → d ∈ ds →
      despCandidate proc rtl d ∈ mergedBlock proc pen rtl hs ds := by
  intro n
  induction n with
  | zero =>
    intro hs ds d hlen hd
    match ds with
    | [] => simp at hd
    | _ :: _ => simp at hlen
  | succ n ih =>
    intro hs ds d hlen hd
    match hs, ds with
    | _, [] => simp at hd
    | [], d0 :: ds =>
      rw [mergedBlock]
      rcases List.mem_cons.mp hd with rfl | hd'
      · simp
      · simp only [List.mem_cons]
        exact Or.inr (ih [] ds d (by simp at hlen ⊢; omega) hd')
    | h :: hs, d0 :: ds =>
      rw [mergedBlock]
      split
      · rcases List.mem_cons.mp hd with rfl | hd'
        · simp
        · simp only [List.mem_cons]
          exact Or.inr (ih (h :: hs) ds d (by simp at hlen ⊢; omega) hd')
      · simp only [List.mem_cons]
        exact Or.inr (ih hs (d0 :: ds) d (by simp at hlen ⊢; omega) hd)

theorem mergedBlock_nil_hyphens (proc : CharProcessor) (pen : ℚ) (rtl : Bool) :
    ∀ ds : List DesperateBreak,
      mergedBlock proc pen rtl [] ds = ds.map (despCandidate proc rtl)
  | [] => by simp [mergedBlock]
  | d :: ds => by
    rw [mergedBlock]
    simp [mergedBlock_nil_hyphens proc pen rtl ds]

theorem desperateLoop_eq (widths : Nat → ℚ) :
    ∀ (m a : Nat) (acc : ℚ),
      desperateLoop widths (List.range' a m) acc =
        (List.range' a m).filterMap fun i =>
          if widths i ≠ 0 then some ⟨i, acc + ∑ k ∈ Finset.Ico a i, widths k⟩
          else none := by
  intro m
  induction m with
  | zero => intro a acc; rfl
  | succ m ih =>
    intro a acc
    rw [List.range'_succ, List.filterMap_cons, desperateLoop]
    by_cases hz : widths a = 0
    · rw [if_pos hz, ih (a + 1) acc]
      have hne : ¬ (widths a ≠ 0) := by simpa using hz
      rw [if_neg hne]
      apply List.filterMap_congr
      intro i hi
      have hai : a < i := by
        rw [List.mem_range'] at hi
        obtain ⟨k, _, rfl⟩ := hi
        omega
      rw [Finset.sum_eq_sum_Ico_succ_bot hai widths, hz]
      ring_nf
    · rw [if_neg hz, ih (a + 1) (acc + widths a)]
      rw [if_pos (by simpa using hz)]
      have hhead : (⟨a, acc⟩ : DesperateBreak) =
          ⟨a, acc + ∑ k ∈ Finset.Ico a a, widths k⟩ := by
        simp
      rw [← hhead]
      congr 1
      apply List.filterMap_congr
      intro i hi
      have hai : a < i := by
        rw [List.mem_range'] at hi
        obtain ⟨k, _, rfl⟩ := hi
        omega
      rw [Finset.sum_eq_sum_Ico_succ_bot hai widths]
      ring_nf

theorem populateDesperatePoints_eq (measured : MeasuredText) (r : Range) :
    populateDesperatePoints measured r =
      (List.range' (r.start + 1) (r.stop - (r.start + 1))).filterMap fun i =>
        if measured.widths i ≠ 0 then
          some ⟨i, ∑ k ∈ Finset.Ico r.start i, measured.widths k⟩
        else none := by
  unfold populateDesperatePoints
  rw [desperateLoop_eq]
  apply List.filterMap_congr
  intro i hi
  have hai : r.start < i := by
    rw [List.mem_range'] at hi
    obtain ⟨k, _, rfl⟩ := hi
    omega
  rw [Finset.sum_eq_sum_Ico_succ_bot hai measured.widths]

/-! ### Prefix-width arithmetic -/

theorem prefixWidth_succ (w : Nat → ℚ) (n : Nat) :
    prefixWidth w (n + 1) = prefixWidth w n + w n :=
  Finset.sum_range_succ w n

theorem prefixWidth_add_Ico (w : Nat → ℚ) {a b : Nat} (h : a ≤ b) :
    prefixWidth w a + ∑ k ∈ Finset.Ico a b, w k = prefixWidth w b := by
  unfold prefixWidth
  rw [Finset.range_eq_Ico]
  exact Finset.sum_Ico_consecutive w (Nat.zero_le a) h

theorem prefixWidth_mono (w : Nat → ℚ) (hw : ∀ p, 0 ≤ w p) {a b : Nat} (h : a ≤ b) :
    prefixWidth w a ≤ prefixWidth w b := by
  apply Finset.sum_le_sum_of_subset_of_nonneg (Finset.range_subset.mpr h)
  intro i _ _
  exact hw i

theorem effEnd_le (ext : LineBreakExternals) : ∀ n, effEnd ext n ≤ n
  | 0 => le_rfl
  | k + 1 => by
    rw [effEnd]
    split
    · exact le_trans (effEnd_le ext k) (Nat.le_succ k)
    · exact le_rfl

/-- With no two adjacent line-end spaces, at most the last fed character can be a
trailing space, so the effective prefix end is at least `n - 1`. -/
theorem effEnd_ge_adj (ext : LineBreakExternals)
    (hadj : ∀ k, ¬ (ext.isLineEndSpaceFn (ext.text k) = true ∧
      ext.isLineEndSpaceFn (ext.text (k + 1)) = true)) :
    ∀ n, n - 1 ≤ effEnd ext n := by
  intro n
  match n with
  | 0 => simp
  | 1 =>
    rw [effEnd]
    split <;> simp [effEnd]
  | k + 2 =>
    rw [effEnd]
    split
    · rename_i hsp
      have hk : ¬ ext.isLineEndSpaceFn (ext.text k) = true := by
        intro hk
        exact hadj k ⟨hk, hsp⟩
      rw [effEnd, if_neg hk]
      omega
    · omega

/-! ### The merged candidate block: membership, order and width bounds -/

theorem mergedBlock_mem (proc : CharProcessor) (pen : ℚ) (rtl : Bool) :
    ∀ n (hs : List HyphenBreak) (ds : List DesperateBreak) (c : Candidate),
      hs.length + ds.length ≤ n → c ∈ mergedBlock proc pen rtl hs ds →
      (∃ h ∈ hs, c = hyphCandidate proc pen rtl h) ∨
        (∃ d ∈ ds, c = despCandidate proc rtl d) := by
  intro n
  induction n with
  | zero =>
    intro hs ds c hlen hc
    match hs, ds with
    | [], [] => rw [mergedBlock] at hc; simp at hc
    | h :: hs, _ => simp at hlen
    | [], d :: ds => simp at hlen
  | succ n ih =>
    intro hs ds c hlen hc
    match hs, ds with
    | [], [] => rw [mergedBlock] at hc; simp at hc
    | h :: hs, [] =>
      rw [mergedBlock] at hc
      rcases List.mem_cons.mp hc with rfl | hc'
      · exact Or.inl ⟨h, by simp⟩
      · rcases ih hs [] c (by simp at hlen ⊢; omega) hc' with ⟨h', hh', rfl⟩ | ⟨d', hd', _⟩
        · exact Or.inl ⟨h', by simp [hh'], rfl⟩
        · simp at hd'
    | [], d :: ds =>
      rw [mergedBlock] at hc
      rcases List.mem_cons.mp hc with rfl | hc'
      · exact Or.inr ⟨d, by simp⟩
      · rcases ih [] ds c (by simp at hlen ⊢; omega) hc' with ⟨h', hh', _⟩ | ⟨d', hd', rfl⟩
        · simp at hh'
        · exact Or.inr ⟨d', by simp [hd'], rfl⟩
    | h :: hs, d :: ds =>
      rw [mergedBlock] at hc
      split at hc
      · rcases List.mem_cons.mp hc with rfl | hc'
        · exact Or.inr ⟨d, by simp⟩
        · rcases ih (h :: hs) ds c (by simp at hlen ⊢; omega) hc' with
            ⟨h', hh', rfl⟩ | ⟨d', hd', rfl⟩
          · exact Or.inl ⟨h', hh', rfl⟩
          · exact Or.inr ⟨d', by simp [hd'], rfl⟩
      · rcases List.mem_cons.mp hc with rfl | hc'
        · exact Or.inl ⟨h, by simp⟩
        · rcases ih hs (d :: ds) c (by simp at hlen ⊢; omega) hc' with
            ⟨h', hh', rfl⟩ | ⟨d', hd', rfl⟩
          · exact Or.inl ⟨h', by simp [hh'], rfl⟩
          · exact Or.inr ⟨d', hd', rfl⟩

theorem mergedBlock_offset_mem (proc : CharProcessor) (pen : ℚ) (rtl : Bool)
    (hs : List HyphenBreak) (ds : List DesperateBreak) (c : Candidate)
    (hc : c ∈ mergedBlock proc pen rtl hs ds) :
    (∃ h ∈ hs, c.offset = h.offset) ∨ (∃ d ∈ ds, c.offset = d.offset) := by
  rcases mergedBlock_mem proc pen rtl (hs.length + ds.length) hs ds c le_rfl hc with
    ⟨h, hh, rfl⟩ | ⟨d, hd, rfl⟩
  · exact Or.inl ⟨h, hh, rfl⟩
  · exact Or.inr ⟨d, hd, rfl⟩

/-- The merge of two offset-sorted break lists is offset-sorted (candidates are merged
in non-decreasing offset order). -/
theorem mergedBlock_sorted (proc : CharProcessor) (pen : ℚ) (rtl : Bool) :
    ∀ n (hs : List HyphenBreak) (ds : List DesperateBreak),
      hs.length + ds.length ≤ n →
      List.Pairwise (fun a b : HyphenBreak => a.offset < b.offset) hs →
      List.Pairwise (fun a b : DesperateBreak => a.offset < b.offset) ds →
      List.Pairwise (fun a b : Candidate => a.offset ≤ b.offset)
        (mergedBlock proc pen rtl hs ds) := by
  intro n
  induction n with
  | zero =>
    intro hs ds hlen _ _
    match hs, ds with
    | [], [] => rw [mergedBlock]; exact List.Pairwise.nil
    | h :: hs, _ => simp at hlen
    | [], d :: ds => simp at hlen
  | succ n ih =>
    intro hs ds hlen hhs hds
    match hs, ds with
    | [], [] => rw [mergedBlock]; exact List.Pairwise.nil
    | h :: hs, [] =>
      rw [mergedBlock]
      refine List.Pairwise.cons ?_ (ih hs [] (by simp at hlen ⊢; omega) hhs.of_cons hds)
      intro c hc
      rcases mergedBlock_offset_mem proc pen rtl hs [] c hc with ⟨h', hh', he⟩ | ⟨d', hd', _⟩
      · rw [he]
        exact le_of_lt (List.rel_of_pairwise_cons hhs hh')
      · simp at hd'
    | [], d :: ds =>
      rw [mergedBlock]
      refine List.Pairwise.cons ?_ (ih [] ds (by simp at hlen ⊢; omega) hhs hds.of_cons)
      intro c hc
      rcases mergedBlock_offset_mem proc pen rtl [] ds c hc with ⟨h', hh', _⟩ | ⟨d', hd', he⟩
      · simp at hh'
      · rw [he]
        exact le_of_lt (List.rel_of_pairwise_cons hds hd')
    | h :: hs, d :: ds =>
      rw [mergedBlock]
      split
      · rename_i hdh
        refine List.Pairwise.cons ?_ (ih (h :: hs) ds (by simp at hlen ⊢; omega) hhs hds.of_cons)
        intro c hc
        rcases mergedBlock_offset_mem proc pen rtl (h :: hs) ds c hc with
          ⟨h', hh', he⟩ | ⟨d', hd', he⟩
        · rw [he]
          rcases List.mem_cons.mp hh' with rfl | hh''
          · exact hdh
          · exact le_trans hdh (le_of_lt (List.rel_of_pairwise_cons hhs hh''))
        · rw [he]
          exact le_of_lt (List.rel_of_pairwise_cons hds hd')
      · rename_i hdh
        push_neg at hdh
        refine List.Pairwise.cons ?_ (ih hs (d :: ds) (by simp at hlen ⊢; omega) hhs.of_cons hds)
        intro c hc
        rcases mergedBlock_offset_mem proc pen rtl hs (d :: ds) c hc with
          ⟨h', hh', he⟩ | ⟨d', hd', he⟩
        · rw [he]
          exact le_of_lt (List.rel_of_pairwise_cons hhs hh')
        · rw [he]
          rcases List.mem_cons.mp hd' with rfl | hd''
          · exact le_of_lt hdh
          · exact le_trans (le_of_lt hdh) (le_of_lt (List.rel_of_pairwise_cons hds hd''))

theorem mem_populateDesperatePoints (measured : MeasuredText) (r : Range)
    (d : DesperateBreak) (hd : d ∈ populateDesperatePoints measured r) :
    r.start + 1 ≤ d.offset ∧ d.offset < r.stop ∧
      d.sumOfChars = ∑ k ∈ Finset.Ico r.start d.offset, measured.widths k := by
  rw [populateDesperatePoints_eq, List.mem_filterMap] at hd
  obtain ⟨i, hi, hf⟩ := hd
  have hib : r.start + 1 ≤ i ∧ i < r.stop := by
    rw [List.mem_range'] at hi
    obtain ⟨k, hk, rfl⟩ := hi
    omega
  split at hf
  · rw [Option.some.injEq] at hf
    subst hf
    exact ⟨hib.1, hib.2, rfl⟩
  · exact absurd hf (by simp)

theorem populateDesperatePoints_sorted (measured : MeasuredText) (r : Range) :
    List.Pairwise (fun a b : DesperateBreak => a.offset < b.offset)
      (populateDesperatePoints measured r) := by
  rw [populateDesperatePoints_eq]
  refine List.Pairwise.filterMap _ ?_ (List.pairwise_lt_range' _ _)
  intro a a' haa b hb b' hb'
  have hb1 : b.offset = a := by
    split at hb
    · rw [Option.mem_def, Option.some.injEq] at hb
      subst hb
      rfl
    · simp at hb
  have hb2 : b'.offset = a' := by
    split at hb'
    · rw [Option.mem_def, Option.some.injEq] at hb'
      subst hb'
      rfl
    · simp at hb'
  rw [hb1, hb2]
  exact haa

theorem mem_populateHyphenationPoints (ext : LineBreakExternals) (run : Run)
    (hyphenator : Nat) (ctx word : Range) (h : HyphenBreak)
    (hh : h ∈ populateHyphenationPoints ext run hyphenator ctx word) :
    run.range.containsRange ctx ∧ ctx.containsRange word ∧
      word.start ≤ h.offset ∧ h.offset < word.stop ∧
      h.first = run.measureHyphenPiece ⟨ctx.start, h.offset⟩ StartHyphenEdit.NO_EDIT
        (editForThisLine h.type) ∧
      h.second = run.measureHyphenPiece ⟨h.offset, ctx.stop⟩ (editForNextLine h.type)
        EndHyphenEdit.NO_EDIT := by
  unfold populateHyphenationPoints at hh
  split at hh
  · simp at hh
  · rename_i hguard
    rw [not_not] at hguard
    rw [List.mem_filterMap] at hh
    obtain ⟨i, hi, hf⟩ := hh
    have hib : word.start ≤ i ∧ i < word.stop := by
      rw [List.mem_range'] at hi
      obtain ⟨k, hk, rfl⟩ := hi
      omega
    dsimp only at hf
    split at hf
    · exact absurd hf (by simp)
    · rw [Option.some.injEq] at hf
      subst hf
      exact ⟨hguard.1, hguard.2, hib.1, hib.2, by simp [Range.split], by simp [Range.split]⟩

theorem populateHyphenationPoints_sorted (ext : LineBreakExternals) (run : Run)
    (hyphenator : Nat) (ctx word : Range) :
    List.Pairwise (fun a b : HyphenBreak => a.offset < b.offset)
      (populateHyphenationPoints ext run hyphenator ctx word) := by
  unfold populateHyphenationPoints
  split
  · exact List.Pairwise.nil
  · refine List.Pairwise.filterMap _ ?_ (List.pairwise_lt_range' _ _)
    intro a a' haa b hb b' hb'
    dsimp only at hb hb'
    have hb1 : b.offset = a := by
      split at hb
      · simp at hb
      · rw [Option.mem_def, Option.some.injEq] at hb
        subst hb
        rfl
    have hb2 : b'.offset = a' := by
      split at hb'
      · simp at hb'
      · rw [Option.mem_def, Option.some.injEq] at hb'
        subst hb'
        rfl
    rw [hb1, hb2]
    exact haa

/-- Per-element width bounds for the merged block: every merged candidate sits inside
the context word, its preBreak is at most the paragraph prefix width at its offset, and
its postBreak is at least that prefix width. -/
theorem mergedBlock_bounds (proc : CharProcessor) (pen : ℚ) (rtl : Bool) (W : Nat → ℚ)
    (hs : List HyphenBreak) (ds : List DesperateBreak)
    (hhs : ∀ h ∈ hs, proc.prevWordBreak ≤ h.offset ∧ h.offset < proc.nextWordBreak ∧
      proc.sumOfCharWidths - h.second ≤ W h.offset ∧
      W h.offset ≤ proc.sumOfCharWidthsAtPrevWordBreak + h.first)
    (hds : ∀ d ∈ ds, proc.prevWordBreak ≤ d.offset ∧ d.offset < proc.nextWordBreak ∧
      proc.sumOfCharWidthsAtPrevWordBreak + d.sumOfChars = W d.offset) :
    ∀ c ∈ mergedBlock proc pen rtl hs ds,
      proc.prevWordBreak ≤ c.offset ∧ c.offset < proc.nextWordBreak ∧
      c.preBreak ≤ W c.offset ∧ W c.offset ≤ c.postBreak := by
  intro c hc
  rcases mergedBlock_mem proc pen rtl (hs.length + ds.length) hs ds c le_rfl hc with
    ⟨h, hh, rfl⟩ | ⟨d, hd, rfl⟩
  · obtain ⟨h1, h2, h3, h4⟩ := hhs h hh
    exact ⟨h1, h2, h3, h4⟩
  · obtain ⟨h1, h2, h3⟩ := hds d hd
    exact ⟨h1, h2, le_of_eq h3, ge_of_eq h3⟩

theorem hyphCandidate_mem_mergedBlock (proc : CharProcessor) (pen : ℚ) (rtl : Bool) :
    ∀ n (hs : List HyphenBreak) (ds : List DesperateBreak) (h : HyphenBreak),
      hs.length + ds.length ≤ n → h ∈ hs →
      hyphCandidate proc pen rtl h ∈ mergedBlock proc pen rtl hs ds := by
  intro n
  induction n with
  | zero =>
    intro hs ds h hlen hh
    match hs with
    | [] => simp at hh
    | _ :: _ => simp at hlen
  | succ n ih =>
    intro hs ds h hlen hh
    match hs, ds with
    | [], _ => simp at hh
    | h0 :: hs, [] =>
      rw [mergedBlock]
      rcases List.mem_cons.mp hh with rfl | hh'
      · simp
      · simp only [List.mem_cons]
        exact Or.inr (ih hs [] h (by simp at hlen ⊢; omega) hh')
    | h0 :: hs, d0 :: ds =>
      rw [mergedBlock]
      split
      · simp only [List.mem_cons]
        exact Or.inr (ih (h0 :: hs) ds h (by simp at hlen ⊢; omega) hh)
      · rcases List.mem_cons.mp hh with rfl | hh'
        · simp
        · simp only [List.mem_cons]
          exact Or.inr (ih hs (d0 :: ds) h (by simp at hlen ⊢; omega) hh')

/-- When a desperate break and a hyphenation break share an offset, the merge emits the
desperate candidate strictly before the hyphenation candidate. -/
theorem mergedBlock_tie (proc : CharProcessor) (pen : ℚ) (rtl : Bool) :
    ∀ n (hs : List HyphenBreak) (ds : List DesperateBreak) (h : HyphenBreak)
      (d : DesperateBreak),
      hs.length + ds.length ≤ n →
      List.Pairwise (fun a b : DesperateBreak => a.offset < b.offset) ds →
      h ∈ hs → d ∈ ds → d.offset = h.offset →
      ∃ l₁ l₂ l₃, mergedBlock proc pen rtl hs ds =
        l₁ ++ despCandidate proc rtl d :: (l₂ ++ hyphCandidate proc pen rtl h :: l₃) := by
  intro n
  induction n with
  | zero =>
    intro hs ds h d hlen _ hh hd _
    match hs with
    | [] => simp at hh
    | _ :: _ => simp at hlen
  | succ n ih =>
    intro hs ds h d hlen hds hh hd hoff
    match hs, ds with
    | [], _ => simp at hh
    | _ :: _, [] => simp at hd
    | h0 :: hs, d0 :: ds =>
      rw [mergedBlock]
      split
      · rcases List.mem_cons.mp hd with rfl | hd'
        · have hmem : hyphCandidate proc pen rtl h ∈ mergedBlock proc pen rtl (h0 :: hs) ds :=
            hyphCandidate_mem_mergedBlock proc pen rtl ((h0 :: hs).length + ds.length)
              (h0 :: hs) ds h le_rfl hh
          obtain ⟨s, t, hst⟩ := List.append_of_mem hmem
          exact ⟨[], s, t, by rw [hst]; simp⟩
        · obtain ⟨l₁, l₂, l₃, hl⟩ := ih (h0 :: hs) ds h d (by simp at hlen ⊢; omega)
            hds.of_cons hh hd' hoff
          exact ⟨despCandidate proc rtl d0 :: l₁, l₂, l₃, by rw [hl]; simp⟩
      · rename_i hdh
        push_neg at hdh
        have hh' : h ∈ hs := by
          rcases List.mem_cons.mp hh with rfl | hh'
          · exfalso
            rcases List.mem_cons.mp hd with rfl | hd'
            · exact absurd hoff (by omega)
            · have := List.rel_of_pairwise_cons hds hd'
              omega
          · exact hh'
        obtain ⟨l₁, l₂, l₃, hl⟩ := ih hs (d0 :: ds) h d (by simp at hlen ⊢; omega)
          hds hh' hd hoff
        exact ⟨hyphCandidate proc pen rtl h0 :: l₁, l₂, l₃, by rw [hl]; simp⟩

/-- The effect of one feedChar call on the accumulators: sums advance to the next
prefix width, the boundary state keeps bracketing the fed position, and the locale is
untouched. -/
theorem feedChar_step (ext : LineBreakExternals) (measured : MeasuredText)
    (Hnext : ∀ loc p, p < ext.nextBoundary loc p) (i : Nat) (proc : CharProcessor)
    (hne : ext.text i ≠ CHAR_TAB)
    (hprev : proc.prevWordBreak ≤ i) (hpos : i ≤ proc.nextWordBreak)
    (hsum : proc.sumOfCharWidths = prefixWidth measured.widths i)
    (heff : proc.effectiveWidth = prefixWidth measured.widths (effEnd ext i))
    (hsp : proc.sumOfCharWidthsAtPrevWordBreak =
      prefixWidth measured.widths proc.prevWordBreak) :
    ∃ q, proc.feedChar ext i (ext.text i) (measured.widths i) = some q ∧
      q.sumOfCharWidths = prefixWidth measured.widths (i + 1) ∧
      q.effectiveWidth = prefixWidth measured.widths (effEnd ext (i + 1)) ∧
      q.sumOfCharWidthsAtPrevWordBreak = prefixWidth measured.widths q.prevWordBreak ∧
      q.prevWordBreak ≤ i ∧ i + 1 ≤ q.nextWordBreak ∧
      q.localeListId = proc.localeListId ∧
      q.prevWordBreak = (if i = proc.nextWordBreak then i else proc.prevWordBreak) ∧
      q.nextWordBreak = (if i = proc.nextWordBreak then
        ext.nextBoundary proc.curLocale i else proc.nextWordBreak) := by
  have hWnext := Hnext proc.curLocale proc.nextWordBreak
  unfold CharProcessor.feedChar
  simp only [if_neg hne]
  by_cases hb : i = proc.nextWordBreak
  · simp only [if_pos hb]
    by_cases hle : ext.isLineEndSpaceFn (ext.text i) = true
    · simp only [if_pos hle]
      refine ⟨_, rfl, ?_, ?_, ?_, ?_, ?_, ?_, ?_, ?_⟩ <;>
        simp only [apply_ite CharProcessor.sumOfCharWidths,
          apply_ite CharProcessor.effectiveWidth,
          apply_ite CharProcessor.sumOfCharWidthsAtPrevWordBreak,
          apply_ite CharProcessor.prevWordBreak, apply_ite CharProcessor.nextWordBreak,
          apply_ite CharProcessor.localeListId, ite_self]
      · rw [prefixWidth_succ, hsum]
      · rw [effEnd, if_pos hle, heff]
      · rw [hsum, ← hb]
      · omega
      · omega
      · exact hb.symm
      · rw [← hb]
    · simp only [if_neg hle]
      refine ⟨_, rfl, ?_, ?_, ?_, ?_, ?_, ?_, ?_, ?_⟩ <;>
        simp only [apply_ite CharProcessor.sumOfCharWidths,
          apply_ite CharProcessor.effectiveWidth,
          apply_ite CharProcessor.sumOfCharWidthsAtPrevWordBreak,
          apply_ite CharProcessor.prevWordBreak, apply_ite CharProcessor.nextWordBreak,
          apply_ite CharProcessor.localeListId, ite_self]
      · rw [prefixWidth_succ, hsum]
      · rw [effEnd, if_neg hle, prefixWidth_succ, hsum]
      · rw [hsum, ← hb]
      · omega
      · omega
      · exact hb.symm
      · rw [← hb]
  · simp only [if_neg hb]
    by_cases hle : ext.isLineEndSpaceFn (ext.text i) = true
    · simp only [if_pos hle]
      refine ⟨_, rfl, ?_, ?_, ?_, ?_, ?_, ?_, ?_, ?_⟩ <;>
        simp only [apply_ite CharProcessor.sumOfCharWidths,
          apply_ite CharProcessor.effectiveWidth,
          apply_ite CharProcessor.sumOfCharWidthsAtPrevWordBreak,
          apply_ite CharProcessor.prevWordBreak, apply_ite CharProcessor.nextWordBreak,
          apply_ite CharProcessor.localeListId, ite_self]
      · rw [prefixWidth_succ, hsum]
      · rw [effEnd, if_pos hle, heff]
      · exact hsp
      · exact hprev
      · omega
    · simp only [if_neg hle]
      refine ⟨_, rfl, ?_, ?_, ?_, ?_, ?_, ?_, ?_, ?_⟩ <;>
        simp only [apply_ite CharProcessor.sumOfCharWidths,
          apply_ite CharProcessor.effectiveWidth,
          apply_ite CharProcessor.sumOfCharWidthsAtPrevWordBreak,
          apply_ite CharProcessor.prevWordBreak, apply_ite CharProcessor.nextWordBreak,
          apply_ite CharProcessor.localeListId, ite_self]
      · rw [prefixWidth_succ, hsum]
      · rw [effEnd, if_neg hle, prefixWidth_succ, hsum]
      · exact hsp
      · exact hprev
      · omega

/-- One character step of populateCandidates preserves the builder invariant. -/
theorem builderStep (ext : LineBreakExternals) (measured : MeasuredText) (Lid : Nat)
    (minW : ℚ) (freq : HyphenationFrequency) (run : Run) (pen : ℚ)
    (Hw : ∀ p, 0 ≤ measured.widths p)
    (Hm : ∀ (r : Range) se ee,
      (∑ k ∈ Finset.Ico r.start r.stop, measured.widths k) ≤ run.measureHyphenPiece r se ee)
    (Hnext : ∀ loc p, p < ext.nextBoundary loc p)
    (Hadj : ∀ k, ¬ (ext.isLineEndSpaceFn (ext.text k) = true ∧
      ext.isLineEndSpaceFn (ext.text (k + 1)) = true))
    (i : Nat) (proc : CharProcessor) (out : OptimizeContext)
    (st' : CharProcessor × OptimizeContext)
    (hinv : BuilderInv ext measured Lid i proc out)
    (hloc : proc.localeListId = some Lid)
    (hstep : runCharStep ext measured minW freq run pen (proc, out) i = some st') :
    BuilderInv ext measured Lid (i + 1) st'.1 st'.2 ∧ st'.1.localeListId = some Lid := by
  by_cases htab : ext.text i = CHAR_TAB
  · rw [(runCharStep_none_iff ext measured minW freq run pen (proc, out) i).mpr htab]
      at hstep
    exact absurd hstep (by simp)
  obtain ⟨q, hfe, hsum, heff, hsp, hprevle, hposle, hlid, hprevc, hnextc⟩ :=
    feedChar_step ext measured Hnext i proc htab hinv.prevLe hinv.posLe hinv.sumEq
      hinv.effEq hinv.sumPrevEq
  have hqlid : q.localeListId = some Lid := by rw [hlid, hloc]
  have holdoff : ∀ c ∈ out.candidates, c.offset ≤ q.prevWordBreak := by
    intro c hc
    have hp := hinv.prevLe
    rcases hinv.candOff c hc with h1 | ⟨h2, h3⟩ <;> (rw [hprevc]; split <;> omega)
  simp only [runCharStep, hfe, Option.bind_eq_bind, Option.some_bind] at hstep
  by_cases htr : i + 1 = q.nextWordBreak
  · -- word-boundary transition: the block is merged and the word break maybe pushed
    rw [if_neg (not_not_intro htr), Option.pure_def, Option.some.injEq] at hstep
    subst hstep
    refine ⟨?_, hqlid⟩
    dsimp only
    have hqe : q.nextWordBreak = i + 1 := htr.symm
    set DS := (if q.widthFromLastWordBreak > minW then
      populateDesperatePoints measured q.contextRange else []) with hDSdef
    set HY := (if run.canHyphenate ∧ freq ≠ HyphenationFrequency.None then
      populateHyphenationPoints ext run q.hyphenator q.contextRange
        (CharProcessor.wordRange ext q) else []) with hHYdef
    have hDS : ∀ d ∈ DS, q.prevWordBreak ≤ d.offset ∧ d.offset < q.nextWordBreak ∧
        q.sumOfCharWidthsAtPrevWordBreak + d.sumOfChars =
          prefixWidth measured.widths d.offset := by
      intro d hd
      rw [hDSdef] at hd
      split at hd
      · have hm := mem_populateDesperatePoints measured q.contextRange d hd
        simp only [CharProcessor.contextRange] at hm
        refine ⟨by omega, by omega, ?_⟩
        rw [hsp, hm.2.2,
          prefixWidth_add_Ico measured.widths (show q.prevWordBreak ≤ d.offset by omega)]
      · simp at hd
    have hHY : ∀ h ∈ HY, q.prevWordBreak ≤ h.offset ∧ h.offset < q.nextWordBreak ∧
        q.sumOfCharWidths - h.second ≤ prefixWidth measured.widths h.offset ∧
        prefixWidth measured.widths h.offset ≤
          q.sumOfCharWidthsAtPrevWordBreak + h.first := by
      intro h hh
      rw [hHYdef] at hh
      split at hh
      · obtain ⟨hg1, hg2, ho1, ho2, hf, hsec⟩ := mem_populateHyphenationPoints ext run
          q.hyphenator q.contextRange (CharProcessor.wordRange ext q) h hh
        simp only [CharProcessor.contextRange, Range.containsRange] at hg2 hf hsec
        have how1 : q.prevWordBreak ≤ h.offset := le_trans hg2.1 ho1
        have how2 : h.offset < q.nextWordBreak := lt_of_lt_of_le ho2 hg2.2
        refine ⟨how1, how2, ?_, ?_⟩
        · have hmeas := Hm ⟨h.offset, q.nextWordBreak⟩ (editForNextLine h.type)
            EndHyphenEdit.NO_EDIT
          rw [← hsec] at hmeas
          dsimp only at hmeas
          rw [hqe] at hmeas
          have hadd := prefixWidth_add_Ico measured.widths (le_of_lt how2)
          rw [hsum]
          rw [hqe] at hadd
          linarith
        · have hmeas := Hm ⟨q.prevWordBreak, h.offset⟩ StartHyphenEdit.NO_EDIT
            (editForThisLine h.type)
          rw [← hf] at hmeas
          dsimp only at hmeas
          have hadd := prefixWidth_add_Ico measured.widths how1
          rw [hsp]
          linarith
      · simp at hh
    have hDSs : List.Pairwise (fun a b : DesperateBreak => a.offset < b.offset) DS := by
      rw [hDSdef]
      split
      · exact populateDesperatePoints_sorted _ _
      · exact List.Pairwise.nil
    have hHYs : List.Pairwise (fun a b : HyphenBreak => a.offset < b.offset) HY := by
      rw [hHYdef]
      split
      · exact populateHyphenationPoints_sorted _ _ _ _ _
      · exact List.Pairwise.nil
    rw [appendWithMerging_eq HY DS q pen run.isRtl out]
    have hBb := mergedBlock_bounds q pen run.isRtl (prefixWidth measured.widths) HY DS
      hHY hDS
    have hBs : List.Pairwise (fun a b : Candidate => a.offset ≤ b.offset)
        (mergedBlock q pen run.isRtl HY DS) :=
      mergedBlock_sorted q pen run.isRtl (HY.length + DS.length) HY DS le_rfl hHYs hDSs
    have hint : BuilderInv ext measured Lid (i + 1) q
        { out with candidates := out.candidates ++ mergedBlock q pen run.isRtl HY DS } := by
      refine ⟨hsum, heff, hsp, by omega, hposle, Or.inl hqlid, ?_, ?_, ?_, ?_⟩
      · intro c hc
        rcases List.mem_append.mp hc with hc | hc
        · exact Or.inl (holdoff c hc)
        · exact Or.inr ⟨htr, le_of_lt (hBb c hc).2.1⟩
      · intro c hc
        rcases List.mem_append.mp hc with hc | hc
        · exact hinv.preLe c hc
        · exact (hBb c hc).2.2.1
      · refine List.pairwise_append.mpr ⟨hinv.pairs, ?_, ?_⟩
        · refine hBs.imp_of_mem ?_
          intro a b ha hb hab
          have h1 := (hBb a ha).2.2.1
          have h2 := (hBb b hb).2.2.2
          have h3 := prefixWidth_mono measured.widths Hw hab
          linarith
        · intro a ha b hb
          have h1 := hinv.preLe a ha
          have h2 := prefixWidth_mono measured.widths Hw (holdoff a ha)
          have h3 := prefixWidth_mono measured.widths Hw (hBb b hb).1
          have h4 := (hBb b hb).2.2.2
          linarith
      · refine List.pairwise_append.mpr ⟨hinv.chain, hBs, ?_⟩
        intro a ha b hb
        exact le_trans (holdoff a ha) (hBb b hb).1
    have hall : ∀ c ∈ out.candidates ++ mergedBlock q pen run.isRtl HY DS,
        c.offset ≤ i := by
      intro c hc
      rcases List.mem_append.mp hc with hc | hc
      · have h1 := holdoff c hc
        omega
      · have h1 := (hBb c hc).2.1
        omega
    split
    · -- the word-break candidate is pushed after the merged block
      have hEADJ : i ≤ effEnd ext (i + 1) := by
        have h1 := effEnd_ge_adj ext Hadj (i + 1)
        omega
      simp only [OptimizeContext.pushWordBreak]
      refine ⟨hsum, heff, hsp, by omega, hposle, Or.inl hqlid, ?_, ?_, ?_, ?_⟩
      · intro c hc
        rcases List.mem_append.mp hc with hc | hc
        · exact hint.candOff c hc
        · rw [List.mem_singleton] at hc
          subst hc
          exact Or.inr ⟨htr, by simp [hqe]⟩
      · intro c hc
        rcases List.mem_append.mp hc with hc | hc
        · exact hint.preLe c hc
        · rw [List.mem_singleton] at hc
          subst hc
          exact le_of_eq hsum
      · refine List.pairwise_append.mpr ⟨hint.pairs, by simp, ?_⟩
        intro a ha b hb
        rw [List.mem_singleton] at hb
        subst hb
        have h1 := hint.preLe a ha
        have h2 := prefixWidth_mono measured.widths Hw (hall a ha)
        have h3 := prefixWidth_mono measured.widths Hw hEADJ
        show a.preBreak ≤ q.effectiveWidth
        rw [heff]
        linarith
      · refine List.pairwise_append.mpr ⟨hint.chain, by simp, ?_⟩
        intro a ha b hb
        rw [List.mem_singleton] at hb
        subst hb
        have h1 := hall a ha
        show a.offset ≤ i + 1
        omega
    · exact hint
  · rw [if_pos htr, Option.pure_def, Option.some.injEq] at hstep
    subst hstep
    dsimp only
    refine ⟨⟨hsum, heff, hsp, by omega, hposle, Or.inl hqlid, ?_, hinv.preLe, hinv.pairs,
      hinv.chain⟩, hqlid⟩
    intro c hc
    exact Or.inl (holdoff c hc)

/-- The builder invariant only depends on the candidate list of the context. -/
theorem builderInv_candidates (ext : LineBreakExternals) (measured : MeasuredText)
    (Lid pos : Nat) (proc : CharProcessor) (out out' : OptimizeContext)
    (h : out'.candidates = out.candidates)
    (hi : BuilderInv ext measured Lid pos proc out) :
    BuilderInv ext measured Lid pos proc out' := by
  refine ⟨hi.sumEq, hi.effEq, hi.sumPrevEq, hi.prevLe, hi.posLe, ?_, ?_, ?_, ?_, ?_⟩
  · rcases hi.locOk with hl | hr
    · exact Or.inl hl
    · refine Or.inr ?_
      intro c hc
      rw [h] at hc
      exact hr c hc
  · intro c hc
    rw [h] at hc
    exact hi.candOff c hc
  · intro c hc
    rw [h] at hc
    exact hi.preLe c hc
  · rw [h]
    exact hi.pairs
  · rw [h]
    exact hi.chain

/-- The character loop of a run preserves the builder invariant. -/
theorem builderCharFold (ext : LineBreakExternals) (measured : MeasuredText) (Lid : Nat)
    (minW : ℚ) (freq : HyphenationFrequency) (run : Run) (pen : ℚ)
    (Hw : ∀ p, 0 ≤ measured.widths p)
    (Hm : ∀ (r : Range) se ee,
      (∑ k ∈ Finset.Ico r.start r.stop, measured.widths k) ≤ run.measureHyphenPiece r se ee)
    (Hnext : ∀ loc p, p < ext.nextBoundary loc p)
    (Hadj : ∀ k, ¬ (ext.isLineEndSpaceFn (ext.text k) = true ∧
      ext.isLineEndSpaceFn (ext.text (k + 1)) = true)) :
    ∀ (m i : Nat) (proc : CharProcessor) (out : OptimizeContext)
      (st' : CharProcessor × OptimizeContext),
      BuilderInv ext measured Lid i proc out → proc.localeListId = some Lid →
      (List.range' i m).foldlM (runCharStep ext measured minW freq run pen) (proc, out) =
        some st' →
      BuilderInv ext measured Lid (i + m) st'.1 st'.2 ∧ st'.1.localeListId = some Lid := by
  intro m
  induction m with
  | zero =>
    intro i proc out st' hinv hloc hfold
    rw [show List.range' i 0 = [] from rfl, List.foldlM_nil, Option.pure_def,
      Option.some.injEq] at hfold
    subst hfold
    exact ⟨hinv, hloc⟩
  | succ m ih =>
    intro i proc out st' hinv hloc hfold
    rw [List.range'_succ, List.foldlM_cons] at hfold
    rcases hstep : runCharStep ext measured minW freq run pen (proc, out) i with _ | st1
    · rw [hstep] at hfold
      simp only [Option.bind_eq_bind, Option.none_bind] at hfold
      exact Option.noConfusion hfold
    · rw [hstep] at hfold
      simp only [Option.bind_eq_bind, Option.some_bind] at hfold
      obtain ⟨hinv1, hloc1⟩ := builderStep ext measured Lid minW freq run pen Hw Hm Hnext
        Hadj i proc out st1 hinv hloc hstep
      have hrec := ih (i + 1) st1.1 st1.2 st' hinv1 hloc1 hfold
      have harith : i + 1 + m = i + (m + 1) := by omega
      rw [harith] at hrec
      exact hrec

/-- updateLocaleIfNecessary preserves the builder invariant at a run start and leaves
the processor on the run's locale list. -/
theorem builderUpdateLocale (ext : LineBreakExternals) (measured : MeasuredText)
    (Lid : Nat) (Hfoll : ∀ loc s, s ≤ ext.followingBoundary loc s) (run : Run)
    (hrl : run.localeListId = Lid) (pos : Nat) (proc : CharProcessor)
    (out : OptimizeContext) (hpos : pos = run.range.start)
    (hinv : BuilderInv ext measured Lid pos proc out) :
    BuilderInv ext measured Lid pos (proc.updateLocaleIfNecessary ext run) out ∧
      (proc.updateLocaleIfNecessary ext run).localeListId = some Lid := by
  unfold CharProcessor.updateLocaleIfNecessary
  dsimp only
  by_cases hup : proc.localeListId ≠ some run.localeListId
  · rw [if_pos hup]
    have hcand : ∀ c ∈ out.candidates, c.offset ≤ proc.prevWordBreak := by
      rcases hinv.locOk with hl | hr
      · exfalso
        apply hup
        rw [hl, hrl]
      · exact hr
    refine ⟨⟨hinv.sumEq, hinv.effEq, hinv.sumPrevEq, hinv.prevLe, ?_, ?_, ?_, hinv.preLe,
      hinv.pairs, hinv.chain⟩, ?_⟩
    · rw [hpos]
      exact Hfoll _ _
    · exact Or.inl (by rw [hrl])
    · intro c hc
      exact Or.inl (hcand c hc)
    · rw [hrl]
  · rw [if_neg hup]
    push_neg at hup
    exact ⟨hinv, by rw [hup, hrl]⟩

/-- The initial builder state satisfies the invariant. -/
theorem builderInit (ext : LineBreakExternals) (measured : MeasuredText) (Lid : Nat) :
    BuilderInv ext measured Lid 0 CharProcessor.init OptimizeContext.init := by
  refine ⟨?_, ?_, ?_, le_rfl, le_rfl, ?_, ?_, ?_, ?_, ?_⟩
  · simp [CharProcessor.init, prefixWidth]
  · simp [CharProcessor.init, prefixWidth, effEnd]
  · simp [CharProcessor.init, prefixWidth]
  · refine Or.inr ?_
    intro c hc
    simp only [OptimizeContext.init, List.mem_singleton] at hc
    subst hc
    simp [CharProcessor.init]
  · intro c hc
    simp only [OptimizeContext.init, List.mem_singleton] at hc
    subst hc
    exact Or.inl (by simp [CharProcessor.init])
  · intro c hc
    simp only [OptimizeContext.init, List.mem_singleton] at hc
    subst hc
    simp [prefixWidth]
  · simp [OptimizeContext.init]
  · simp [OptimizeContext.init]

/-- The run loop of populateCandidates preserves the builder invariant across a tiling
of the paragraph. -/
theorem builderRunsFold (ext : LineBreakExternals) (measured : MeasuredText) (Lid : Nat)
    (lineWidth : LineWidth) (freq : HyphenationFrequency) (justified : Bool) (minW : ℚ)
    (Hw : ∀ p, 0 ≤ measured.widths p)
    (Hm : ∀ run ∈ measured.runs, ∀ (r : Range) se ee,
      (∑ k ∈ Finset.Ico r.start r.stop, measured.widths k) ≤ run.measureHyphenPiece r se ee)
    (Hnext : ∀ loc p, p < ext.nextBoundary loc p)
    (Hfoll : ∀ loc s, s ≤ ext.followingBoundary loc s)
    (Hadj : ∀ k, ¬ (ext.isLineEndSpaceFn (ext.text k) = true ∧
      ext.isLineEndSpaceFn (ext.text (k + 1)) = true)) :
    ∀ (runs : List Run) (s N : Nat) (proc : CharProcessor) (out : OptimizeContext)
      (st' : CharProcessor × OptimizeContext),
      (∀ r ∈ runs, r ∈ measured.runs) → (∀ r ∈ runs, r.localeListId = Lid) →
      runsTile runs s N →
      BuilderInv ext measured Lid s proc out →
      runs.foldlM (processRun ext measured lineWidth freq justified minW) (proc, out) =
        some st' →
      BuilderInv ext measured Lid N st'.1 st'.2 := by
  intro runs
  induction runs with
  | nil =>
    intro s N proc out st' _ _ htile hinv hfold
    rw [List.foldlM_nil, Option.pure_def, Option.some.injEq] at hfold
    subst hfold
    have hsN : s = N := htile
    subst hsN
    exact hinv
  | cons run rest ih =>
    intro s N proc out st' hmem hlid htile hinv hfold
    rw [runsTile] at htile
    obtain ⟨hstart, hsle, htile'⟩ := htile
    subst hstart
    rw [List.foldlM_cons] at hfold
    rcases hpr : processRun ext measured lineWidth freq justified minW (proc, out) run
      with _ | st1
    · rw [hpr] at hfold
      simp only [Option.bind_eq_bind, Option.none_bind] at hfold
      exact Option.noConfusion hfold
    · rw [hpr] at hfold
      simp only [Option.bind_eq_bind, Option.some_bind] at hfold
      unfold processRun at hpr
      dsimp only at hpr
      have hres : (if run.canHyphenate = true then
          { out with
            linePenalty := max (computePenalties run lineWidth freq justified).2
              out.linePenalty }
          else out).candidates = out.candidates := by
        split <;> rfl
      have hinv1 := builderInv_candidates ext measured Lid run.range.start proc out _
        hres hinv
      obtain ⟨hinv2, hloc2⟩ := builderUpdateLocale ext measured Lid Hfoll run
        (hlid run (List.mem_cons_self run rest)) run.range.start proc _ rfl hinv1
      obtain ⟨hinv3, hloc3⟩ := builderCharFold ext measured Lid minW freq run _ Hw
        (Hm run (hmem run (List.mem_cons_self run rest))) Hnext Hadj
        (run.range.stop - run.range.start) run.range.start _ _ st1 hinv2 hloc2 hpr
      have harith : run.range.start + (run.range.stop - run.range.start) =
          run.range.stop := by omega
      rw [harith] at hinv3
      exact ih run.range.stop N st1.1 st1.2 st'
        (fun r hr => hmem r (List.mem_cons_of_mem run hr))
        (fun r hr => hlid r (List.mem_cons_of_mem run hr)) htile' hinv3 hfold

/-- The paragraph-level invariant: under non-negative widths, sum-dominating hyphen
piece measurement, strictly advancing word boundaries, a single locale list, a
contiguous run tiling and no two adjacent line-end spaces, the candidate list built by
populateCandidates has pairwise non-negative line widths and non-decreasing offsets. -/
theorem populateCandidates_invariant (ext : LineBreakExternals) (measured : MeasuredText)
    (lineWidth : LineWidth) (freq : HyphenationFrequency) (justified : Bool)
    (Lid N : Nat) (ctx : OptimizeContext)
    (Hw : ∀ p, 0 ≤ measured.widths p)
    (Hm : ∀ run ∈ measured.runs, ∀ (r : Range) se ee,
      (∑ k ∈ Finset.Ico r.start r.stop, measured.widths k) ≤ run.measureHyphenPiece r se ee)
    (Hnext : ∀ loc p, p < ext.nextBoundary loc p)
    (Hfoll : ∀ loc s, s ≤ ext.followingBoundary loc s)
    (Hadj : ∀ k, ¬ (ext.isLineEndSpaceFn (ext.text k) = true ∧
      ext.isLineEndSpaceFn (ext.text (k + 1)) = true))
    (Hlid : ∀ r ∈ measured.runs, r.localeListId = Lid)
    (Htile : runsTile measured.runs 0 N)
    (hres : populateCandidates ext measured lineWidth freq justified = some ctx) :
    List.Pairwise (fun a b : Candidate => a.preBreak ≤ b.postBreak) ctx.candidates ∧
      List.Pairwise (fun a b : Candidate => a.offset ≤ b.offset) ctx.candidates := by
  unfold populateCandidates at hres
  dsimp only at hres
  rcases hfold : measured.runs.foldlM
      (processRun ext measured lineWidth freq justified lineWidth.getMin)
      (CharProcessor.init, OptimizeContext.init) with _ | st
  · rw [hfold] at hres
    simp only [Option.bind_eq_bind, Option.none_bind] at hres
    exact Option.noConfusion hres
  · rw [hfold] at hres
    simp only [Option.bind_eq_bind, Option.some_bind, Option.pure_def,
      Option.some.injEq] at hres
    subst hres
    have hinvN := builderRunsFold ext measured Lid lineWidth freq justified
      lineWidth.getMin Hw Hm Hnext Hfoll Hadj measured.runs 0 N CharProcessor.init
      OptimizeContext.init st (fun r hr => hr) Hlid Htile
      (builderInit ext measured Lid) hfold
    exact ⟨hinvN.pairs, hinvN.chain⟩

/-- Boundary effect of one feedChar call, with no assumptions on the accumulators. -/
theorem feedChar_bounds (ext : LineBreakExternals) (measured : MeasuredText)
    (Hnext : ∀ loc p, p < ext.nextBoundary loc p) (i : Nat) (proc : CharProcessor)
    (hne : ext.text i ≠ CHAR_TAB)
    (hprev : proc.prevWordBreak ≤ i) (hpos : i ≤ proc.nextWordBreak) :
    ∃ q, proc.feedChar ext i (ext.text i) (measured.widths i) = some q ∧
      q.prevWordBreak ≤ i ∧ i + 1 ≤ q.nextWordBreak ∧
      q.localeListId = proc.localeListId ∧
      q.prevWordBreak = (if i = proc.nextWordBreak then i else proc.prevWordBreak) ∧
      q.nextWordBreak = (if i = proc.nextWordBreak then
        ext.nextBoundary proc.curLocale i else proc.nextWordBreak) := by
  have hWnext := Hnext proc.curLocale proc.nextWordBreak
  unfold CharProcessor.feedChar
  simp only [if_neg hne]
  by_cases hb : i = proc.nextWordBreak
  · simp only [if_pos hb]
    refine ⟨_, rfl, ?_, ?_, ?_, ?_, ?_⟩ <;>
      simp only [apply_ite CharProcessor.prevWordBreak,
        apply_ite CharProcessor.nextWordBreak, apply_ite CharProcessor.localeListId,
        ite_self]
    · omega
    · omega
    · exact hb.symm
    · rw [← hb]
  · simp only [if_neg hb]
    refine ⟨_, rfl, ?_, ?_, ?_, ?_, ?_⟩ <;>
      simp only [apply_ite CharProcessor.prevWordBreak,
        apply_ite CharProcessor.nextWordBreak, apply_ite CharProcessor.localeListId,
        ite_self]
    · exact hprev
    · omega

/-- One character step preserves the offset-only invariant. -/
theorem offsetStep (ext : LineBreakExternals) (measured : MeasuredText) (Lid : Nat)
    (minW : ℚ) (freq : HyphenationFrequency) (run : Run) (pen : ℚ)
    (Hnext : ∀ loc p, p < ext.nextBoundary loc p)
    (i : Nat) (proc : CharProcessor) (out : OptimizeContext)
    (st' : CharProcessor × OptimizeContext)
    (hinv : OffsetInv ext Lid i proc out)
    (hloc : proc.localeListId = some Lid)
    (hstep : runCharStep ext measured minW freq run pen (proc, out) i = some st') :
    OffsetInv ext Lid (i + 1) st'.1 st'.2 ∧ st'.1.localeListId = some Lid := by
  by_cases htab : ext.text i = CHAR_TAB
  · rw [(runCharStep_none_iff ext measured minW freq run pen (proc, out) i).mpr htab]
      at hstep
    exact absurd hstep (by simp)
  obtain ⟨q, hfe, hprevle, hposle, hlid, hprevc, hnextc⟩ :=
    feedChar_bounds ext measured Hnext i proc htab hinv.prevLe hinv.posLe
  have hqlid : q.localeListId = some Lid := by rw [hlid, hloc]
  have holdoff : ∀ c ∈ out.candidates, c.offset ≤ q.prevWordBreak := by
    intro c hc
    have hp := hinv.prevLe
    rcases hinv.candOff c hc with h1 | ⟨h2, h3⟩ <;> (rw [hprevc]; split <;> omega)
  simp only [runCharStep, hfe, Option.bind_eq_bind, Option.some_bind] at hstep
  by_cases htr : i + 1 = q.nextWordBreak
  · rw [if_neg (not_not_intro htr), Option.pure_def, Option.some.injEq] at hstep
    subst hstep
    refine ⟨?_, hqlid⟩
    dsimp only
    have hqe : q.nextWordBreak = i + 1 := htr.symm
    set DS := (if q.widthFromLastWordBreak > minW then
      populateDesperatePoints measured q.contextRange else []) with hDSdef
    set HY := (if run.canHyphenate ∧ freq ≠ HyphenationFrequency.None then
      populateHyphenationPoints ext run q.hyphenator q.contextRange
        (CharProcessor.wordRange ext q) else []) with hHYdef
    have hDSo : ∀ d ∈ DS, q.prevWordBreak ≤ d.offset ∧ d.offset < q.nextWordBreak := by
      intro d hd
      rw [hDSdef] at hd
      split at hd
      · have hm := mem_populateDesperatePoints measured q.contextRange d hd
        simp only [CharProcessor.contextRange] at hm
        exact ⟨by omega, hm.2.1⟩
      · simp at hd
    have hHYo : ∀ h ∈ HY, q.prevWordBreak ≤ h.offset ∧ h.offset < q.nextWordBreak := by
      intro h hh
      rw [hHYdef] at hh
      split at hh
      · obtain ⟨hg1, hg2, ho1, ho2, _, _⟩ := mem_populateHyphenationPoints ext run
          q.hyphenator q.contextRange (CharProcessor.wordRange ext q) h hh
        simp only [CharProcessor.contextRange, Range.containsRange] at hg2
        exact ⟨le_trans hg2.1 ho1, lt_of_lt_of_le ho2 hg2.2⟩
      · simp at hh
    have hDSs : List.Pairwise (fun a b : DesperateBreak => a.offset < b.offset) DS := by
      rw [hDSdef]
      split
      · exact populateDesperatePoints_sorted _ _
      · exact List.Pairwise.nil
    have hHYs : List.Pairwise (fun a b : HyphenBreak => a.offset < b.offset) HY := by
      rw [hHYdef]
      split
      · exact populateHyphenationPoints_sorted _ _ _ _ _
      · exact List.Pairwise.nil
    rw [appendWithMerging_eq HY DS q pen run.isRtl out]
    have hBo : ∀ c ∈ mergedBlock q pen run.isRtl HY DS,
        q.prevWordBreak ≤ c.offset ∧ c.offset < q.nextWordBreak := by
      intro c hc
      rcases mergedBlock_offset_mem q pen run.isRtl HY DS c hc with
        ⟨h, hh, he⟩ | ⟨d, hd, he⟩
      · rw [he]
        exact hHYo h hh
      · rw [he]
        exact hDSo d hd
    have hBs : List.Pairwise (fun a b : Candidate => a.offset ≤ b.offset)
        (mergedBlock q pen run.isRtl HY DS) :=
      mergedBlock_sorted q pen run.isRtl (HY.length + DS.length) HY DS le_rfl hHYs hDSs
    have hint : OffsetInv ext Lid (i + 1) q
        { out with candidates := out.candidates ++ mergedBlock q pen run.isRtl HY DS } := by
      refine ⟨by omega, hposle, Or.inl hqlid, ?_, ?_⟩
      · intro c hc
        rcases List.mem_append.mp hc with hc | hc
        · exact Or.inl (holdoff c hc)
        · exact Or.inr ⟨htr, le_of_lt (hBo c hc).2⟩
      · refine List.pairwise_append.mpr ⟨hinv.chain, hBs, ?_⟩
        intro a ha b hb
        exact le_trans (holdoff a ha) (hBo b hb).1
    have hall : ∀ c ∈ out.candidates ++ mergedBlock q pen run.isRtl HY DS,
        c.offset ≤ i := by
      intro c hc
      rcases List.mem_append.mp hc with hc | hc
      · have h1 := holdoff c hc
        omega
      · have h1 := (hBo c hc).2
        omega
    split
    · simp only [OptimizeContext.pushWordBreak]
      refine ⟨by omega, hposle, Or.inl hqlid, ?_, ?_⟩
      · intro c hc
        rcases List.mem_append.mp hc with hc | hc
        · exact hint.candOff c hc
        · rw [List.mem_singleton] at hc
          subst hc
          exact Or.inr ⟨htr, by simp [hqe]⟩
      · refine List.pairwise_append.mpr ⟨hint.chain, by simp, ?_⟩
        intro a ha b hb
        rw [List.mem_singleton] at hb
        subst hb
        have h1 := hall a ha
        show a.offset ≤ i + 1
        omega
    · exact hint
  · rw [if_pos htr, Option.pure_def, Option.some.injEq] at hstep
    subst hstep
    dsimp only
    refine ⟨⟨by omega, hposle, Or.inl hqlid, ?_, hinv.chain⟩, hqlid⟩
    intro c hc
    exact Or.inl (holdoff c hc)

/-- The offset-only invariant only depends on the candidate list of the context. -/
theorem offsetInv_candidates (ext : LineBreakExternals) (Lid pos : Nat)
    (proc : CharProcessor) (out out' : OptimizeContext)
    (h : out'.candidates = out.candidates)
    (hi : OffsetInv ext Lid pos proc out) : OffsetInv ext Lid pos proc out' := by
  refine ⟨hi.prevLe, hi.posLe, ?_, ?_, ?_⟩
  · rcases hi.locOk with hl | hr
    · exact Or.inl hl
    · refine Or.inr ?_
      intro c hc
      rw [h] at hc
      exact hr c hc
  · intro c hc
    rw [h] at hc
    exact hi.candOff c hc
  · rw [h]
    exact hi.chain

/-- The character loop of a run preserves the offset-only invariant. -/
theorem offsetCharFold (ext : LineBreakExternals) (measured : MeasuredText) (Lid : Nat)
    (minW : ℚ) (freq : HyphenationFrequency) (run : Run) (pen : ℚ)
    (Hnext : ∀ loc p, p < ext.nextBoundary loc p) :
    ∀ (m i : Nat) (proc : CharProcessor) (out : OptimizeContext)
      (st' : CharProcessor × OptimizeContext),
      OffsetInv ext Lid i proc out → proc.localeListId = some Lid →
      (List.range' i m).foldlM (runCharStep ext measured minW freq run pen) (proc, out) =
        some st' →
      OffsetInv ext Lid (i + m) st'.1 st'.2 ∧ st'.1.localeListId = some Lid := by
  intro m
  induction m with
  | zero =>
    intro i proc out st' hinv hloc hfold
    rw [show List.range' i 0 = [] from rfl, List.foldlM_nil, Option.pure_def,
      Option.some.injEq] at hfold
    subst hfold
    exact ⟨hinv, hloc⟩
  | succ m ih =>
    intro i proc out st' hinv hloc hfold
    rw [List.range'_succ, List.foldlM_cons] at hfold
    rcases hstep : runCharStep ext measured minW freq run pen (proc, out) i with _ | st1
    · rw [hstep] at hfold
      simp only [Option.bind_eq_bind, Option.none_bind] at hfold
      exact Option.noConfusion hfold
    · rw [hstep] at hfold
      simp only [Option.bind_eq_bind, Option.some_bind] at hfold
      obtain ⟨hinv1, hloc1⟩ := offsetStep ext measured Lid minW freq run pen Hnext
        i proc out st1 hinv hloc hstep
      have hrec := ih (i + 1) st1.1 st1.2 st' hinv1 hloc1 hfold
      have harith : i + 1 + m = i + (m + 1) := by omega
      rw [harith] at hrec
      exact hrec

/-- updateLocaleIfNecessary preserves the offset-only invariant at a run start. -/
theorem offsetUpdateLocale (ext : LineBreakExternals) (Lid : Nat)
    (Hfoll : ∀ loc s, s ≤ ext.followingBoundary loc s) (run : Run)
    (hrl : run.localeListId = Lid) (pos : Nat) (proc : CharProcessor)
    (out : OptimizeContext) (hpos : pos = run.range.start)
    (hinv : OffsetInv ext Lid pos proc out) :
    OffsetInv ext Lid pos (proc.updateLocaleIfNecessary ext run) out ∧
      (proc.updateLocaleIfNecessary ext run).localeListId = some Lid := by
  unfold CharProcessor.updateLocaleIfNecessary
  dsimp only
  by_cases hup : proc.localeListId ≠ some run.localeListId
  · rw [if_pos hup]
    have hcand : ∀ c ∈ out.candidates, c.offset ≤ proc.prevWordBreak := by
      rcases hinv.locOk with hl | hr
      · exfalso
        apply hup
        rw [hl, hrl]
      · exact hr
    refine ⟨⟨hinv.prevLe, ?_, ?_, ?_, hinv.chain⟩, ?_⟩
    · rw [hpos]
      exact Hfoll _ _
    · exact Or.inl (by rw [hrl])
    · intro c hc
      exact Or.inl (hcand c hc)
    · rw [hrl]
  · rw [if_neg hup]
    push_neg at hup
    exact ⟨hinv, by rw [hup, hrl]⟩

/-- The initial builder state satisfies the offset-only invariant. -/
theorem offsetInit (ext : LineBreakExternals) (Lid : Nat) :
    OffsetInv ext Lid 0 CharProcessor.init OptimizeContext.init := by
  refine ⟨le_rfl, le_rfl, ?_, ?_, ?_⟩
  · refine Or.inr ?_
    intro c hc
    simp only [OptimizeContext.init, List.mem_singleton] at hc
    subst hc
    simp [CharProcessor.init]
  · intro c hc
    simp only [OptimizeContext.init, List.mem_singleton] at hc
    subst hc
    exact Or.inl (by simp [CharProcessor.init])
  · simp [OptimizeContext.init]

/-- The run loop preserves the offset-only invariant across a tiling. -/
theorem offsetRunsFold (ext : LineBreakExternals) (measured : MeasuredText) (Lid : Nat)
    (lineWidth : LineWidth) (freq : HyphenationFrequency) (justified : Bool) (minW : ℚ)
    (Hnext : ∀ loc p, p < ext.nextBoundary loc p)
    (Hfoll : ∀ loc s, s ≤ ext.followingBoundary loc s) :
    ∀ (runs : List Run) (s N : Nat) (proc : CharProcessor) (out : OptimizeContext)
      (st' : CharProcessor × OptimizeContext),
      (∀ r ∈ runs, r.localeListId = Lid) →
      runsTile runs s N →
      OffsetInv ext Lid s proc out →
      runs.foldlM (processRun ext measured lineWidth freq justified minW) (proc, out) =
        some st' →
      OffsetInv ext Lid N st'.1 st'.2 := by
  intro runs
  induction runs with
  | nil =>
    intro s N proc out st' _ htile hinv hfold
    rw [List.foldlM_nil, Option.pure_def, Option.some.injEq] at hfold
    subst hfold
    have hsN : s = N := htile
    subst hsN
    exact hinv
  | cons run rest ih =>
    intro s N proc out st' hlid htile hinv hfold
    rw [runsTile] at htile
    obtain ⟨hstart, hsle, htile'⟩ := htile
    subst hstart
    rw [List.foldlM_cons] at hfold
    rcases hpr : processRun ext measured lineWidth freq justified minW (proc, out) run
      with _ | st1
    · rw [hpr] at hfold
      simp only [Option.bind_eq_bind, Option.none_bind] at hfold
      exact Option.noConfusion hfold
    · rw [hpr] at hfold
      simp only [Option.bind_eq_bind, Option.some_bind] at hfold
      unfold processRun at hpr
      dsimp only at hpr
      have hres : (if run.canHyphenate = true then
          { out with
            linePenalty := max (computePenalties run lineWidth freq justified).2
              out.linePenalty }
          else out).candidates = out.candidates := by
        split <;> rfl
      have hinv1 := offsetInv_candidates ext Lid run.range.start proc out _ hres hinv
      obtain ⟨hinv2, hloc2⟩ := offsetUpdateLocale ext Lid Hfoll run
        (hlid run (List.mem_cons_self run rest)) run.range.start proc _ rfl hinv1
      obtain ⟨hinv3, hloc3⟩ := offsetCharFold ext measured Lid minW freq run _ Hnext
        (run.range.stop - run.range.start) run.range.start _ _ st1 hinv2 hloc2 hpr
      have harith : run.range.start + (run.range.stop - run.range.start) =
          run.range.stop := by omega
      rw [harith] at hinv3
      exact ih run.range.stop N st1.1 st1.2 st'
        (fun r hr => hlid r (List.mem_cons_of_mem run hr)) htile' hinv3 hfold

/-- Offset monotonicity of the candidate list, assuming only strictly advancing word
boundaries, following() at or after the queried offset, a single locale list and a
contiguous run tiling. -/
theorem populateCandidates_offsetMono (ext : LineBreakExternals)
    (measured : MeasuredText) (lineWidth : LineWidth) (freq : HyphenationFrequency)
    (justified : Bool) (Lid N : Nat) (ctx : OptimizeContext)
    (Hnext : ∀ loc p, p < ext.nextBoundary loc p)
    (Hfoll : ∀ loc s, s ≤ ext.followingBoundary loc s)
    (Hlid : ∀ r ∈ measured.runs, r.localeListId = Lid)
    (Htile : runsTile measured.runs 0 N)
    (hres : populateCandidates ext measured lineWidth freq justified = some ctx) :
    List.Pairwise (fun a b : Candidate => a.offset ≤ b.offset) ctx.candidates := by
  unfold populateCandidates at hres
  dsimp only at hres
  rcases hfold : measured.runs.foldlM
      (processRun ext measured lineWidth freq justified lineWidth.getMin)
      (CharProcessor.init, OptimizeContext.init) with _ | st
  · rw [hfold] at hres
    simp only [Option.bind_eq_bind, Option.none_bind] at hres
    exact Option.noConfusion hres
  · rw [hfold] at hres
    simp only [Option.bind_eq_bind, Option.some_bind, Option.pure_def,
      Option.some.injEq] at hres
    subst hres
    exact (offsetRunsFold ext measured Lid lineWidth freq justified lineWidth.getMin
      Hnext Hfoll measured.runs 0 N CharProcessor.init OptimizeContext.init st Hlid
      Htile (offsetInit ext Lid) hfold).chain

/-! ## Part 6: the claims -/

/-- C3. The claim says: for every valid BCP-47 subset string s
(lang [-script] [-region] [-variant] [-u-em-subtag] with valid tokens), constructing a
FontLanguage from s and calling getString() returns the canonical string form of s.
This is false: getString never reconstructs the -u-em- extension, so for the valid
string "en-u-em-emoji" it returns "en". -/
theorem claim_C3_localeTag_counterexample :
    validComponents ['e', 'n'] none none none (some ['e', 'm', 'o', 'j', 'i']) ∧
    (parseTag (buildTag ['e', 'n'] none none none
        (some ['e', 'm', 'o', 'j', 'i']))).getString ≠
      buildTag ['e', 'n'] none none none (some ['e', 'm', 'o', 'j', 'i']) := by
  constructor
  · refine ⟨by decide, ?_, ?_, ?_, ?_⟩
    · intro t ht; simp at ht
    · intro t ht; simp at ht
    · intro t ht; simp at ht
    · intro t ht
      simp only [Option.mem_def, Option.some.injEq] at ht
      subst ht
      exact Or.inl rfl
  · decide

/-- C3 (amended). For every valid BCP-47 subset string without the -u-em- extension,
parsing followed by getString() is the identity (the extension, when present, is parsed
into the emoji style but dropped by getString); parsing "de-1996" sets the German 1996
variant and getString() yields "de-1996"; and an invalid language token yields "und". -/
theorem claim_C3_localeTag_amended :
    (∀ lang script region variant,
      validComponents lang script region variant none →
      (parseTag (buildTag lang script region variant none)).getString =
        buildTag lang script region variant none) ∧
    (parseTag ['d', 'e', '-', '1', '9', '9', '6']).mVariant =
      Variant.GERMAN_1996_ORTHOGRAPHY ∧
    (parseTag ['d', 'e', '-', '1', '9', '9', '6']).getString =
      ['d', 'e', '-', '1', '9', '9', '6'] ∧
    (∀ s, isValidLanguageCode ((splitTokens s).headD []) = false →
      (parseTag s).getString = ['u', 'n', 'd']) := by
  refine ⟨parse_buildTag, by decide, by decide, ?_⟩
  intro s h
  unfold parseTag
  rcases hsp : splitTokens s with _ | ⟨tok, ts⟩
  · rfl
  · rw [hsp] at h
    simp only [List.headD_cons] at h
    simp only [h, Bool.false_eq_true, not_false_eq_true, if_true]
    rfl

/-- Witness for the amended C3 theorem at the concrete valid input "en". -/
theorem claim_C3_localeTag_amended_witness :
    (parseTag (buildTag ['e', 'n'] none none none none)).getString =
      buildTag ['e', 'n'] none none none none :=
  claim_C3_localeTag_amended.1 ['e', 'n'] none none none
    ⟨by decide, by intro t ht; simp at ht, by intro t ht; simp at ht,
      by intro t ht; simp at ht, by intro t ht; simp at ht⟩

/-- C6. For every FontLanguage tag and every list of supported tags, calcScoreFor
returns a value in 0..4, and it returns 4 exactly when the tag's emoji style matches a
supported tag whose language also matches. -/
theorem claim_C6_calcScore (self : FontLanguage) (supported : FontLanguages) :
    (0 ≤ self.calcScoreFor supported ∧ self.calcScoreFor supported ≤ 4) ∧
    (self.calcScoreFor supported = 4 ↔ ∃ s ∈ supported.mLanguages,
      (self.mEmojiStyle ≠ EmojiStyle.EMSTYLE_EMPTY ∧ self.mEmojiStyle = s.mEmojiStyle) ∧
      self.mLanguage = s.mLanguage) := by
  refine ⟨calcScoreFor_range self supported, ?_⟩
  rw [calcScoreFor_eq_four_iff, calcLoop_none_iff]


/-- C1. The claim says: whenever j's lineNumber differs from the previous candidate's,
the optimizer refreshes width to lineWidth.at(lineNumber[j]), resets bestHope, and
recomputes leftEdge as candidates[i].postBreak minus the REFRESHED width. This is
false: the source assigns `leftEdge = candidates[i].postBreak - width` before updating
`width`, so leftEdge is computed from the width in effect before the refresh. Concrete
instance: postBreak 200, old width 100, new width 50: leftEdge becomes 100, not 150. -/
theorem claim_C1_refresh_counterexample :
    ((([⟨0, 0, 0⟩, ⟨5, 0, 1⟩] : List OptimalBreaksData).getD 1 default).lineNumber ≠
      (⟨0, 0, 100, 100, 0, SCORE_INFTY, 0⟩ : InnerState).lineNumberLast) ∧
    (refreshedState
        [default, default, ⟨2, 150, 200, 0, 0, 0, HyphenationType.DONT_BREAK, false⟩]
        ⟨fun n => if n = 0 then 100 else 50, 50⟩
        [⟨0, 0, 0⟩, ⟨5, 0, 1⟩] 2
        ⟨0, 0, 100, 100, 0, SCORE_INFTY, 0⟩ 1).leftEdge ≠
      ((([default, default,
            ⟨2, 150, 200, 0, 0, 0, HyphenationType.DONT_BREAK, false⟩] :
          List Candidate).getD 2 default).postBreak -
        LineWidth.getAt ⟨fun n => if n = 0 then 100 else 50, 50⟩
          ((([⟨0, 0, 0⟩, ⟨5, 0, 1⟩] : List OptimalBreaksData).getD 1 default).lineNumber)) := by
  constructor
  · decide
  · unfold refreshedState LineWidth.getAt
    norm_num [SCORE_INFTY, List.getD]

/-- C1 (amended). When lineNumber[j] differs from lineNumberLast, the refresh happens
only if the new line width differs from the current one, and then leftEdge is assigned
candidates[i].postBreak minus the width in effect BEFORE the refresh (while bestHope is
reset to 0 and width is set to the new value); subsequent delta computations therefore
use leftEdge = candidates[i].postBreak - (previous width). -/
theorem claim_C1_refresh_amended (candidates : List Candidate) (lineWidth : LineWidth)
    (breaksData : List OptimalBreaksData) (i : Nat) (s : InnerState) (j : Nat)
    (hne : (breaksData.getD j default).lineNumber ≠ s.lineNumberLast) :
    refreshedState candidates lineWidth breaksData i s j =
      if lineWidth.getAt (breaksData.getD j default).lineNumber ≠ s.width then
        { s with
            leftEdge := (candidates.getD i default).postBreak - s.width
            bestHope := 0
            width := lineWidth.getAt (breaksData.getD j default).lineNumber
            lineNumberLast := (breaksData.getD j default).lineNumber }
      else { s with lineNumberLast := (breaksData.getD j default).lineNumber } := by
  unfold refreshedState
  rw [if_pos hne]

/-- Witness for the amended C1 theorem at a concrete state with a line-number change. -/
theorem claim_C1_refresh_amended_witness :
    refreshedState ([] : List Candidate) ⟨fun _ => 50, 50⟩
        [⟨0, 0, 0⟩, ⟨5, 0, 1⟩] 2 ⟨0, 0, 100, 100, 0, SCORE_INFTY, 0⟩ 1 =
      if LineWidth.getAt ⟨fun _ => 50, 50⟩
          ((([⟨0, 0, 0⟩, ⟨5, 0, 1⟩] : List OptimalBreaksData).getD 1 default).lineNumber) ≠
          (⟨0, 0, 100, 100, 0, SCORE_INFTY, 0⟩ : InnerState).width then
        { (⟨0, 0, 100, 100, 0, SCORE_INFTY, 0⟩ : InnerState) with
            leftEdge := ((([] : List Candidate).getD 2 default)).postBreak - 100
            bestHope := 0
            width := LineWidth.getAt ⟨fun _ => 50, 50⟩
              ((([⟨0, 0, 0⟩, ⟨5, 0, 1⟩] : List OptimalBreaksData).getD 1 default).lineNumber)
            lineNumberLast :=
              (([⟨0, 0, 0⟩, ⟨5, 0, 1⟩] : List OptimalBreaksData).getD 1 default).lineNumber }
      else
        { (⟨0, 0, 100, 100, 0, SCORE_INFTY, 0⟩ : InnerState) with
            lineNumberLast :=
              (([⟨0, 0, 0⟩, ⟨5, 0, 1⟩] : List OptimalBreaksData).getD 1 default).lineNumber } :=
  claim_C1_refresh_amended [] ⟨fun _ => 50, 50⟩ [⟨0, 0, 0⟩, ⟨5, 0, 1⟩] 2
    ⟨0, 0, 100, 100, 0, SCORE_INFTY, 0⟩ 1 (by decide)

/-- C4. The widthScore/additionalPenalty case analysis of the optimizer's inner loop:
overfull when (atEnd or not justified) and delta < 0; last-line hyphen multiplier when
atEnd and strategy is not balanced; otherwise delta squared, multiplied by 4 under the
shrink bound and replaced by SCORE_OVERFULL when the bound fails. -/
theorem claim_C4_widthScore (atEnd justified : Bool) (strategy : BreakStrategy)
    (maxShrink delta penaltyJ : ℚ) (postSpaceI preSpaceJ : Nat) :
    (((atEnd || !justified) = true ∧ delta < 0) →
      computeWidthScore atEnd justified strategy maxShrink delta penaltyJ postSpaceI
        preSpaceJ = (SCORE_OVERFULL, 0)) ∧
    (¬ ((atEnd || !justified) = true ∧ delta < 0) →
      (atEnd = true ∧ strategy ≠ BreakStrategy.Balanced) →
      computeWidthScore atEnd justified strategy maxShrink delta penaltyJ postSpaceI
        preSpaceJ = (0, LAST_LINE_PENALTY_MULTIPLIER * penaltyJ)) ∧
    (¬ ((atEnd || !justified) = true ∧ delta < 0) →
      ¬ (atEnd = true ∧ strategy ≠ BreakStrategy.Balanced) →
      (0 ≤ delta →
        computeWidthScore atEnd justified strategy maxShrink delta penaltyJ postSpaceI
          preSpaceJ = (delta * delta, 0)) ∧
      (delta < 0 →
        -delta < maxShrink * (((postSpaceI + 2 ^ 32 - preSpaceJ) % 2 ^ 32 : Nat) : ℚ) →
        computeWidthScore atEnd justified strategy maxShrink delta penaltyJ postSpaceI
          preSpaceJ = (delta * delta * SHRINK_PENALTY_MULTIPLIER, 0)) ∧
      (delta < 0 →
        ¬ (-delta < maxShrink * (((postSpaceI + 2 ^ 32 - preSpaceJ) % 2 ^ 32 : Nat) : ℚ)) →
        computeWidthScore atEnd justified strategy maxShrink delta penaltyJ postSpaceI
          preSpaceJ = (SCORE_OVERFULL, 0))) := by
  unfold computeWidthScore
  refine ⟨fun h1 => by rw [if_pos h1], fun h1 h2 => by rw [if_neg h1, if_pos h2], ?_⟩
  intro h1 h2
  rw [if_neg h1, if_neg h2]
  refine ⟨fun hd => ?_, fun hd hs => ?_, fun hd hs => ?_⟩
  · rw [if_neg (by linarith)]
  · rw [if_pos hd, if_pos hs]
  · rw [if_pos hd, if_neg hs]

/-- Witness for C4 at a concrete overfull input. -/
theorem claim_C4_widthScore_witness :
    computeWidthScore true false BreakStrategy.HighQuality 0 (-1) 2 0 0 =
      (SCORE_OVERFULL, 0) :=
  (claim_C4_widthScore true false BreakStrategy.HighQuality 0 (-1) 2 0 0).1
    ⟨by decide, by norm_num⟩


/-- C9. The paragraph pass fails fast exactly when a TAB code unit is fed to the
candidate builder: populateCandidates aborts (the feedChar assertion, modelled as
`none`) iff some fed position holds TAB; with no TAB among the fed code units,
processing completes. -/
theorem claim_C9_tab (ext : LineBreakExternals) (measured : MeasuredText)
    (lineWidth : LineWidth) (frequency : HyphenationFrequency) (justified : Bool) :
    populateCandidates ext measured lineWidth frequency justified = none ↔
      ∃ p ∈ fedPositions measured.runs, ext.text p = CHAR_TAB := by
  unfold populateCandidates
  rw [← runsFold_none_iff ext measured lineWidth frequency justified lineWidth.getMin
    measured.runs (CharProcessor.init, OptimizeContext.init)]
  rcases h : measured.runs.foldlM
    (processRun ext measured lineWidth frequency justified lineWidth.getMin)
    (CharProcessor.init, OptimizeContext.init) with _ | st
  · simp [h]
  · simp [h]


/-- C10. Every desperate break appended by appendWithMerging yields a candidate whose
preBreak equals its postBreak, whose preSpaceCount equals its postSpaceCount, whose
penalty is SCORE_DESPERATE (1e10) and whose hyphenType is
BREAK_AND_DONT_INSERT_HYPHEN. -/
theorem claim_C10_desperateFields (hyphens : List HyphenBreak) (desperates : List DesperateBreak)
    (proc : CharProcessor) (hyphenPenalty : ℚ) (isRtl : Bool) (out : OptimizeContext)
    (d : DesperateBreak) (hd : d ∈ desperates) :
    ∃ c ∈ (appendWithMerging hyphens desperates proc hyphenPenalty isRtl out).candidates,
      c.offset = d.offset ∧ c.preBreak = c.postBreak ∧
      c.preSpaceCount = c.postSpaceCount ∧ c.penalty = SCORE_DESPERATE ∧
      c.hyphenType = HyphenationType.BREAK_AND_DONT_INSERT_HYPHEN := by
  refine ⟨despCandidate proc isRtl d, ?_, rfl, rfl, rfl, rfl, rfl⟩
  rw [appendWithMerging_eq]
  simp only [List.mem_append]
  exact Or.inr (despCandidate_mem_mergedBlock proc hyphenPenalty isRtl
    (hyphens.length + desperates.length) hyphens desperates d le_rfl hd)

/-- Witness for C10 at a concrete desperate break. -/
theorem claim_C10_desperateFields_witness :
    ∃ c ∈ (appendWithMerging [] [⟨2, 5⟩] CharProcessor.init 0 false
        OptimizeContext.init).candidates,
      c.offset = (⟨2, 5⟩ : DesperateBreak).offset ∧ c.preBreak = c.postBreak ∧
      c.preSpaceCount = c.postSpaceCount ∧ c.penalty = SCORE_DESPERATE ∧
      c.hyphenType = HyphenationType.BREAK_AND_DONT_INSERT_HYPHEN :=
  claim_C10_desperateFields [] [⟨2, 5⟩] CharProcessor.init 0 false OptimizeContext.init ⟨2, 5⟩
    (by simp)

/-- C8. When the measured sub-ranges of a word's hyphenation candidates fall outside
the enclosing context range or the run's range (the guard of
populateHyphenationPoints), those candidates are dropped (the function returns the
empty list) while processing continues: appendWithMerging then appends exactly the
desperate candidates, leaving the other candidates and the rest of the paragraph
unaffected. -/
theorem claim_C8_rangeViolation (ext : LineBreakExternals) (run : Run) (hyphenator : Nat)
    (contextRange wordRange : Range)
    (hviol : ¬ (run.range.containsRange contextRange ∧
      contextRange.containsRange wordRange)) :
    populateHyphenationPoints ext run hyphenator contextRange wordRange = [] ∧
    (∀ (desperates : List DesperateBreak) (proc : CharProcessor) (pen : ℚ)
        (out : OptimizeContext),
      appendWithMerging
          (populateHyphenationPoints ext run hyphenator contextRange wordRange)
          desperates proc pen run.isRtl out =
        { out with candidates := out.candidates ++
            desperates.map (despCandidate proc run.isRtl) }) := by
  have hempty : populateHyphenationPoints ext run hyphenator contextRange wordRange = [] := by
    unfold populateHyphenationPoints
    rw [if_pos hviol]
  refine ⟨hempty, fun desperates proc pen out => ?_⟩
  rw [hempty, appendWithMerging_eq, mergedBlock_nil_hyphens]

/-- Witness for C8 at a concrete out-of-range context. -/
theorem claim_C8_rangeViolation_witness :
    populateHyphenationPoints
        ⟨fun _ => 0, fun _ _ => 0, fun _ _ => 0, fun _ _ => ⟨0, 0⟩, fun _ _ => 0,
          fun _ => 0, fun _ _ => [], fun _ => false, fun _ => false⟩
        ⟨⟨0, 3⟩, false, 0, true, 1, 1, fun _ _ _ => 0⟩ 0 ⟨0, 5⟩ ⟨0, 5⟩ = [] :=
  (claim_C8_rangeViolation _ _ 0 ⟨0, 5⟩ ⟨0, 5⟩ (by
    intro hc
    exact absurd hc.1.2 (by norm_num [Range.containsRange]))).1


/-- C7. populateDesperatePoints enumerates exactly the interior positions of the
context range whose measured width is non-zero, each carrying the cumulative width sum
from the context start; and at each word-break transition the character step enumerates
them if and only if the cumulative width since the last word break exceeds the minimum
line width (else the empty list is merged). -/
theorem claim_C7_desperateEnum :
    (∀ (measured : MeasuredText) (r : Range),
      populateDesperatePoints measured r =
        (List.range' (r.start + 1) (r.stop - (r.start + 1))).filterMap fun i =>
          if measured.widths i ≠ 0 then
            some ⟨i, ∑ k ∈ Finset.Ico r.start i, measured.widths k⟩
          else none) ∧
    (∀ (ext : LineBreakExternals) (measured : MeasuredText) (minLineWidth : ℚ)
        (frequency : HyphenationFrequency) (run : Run) (hyphenPenalty : ℚ)
        (st : CharProcessor × OptimizeContext) (i : Nat) (proc : CharProcessor),
      st.1.feedChar ext i (ext.text i) (measured.widths i) = some proc →
      i + 1 = proc.nextWordBreak →
      runCharStep ext measured minLineWidth frequency run hyphenPenalty st i =
        some (proc,
          let merged := appendWithMerging
            (if run.canHyphenate ∧ frequency ≠ HyphenationFrequency.None then
              populateHyphenationPoints ext run proc.hyphenator proc.contextRange
                (CharProcessor.wordRange ext proc)
            else [])
            (if proc.widthFromLastWordBreak > minLineWidth then
              populateDesperatePoints measured proc.contextRange
            else [])
            proc hyphenPenalty run.isRtl st.2
          if i + 1 = run.range.stop ∨ measured.widths (i + 1) > 0 then
            merged.pushWordBreak (i + 1) proc.sumOfCharWidths proc.effectiveWidth
              (hyphenPenalty * (ext.breakBadness proc.prevWordBreak proc.nextWordBreak : ℚ))
              proc.rawSpaceCount proc.effectiveSpaceCount run.isRtl
          else merged)) := by
  refine ⟨populateDesperatePoints_eq, ?_⟩
  intro ext measured minLineWidth frequency run hyphenPenalty st i proc hfeed htrans
  unfold runCharStep
  rw [hfeed]
  simp only [Option.bind_eq_bind, Option.some_bind, ← htrans]
  simp

/-- Witness for C7: the enumeration on a concrete three-character context, and a
concrete word-break transition step. -/
theorem claim_C7_desperateEnum_witness :
    populateDesperatePoints ⟨fun _ => 10, fun _ => ⟨0, 0, 0⟩, []⟩ ⟨0, 3⟩ =
      [⟨1, 10⟩, ⟨2, 20⟩] ∧
    ∃ res,
      runCharStep
        ⟨fun _ => 97, fun _ _ => 1, fun _ s => s, fun p n => ⟨p, n⟩, fun _ _ => 0,
          fun _ => 0, fun _ _ => [], fun _ => false, fun _ => false⟩
        ⟨fun _ => 10, fun _ => ⟨0, 0, 0⟩, []⟩ 0 HyphenationFrequency.None
        ⟨⟨0, 3⟩, false, 0, false, 1, 1, fun _ _ _ => 0⟩ 0
        (CharProcessor.init, OptimizeContext.init) 0 = some res := by
  constructor
  · rw [claim_C7_desperateEnum.1 ⟨fun _ => 10, fun _ => ⟨0, 0, 0⟩, []⟩ ⟨0, 3⟩]
    norm_num [List.range']
    norm_num [List.filterMap]
  · exact ⟨_, claim_C7_desperateEnum.2
      ⟨fun _ => 97, fun _ _ => 1, fun _ s => s, fun p n => ⟨p, n⟩, fun _ _ => 0,
        fun _ => 0, fun _ _ => [], fun _ => false, fun _ => false⟩
      ⟨fun _ => 10, fun _ => ⟨0, 0, 0⟩, []⟩ 0 HyphenationFrequency.None
      ⟨⟨0, 3⟩, false, 0, false, 1, 1, fun _ _ _ => 0⟩ 0
      (CharProcessor.init, OptimizeContext.init) 0
      ⟨0, 0, 10, 10, 0, 1, 0, 0, 0, none, 0⟩
      (by unfold CharProcessor.feedChar CharProcessor.init; norm_num [CHAR_TAB]) rfl⟩

set_option maxHeartbeats 1000000 in
/-- C2. The claim says: for every candidate list produced by populateCandidates and
every pair of indices i < j, candidates[j].postBreak - candidates[i].preBreak ≥ 0.
This is false: with two adjacent line-end spaces the desperate candidates emitted
inside the trailing space run carry raw cumulative widths (preBreak) that exceed the
effective width (postBreak) of the following word-break candidate; in the paragraph
"aa␣␣a" the desperate candidate at offset 3 has preBreak 25 while the word break at
offset 4 has postBreak 20. -/
theorem claim_C2_pairWidth_counterexample :
    ∃ ctx, populateCandidates doubleSpaceExt doubleSpaceMeasured ⟨fun _ => 15, 15⟩
        HyphenationFrequency.None false = some ctx ∧
      ∃ i j, i < j ∧ j < ctx.candidates.length ∧
        (ctx.candidates.getD j default).postBreak -
          (ctx.candidates.getD i default).preBreak < 0 := by
  refine ⟨⟨[⟨0, 0, 0, 0, 0, 0, HyphenationType.DONT_BREAK, false⟩,
      ⟨1, 10, 10, SCORE_DESPERATE, 0, 0, HyphenationType.BREAK_AND_DONT_INSERT_HYPHEN,
        false⟩,
      ⟨2, 20, 20, SCORE_DESPERATE, 0, 0, HyphenationType.BREAK_AND_DONT_INSERT_HYPHEN,
        false⟩,
      ⟨3, 25, 25, SCORE_DESPERATE, 0, 0, HyphenationType.BREAK_AND_DONT_INSERT_HYPHEN,
        false⟩,
      ⟨4, 30, 20, 0, 2, 0, HyphenationType.DONT_BREAK, false⟩,
      ⟨5, 40, 40, 0, 2, 2, HyphenationType.DONT_BREAK, false⟩], 0, 5⟩, ?_, 3, 4,
    by norm_num, by norm_num, ?_⟩
  · simp only [populateCandidates, processRun, runCharStep, CharProcessor.feedChar,
      CharProcessor.updateLocaleIfNecessary, CharProcessor.init, OptimizeContext.init,
      appendWithMerging, appendMergeLoop, populateDesperatePoints, desperateLoop,
      populateHyphenationPoints, OptimizeContext.pushDesperate,
      OptimizeContext.pushWordBreak, OptimizeContext.pushHyphenation,
      CharProcessor.contextRange, CharProcessor.wordRange,
      CharProcessor.widthFromLastWordBreak, SCORE_DESPERATE, CHAR_TAB, doubleSpaceExt,
      doubleSpaceMeasured, List.range', computePenalties, ne_eq, reduceCtorEq,
      Option.some.injEq, Range.containsRange, Range.split, Range.toRangeOffset,
      List.foldlM, Option.bind_eq_bind, Option.some_bind]
    norm_num
    norm_num [appendMergeLoop, desperateLoop, List.range', OptimizeContext.pushDesperate,
      OptimizeContext.pushWordBreak, OptimizeContext.pushHyphenation, SCORE_DESPERATE]
  · norm_num [List.getD]

/-- C2 (amended). Under the builder hypotheses — non-negative character widths, hyphen
piece measures dominating the piece's summed advances, strictly advancing word
boundaries, following() at or after the queried offset, a single locale list over a
contiguous run tiling, and no two adjacent line-end spaces — every pair of candidates
in order satisfies candidates[j].postBreak - candidates[i].preBreak ≥ 0. -/
theorem claim_C2_pairWidth_amended (ext : LineBreakExternals) (measured : MeasuredText)
    (lineWidth : LineWidth) (freq : HyphenationFrequency) (justified : Bool)
    (Lid N : Nat) (ctx : OptimizeContext)
    (Hw : ∀ p, 0 ≤ measured.widths p)
    (Hm : ∀ run ∈ measured.runs, ∀ (r : Range) se ee,
      (∑ k ∈ Finset.Ico r.start r.stop, measured.widths k) ≤
        run.measureHyphenPiece r se ee)
    (Hnext : ∀ loc p, p < ext.nextBoundary loc p)
    (Hfoll : ∀ loc s, s ≤ ext.followingBoundary loc s)
    (Hadj : ∀ k, ¬ (ext.isLineEndSpaceFn (ext.text k) = true ∧
      ext.isLineEndSpaceFn (ext.text (k + 1)) = true))
    (Hlid : ∀ r ∈ measured.runs, r.localeListId = Lid)
    (Htile : runsTile measured.runs 0 N)
    (hres : populateCandidates ext measured lineWidth freq justified = some ctx) :
    List.Pairwise (fun a b : Candidate => 0 ≤ b.postBreak - a.preBreak)
      ctx.candidates := by
  have h := (populateCandidates_invariant ext measured lineWidth freq justified Lid N
    ctx Hw Hm Hnext Hfoll Hadj Hlid Htile hres).1
  refine h.imp ?_
  intro a b hab
  linarith

/-- Witness for the amended C2 theorem: the one-word paragraph satisfies every
hypothesis and its candidate list has pairwise non-negative line widths. -/
theorem claim_C2_pairWidth_amended_witness :
    ∃ ctx, populateCandidates oneWordExt oneWordMeasured ⟨fun _ => 8, 0⟩
        HyphenationFrequency.None false = some ctx ∧
      List.Pairwise (fun a b : Candidate => 0 ≤ b.postBreak - a.preBreak)
        ctx.candidates := by
  have hfold : oneWordMeasured.runs.foldlM
      (processRun oneWordExt oneWordMeasured ⟨fun _ => 8, 0⟩ HyphenationFrequency.None
        false (LineWidth.getMin ⟨fun _ => 8, 0⟩))
      (CharProcessor.init, OptimizeContext.init) ≠ none := by
    intro hcon
    obtain ⟨p, _, hp⟩ := (runsFold_none_iff oneWordExt oneWordMeasured ⟨fun _ => 8, 0⟩
      HyphenationFrequency.None false (LineWidth.getMin ⟨fun _ => 8, 0⟩)
      oneWordMeasured.runs (CharProcessor.init, OptimizeContext.init)).mp hcon
    revert hp
    norm_num [oneWordExt, CHAR_TAB]
  obtain ⟨st, hst⟩ := Option.ne_none_iff_exists'.mp hfold
  have hres : populateCandidates oneWordExt oneWordMeasured ⟨fun _ => 8, 0⟩
      HyphenationFrequency.None false =
      some { st.2 with spaceWidth := st.1.spaceWidth } := by
    unfold populateCandidates
    dsimp only
    rw [hst]
    rfl
  refine ⟨_, hres, claim_C2_pairWidth_amended oneWordExt oneWordMeasured ⟨fun _ => 8, 0⟩
    HyphenationFrequency.None false 7 3 _ ?_ ?_ ?_ ?_ ?_ ?_ ?_ hres⟩
  · intro p
    norm_num [oneWordMeasured]
  · intro run hrun r se ee
    simp only [oneWordMeasured, List.mem_singleton] at hrun
    subst hrun
    simp only [oneWordMeasured]
    rw [Finset.sum_const, Nat.card_Ico, nsmul_eq_mul, mul_one]
  · intro loc p
    norm_num [oneWordExt]
  · intro loc s
    norm_num [oneWordExt]
  · intro k
    norm_num [oneWordExt]
  · intro r hr
    simp only [oneWordMeasured, List.mem_singleton] at hr
    subst hr
    rfl
  · exact ⟨rfl, by norm_num, rfl⟩

set_option maxHeartbeats 1000000 in
/-- C5. The claim says: the candidate sequence emitted by populateCandidates is
monotonically non-decreasing in offset, and at equal offsets a desperate candidate is
appended before the hyphenation candidate. The monotonicity half is false as stated:
across two runs with different locale lists, updateLocaleIfNecessary advances
nextWordBreak to the new locale's boundary but leaves prevWordBreak behind, so the next
word's context [prevWordBreak, nextWordBreak) reaches back over an already-pushed word
break and the desperate candidates emitted from it regress: here the sequence of
offsets is 0, 1, 2, 1, 2, 3, 4. -/
theorem claim_C5_candidateOrder_counterexample :
    ∃ ctx, populateCandidates mixedLocaleExt mixedLocaleMeasured ⟨fun _ => 5, 0⟩
        HyphenationFrequency.None false = some ctx ∧
      ∃ i j, i < j ∧ j < ctx.candidates.length ∧
        (ctx.candidates.getD j default).offset <
          (ctx.candidates.getD i default).offset := by
  refine ⟨⟨[⟨0, 0, 0, 0, 0, 0, HyphenationType.DONT_BREAK, false⟩,
      ⟨1, 1, 1, SCORE_DESPERATE, 0, 0, HyphenationType.BREAK_AND_DONT_INSERT_HYPHEN,
        false⟩,
      ⟨2, 2, 2, 0, 0, 0, HyphenationType.DONT_BREAK, false⟩,
      ⟨1, 1, 1, SCORE_DESPERATE, 0, 0, HyphenationType.BREAK_AND_DONT_INSERT_HYPHEN,
        false⟩,
      ⟨2, 2, 2, SCORE_DESPERATE, 0, 0, HyphenationType.BREAK_AND_DONT_INSERT_HYPHEN,
        false⟩,
      ⟨3, 3, 3, SCORE_DESPERATE, 0, 0, HyphenationType.BREAK_AND_DONT_INSERT_HYPHEN,
        false⟩,
      ⟨4, 4, 4, 0, 0, 0, HyphenationType.DONT_BREAK, false⟩], 0, 0⟩, ?_, 2, 3,
    by norm_num, by norm_num, ?_⟩
  · simp only [populateCandidates, processRun, runCharStep, CharProcessor.feedChar,
      CharProcessor.updateLocaleIfNecessary, CharProcessor.init, OptimizeContext.init,
      appendWithMerging, appendMergeLoop, populateDesperatePoints, desperateLoop,
      populateHyphenationPoints, OptimizeContext.pushDesperate,
      OptimizeContext.pushWordBreak, OptimizeContext.pushHyphenation,
      CharProcessor.contextRange, CharProcessor.wordRange,
      CharProcessor.widthFromLastWordBreak, SCORE_DESPERATE, CHAR_TAB, mixedLocaleExt,
      mixedLocaleMeasured, List.range', computePenalties, ne_eq, reduceCtorEq,
      Option.some.injEq, Range.containsRange, Range.split, Range.toRangeOffset,
      List.foldlM, Option.bind_eq_bind, Option.some_bind]
    norm_num
    norm_num [appendMergeLoop, desperateLoop, List.range', OptimizeContext.pushDesperate,
      OptimizeContext.pushWordBreak, OptimizeContext.pushHyphenation, SCORE_DESPERATE]
  · norm_num [List.getD]

/-- C5 (amended). With word boundaries that strictly advance, following() returning a
boundary at or after the queried offset, and a single locale list over a contiguous run
tiling — but with no assumption on character widths, hyphen measures or spaces — the
candidate sequence is monotonically non-decreasing in offset; and unconditionally,
whenever a desperate break and a hyphenation break share an offset, the merge emits the
desperate candidate strictly before the hyphenation candidate. -/
theorem claim_C5_candidateOrder_amended :
    (∀ (ext : LineBreakExternals) (measured : MeasuredText) (lineWidth : LineWidth)
      (freq : HyphenationFrequency) (justified : Bool) (Lid N : Nat)
      (ctx : OptimizeContext),
      (∀ loc p, p < ext.nextBoundary loc p) →
      (∀ loc s, s ≤ ext.followingBoundary loc s) →
      (∀ r ∈ measured.runs, r.localeListId = Lid) →
      runsTile measured.runs 0 N →
      populateCandidates ext measured lineWidth freq justified = some ctx →
      List.Pairwise (fun a b : Candidate => a.offset ≤ b.offset) ctx.candidates) ∧
    (∀ (proc : CharProcessor) (pen : ℚ) (rtl : Bool) (hs : List HyphenBreak)
      (ds : List DesperateBreak) (h : HyphenBreak) (d : DesperateBreak),
      List.Pairwise (fun a b : DesperateBreak => a.offset < b.offset) ds →
      h ∈ hs → d ∈ ds → d.offset = h.offset →
      ∃ l₁ l₂ l₃, mergedBlock proc pen rtl hs ds =
        l₁ ++ despCandidate proc rtl d ::
          (l₂ ++ hyphCandidate proc pen rtl h :: l₃)) := by
  constructor
  · intro ext measured lineWidth freq justified Lid N ctx Hnext Hfoll Hlid Htile hres
    exact populateCandidates_offsetMono ext measured lineWidth freq justified Lid N ctx
      Hnext Hfoll Hlid Htile hres
  · intro proc pen rtl hs ds h d hds hh hd hoff
    exact mergedBlock_tie proc pen rtl (hs.length + ds.length) hs ds h d le_rfl hds
      hh hd hoff

/-- Witness for the amended C5 theorem: the one-word paragraph satisfies the boundary
and locale hypotheses and its candidate list is offset-sorted, and a concrete
equal-offset pair merges with the desperate candidate first. -/
theorem claim_C5_candidateOrder_amended_witness :
    (∃ ctx, populateCandidates oneWordExt oneWordMeasured ⟨fun _ => 8, 0⟩
        HyphenationFrequency.None false = some ctx ∧
      List.Pairwise (fun a b : Candidate => a.offset ≤ b.offset) ctx.candidates) ∧
    (∃ l₁ l₂ l₃, mergedBlock CharProcessor.init (0 : ℚ) false
        [⟨2, HyphenationType.BREAK_AND_INSERT_HYPHEN, 1, 1⟩] [⟨2, 1⟩] =
      l₁ ++ despCandidate CharProcessor.init false ⟨2, 1⟩ ::
        (l₂ ++ hyphCandidate CharProcessor.init 0 false
          ⟨2, HyphenationType.BREAK_AND_INSERT_HYPHEN, 1, 1⟩ :: l₃)) := by
  constructor
  · have hfold : oneWordMeasured.runs.foldlM
        (processRun oneWordExt oneWordMeasured ⟨fun _ => 8, 0⟩ HyphenationFrequency.None
          false (LineWidth.getMin ⟨fun _ => 8, 0⟩))
        (CharProcessor.init, OptimizeContext.init) ≠ none := by
      intro hcon
      obtain ⟨p, _, hp⟩ := (runsFold_none_iff oneWordExt oneWordMeasured ⟨fun _ => 8, 0⟩
        HyphenationFrequency.None false (LineWidth.getMin ⟨fun _ => 8, 0⟩)
        oneWordMeasured.runs (CharProcessor.init, OptimizeContext.init)).mp hcon
      revert hp
      norm_num [oneWordExt, CHAR_TAB]
    obtain ⟨st, hst⟩ := Option.ne_none_iff_exists'.mp hfold
    have hres : populateCandidates oneWordExt oneWordMeasured ⟨fun _ => 8, 0⟩
        HyphenationFrequency.None false =
        some { st.2 with spaceWidth := st.1.spaceWidth } := by
      unfold populateCandidates
      dsimp only
      rw [hst]
      rfl
    refine ⟨_, hres, claim_C5_candidateOrder_amended.1 oneWordExt oneWordMeasured
      ⟨fun _ => 8, 0⟩ HyphenationFrequency.None false 7 3 _ ?_ ?_ ?_ ?_ hres⟩
    · intro loc p
      norm_num [oneWordExt]
    · intro loc s
      norm_num [oneWordExt]
    · intro r hr
      simp only [oneWordMeasured, List.mem_singleton] at hr
      subst hr
      rfl
    · exact ⟨rfl, by norm_num, rfl⟩
  · exact claim_C5_candidateOrder_amended.2 CharProcessor.init 0 false
      [⟨2, HyphenationType.BREAK_AND_INSERT_HYPHEN, 1, 1⟩] [⟨2, 1⟩]
      ⟨2, HyphenationType.BREAK_AND_INSERT_HYPHEN, 1, 1⟩ ⟨2, 1⟩
      (by simp) (by simp) (by simp) rfl

end minikin
